import Mathlib

/-!
Verification of the pivoted-LDL and proxy subsystems of the Elemental
distributed linear-algebra library.

The development shallowly embeds the routines of
`include/elemental/lapack-like/LDL/Pivoted.hpp`, the proxy classes of the
`Proxy.hpp` header, and the distribution tables of
`src/core/DistMatrix-C.cpp` over an exact-arithmetic field (`ℚ`).
Matrices are total functions `ℕ → ℕ → ℚ` together with explicitly carried
dimensions; the algorithms only ever read the lower triangle, matching the
lower-storage convention of the source.
-/

namespace Elemental

/-- A matrix is a total function on indices; heights/widths are carried
separately by each routine, mirroring `Matrix<F>` with `F` embedded as `ℚ`. -/
abbrev Mat := ℕ → ℕ → ℚ

/-- Result of `VectorMax`: the maximum magnitude and the index attaining it. -/
structure ValueInt where
  value : ℚ
  index : ℕ
  deriving Repr, DecidableEq

/-- Result of `SymmetricMax`: maximum magnitude and the index pair. -/
structure ValueIntPair where
  value : ℚ
  index0 : ℕ
  index1 : ℕ
  deriving Repr, DecidableEq

/-- Fold underlying `VectorMax`: scans the entries, strictly improving the
running best, so the first index attaining the maximum magnitude is kept. -/
def vmFold : List ℚ → ℕ → ValueInt → ValueInt
  | [], _, best => best
  | x :: rest, i, best =>
      vmFold rest (i + 1) (if |x| > best.value then ⟨|x|, i⟩ else best)

/-- Modelled from the spec: `VectorMax` (blas-like/level1/Max.hpp, which is not
under src/) returns the maximum magnitude over the entries of a vector,
together with the index attaining it ("`ω` = max magnitude of the strict
sub-diagonal in column 0 at row `r`"); on an empty vector it returns value `0`
at index `0`. -/
def VectorMax (xs : List ℚ) : ValueInt := vmFold xs 0 ⟨0, 0⟩

/-- The entries `A(i0,j), A(i0+1,j), …, A(i1-1,j)` of column `j`:
the column segment selected by `LockedViewRange(A,i0,j,i1,j+1)`. -/
def colSeg (A : Mat) (j i0 i1 : ℕ) : List ℚ :=
  (List.range (i1 - i0)).map fun t => A (i0 + t) j

/-- The entries `A(i,j0), …, A(i,j1-1)` of row `i`:
the row segment selected by `LockedViewRange(A,i,j0,i+1,j1)`. -/
def rowSeg (A : Mat) (i j0 j1 : ℕ) : List ℚ :=
  (List.range (j1 - j0)).map fun t => A i (j0 + t)

/-- The source's `LDLPivot` record: block size `nb` (1 or 2) and the source
indices `from[0]`, `from[1]` of the pivot. -/
structure LDLPivot where
  nb : ℕ
  from0 : ℕ
  from1 : ℕ
  deriving Repr, DecidableEq

/-- Errors thrown by the factorization routines:
`SingularMatrixException` and `LogicError`. -/
inductive LDLError where
  | singular
  | logic
  deriving Repr, DecidableEq

/-- The source replaces a zero `gamma` argument by the strategy's default
threshold before pivot selection (`if( gamma == Real(0) ) gamma = …`). -/
def resolveGamma (gammaDef gamma : ℚ) : ℚ :=
  if gamma = 0 then gammaDef else gamma

/-- The Bunch-Kaufman "D" default threshold `Real(525)/1000`. -/
def gammaDefD : ℚ := 525 / 1000

/-- `ldl::pivot::BunchKaufmanA` on an `n × n` trailing matrix.  The default
threshold `(1+Sqrt(17))/8` is irrational, hence not an element of the exact
field `ℚ`; it is abstracted as the parameter `gammaDef`, substituted exactly
when the caller passes `gamma = 0` as in the source. -/
def BunchKaufmanA (A : Mat) (n : ℕ) (gammaDef gamma : ℚ) :
    Except LDLError LDLPivot :=
  let g := resolveGamma gammaDef gamma
  let alpha11Abs := |A 0 0|
  let a21Max := VectorMax (colSeg A 0 1 n)
  if a21Max.value = 0 ∧ alpha11Abs = 0 then .error .singular
  else if alpha11Abs ≥ g * a21Max.value then .ok ⟨1, 0, 0⟩
  else
    let r := a21Max.index + 1
    let leftMax := VectorMax (rowSeg A r 0 r)
    let bottomMax := VectorMax (colSeg A r (r + 1) n)
    let rowMaxVal := max leftMax.value bottomMax.value
    if alpha11Abs ≥ g * a21Max.value * (a21Max.value / rowMaxVal) then
      .ok ⟨1, 0, 0⟩
    else if |A r r| ≥ g * rowMaxVal then .ok ⟨1, r, 0⟩
    else .ok ⟨2, 0, r⟩

/-- `ldl::pivot::BunchKaufmanD`: same structure as the A strategy except that
the default threshold is `525/1000`, the "bottom" search window starts at row
`r` (so it contains the diagonal entry `(r,r)`), and there is no second
1×1-at-`r` test. -/
def BunchKaufmanD (A : Mat) (n : ℕ) (gamma : ℚ) :
    Except LDLError LDLPivot :=
  let g := resolveGamma gammaDefD gamma
  let alpha11Abs := |A 0 0|
  let a21Max := VectorMax (colSeg A 0 1 n)
  if a21Max.value = 0 ∧ alpha11Abs = 0 then .error .singular
  else if alpha11Abs ≥ g * a21Max.value then .ok ⟨1, 0, 0⟩
  else
    let r := a21Max.index + 1
    let leftMax := VectorMax (rowSeg A r 0 r)
    let bottomMax := VectorMax (colSeg A r r n)
    let rowMaxVal := max leftMax.value bottomMax.value
    if alpha11Abs ≥ g * a21Max.value * (a21Max.value / rowMaxVal) then
      .ok ⟨1, 0, 0⟩
    else .ok ⟨2, 0, r⟩

/-- The lazily corrected panel column `k`:
`zB1(t) = A(k+t,k) - Σ_{j<k} X(k+t,j)·Y(k,j)`, the result of
`Gemv(NORMAL, -1, X(k:n-1,0:k-1), Y(k,0:k-1), 1, zB1)` applied to a fresh
copy of `A(k:n-1,k)` in the panel pivot routines. -/
def panelZB1 (A X Y : Mat) (k : ℕ) : ℕ → ℚ := fun t =>
  A (k + t) k - ∑ j ∈ Finset.range k, X (k + t) j * Y k j

/-- The lazily corrected left row segment at pivot row `r`:
`zLeft(c) = A(r,k+c) - Σ_{j<k} Y(k+c,j)·X(r,j)`, the result of
`Gemv(NORMAL, -1, Y(k:r-1,0:k-1), X(r,0:k-1), 1, zLeft)` applied to a fresh
copy of `A(r,k:r-1)`. -/
def panelZLeft (A X Y : Mat) (k r : ℕ) : ℕ → ℚ := fun c =>
  A r (k + c) - ∑ j ∈ Finset.range k, Y (k + c) j * X r j

/-- The lazily corrected bottom column segment at pivot row `r`:
`zBottom(t) = A(r+t,r) - Σ_{j<k} X(r+t,j)·Y(r,j)`, the result of
`Gemv(NORMAL, -1, X(r:n-1,0:k-1), Y(r,0:k-1), 1, zBottom)` applied to a fresh
copy of `A(r:n-1,r)`. -/
def panelZBottom (A X Y : Mat) (k r : ℕ) : ℕ → ℚ := fun t =>
  A (r + t) r - ∑ j ∈ Finset.range k, X (r + t) j * Y r j

/-- The list `[f i0, f (i0+1), …, f (i1-1)]` of values of a corrected column;
used to feed the corrected segments to `VectorMax`. -/
def segOf (f : ℕ → ℚ) (i0 i1 : ℕ) : List ℚ :=
  (List.range (i1 - i0)).map fun t => f (i0 + t)

/-- `ldl::pivot::PanelBunchKaufmanA`: the Bunch-Kaufman A decision applied to
the lazily corrected column `k` and, when needed, the corrected row/column
pair at the candidate row `r`.  As in `BunchKaufmanA`, the irrational default
threshold is abstracted as `gammaDef`. -/
def PanelBunchKaufmanA (A X Y : Mat) (n k : ℕ) (gammaDef gamma : ℚ) :
    Except LDLError LDLPivot :=
  let g := resolveGamma gammaDef gamma
  let zB1 := panelZB1 A X Y k
  let alpha11Abs := |zB1 0|
  let a21Max := VectorMax (segOf zB1 1 (n - k))
  if a21Max.value = 0 ∧ alpha11Abs = 0 then .error .singular
  else if alpha11Abs ≥ g * a21Max.value then .ok ⟨1, k, 0⟩
  else
    let r := a21Max.index + (k + 1)
    let zLeft := panelZLeft A X Y k r
    let zBottom := panelZBottom A X Y k r
    let leftMax := VectorMax (segOf zLeft 0 (r - k))
    let bottomMax := VectorMax (segOf zBottom 1 (n - r))
    let rowMaxVal := max leftMax.value bottomMax.value
    if alpha11Abs ≥ g * a21Max.value * (a21Max.value / rowMaxVal) then
      .ok ⟨1, k, 0⟩
    else if |zBottom 0| ≥ g * rowMaxVal then .ok ⟨1, r, 0⟩
    else .ok ⟨2, k, r⟩

/-- `ldl::pivot::PanelBunchKaufmanD`: as `PanelBunchKaufmanA` but with the
exact default threshold `525/1000`, a bottom window that includes the
diagonal entry `(r,r)` (it takes `VectorMax` of all of `zBottom`, not of its
strict part), and no second 1×1 test. -/
def PanelBunchKaufmanD (A X Y : Mat) (n k : ℕ) (gamma : ℚ) :
    Except LDLError LDLPivot :=
  let g := resolveGamma gammaDefD gamma
  let zB1 := panelZB1 A X Y k
  let alpha11Abs := |zB1 0|
  let a21Max := VectorMax (segOf zB1 1 (n - k))
  if a21Max.value = 0 ∧ alpha11Abs = 0 then .error .singular
  else if alpha11Abs ≥ g * a21Max.value then .ok ⟨1, k, 0⟩
  else
    let r := a21Max.index + (k + 1)
    let zLeft := panelZLeft A X Y k r
    let zBottom := panelZBottom A X Y k r
    let leftMax := VectorMax (segOf zLeft 0 (r - k))
    let bottomMax := VectorMax (segOf zBottom 0 (n - r))
    let rowMaxVal := max leftMax.value bottomMax.value
    if alpha11Abs ≥ g * a21Max.value * (a21Max.value / rowMaxVal) then
      .ok ⟨1, k, 0⟩
    else .ok ⟨2, k, r⟩

/-- Modelled from the spec: `DiagonalMax` (not under src/) computes "the true
maximum-magnitude diagonal entry" over the trailing submatrix, with the index
attaining it. -/
def DiagonalMax (A : Mat) (n : ℕ) : ValueInt :=
  VectorMax ((List.range n).map fun i => A i i)

/-- Fold underlying `SymmetricMax`: scans the strictly-lower entries in
column-major order, keeping the first pair attaining the maximum magnitude. -/
def smFold (A : Mat) : List (ℕ × ℕ) → ValueIntPair → ValueIntPair
  | [], best => best
  | (i, j) :: rest, best =>
      smFold A rest (if |A i j| > best.value then ⟨|A i j|, i, j⟩ else best)

/-- All strictly-lower index pairs `(i,j)`, `j < i < n`, column-major. -/
def lowerPairs (n : ℕ) : List (ℕ × ℕ) :=
  (List.range n).flatMap fun j =>
    (List.range (n - (j + 1))).map fun t => (j + 1 + t, j)

/-- Modelled from the spec: `SymmetricMax(LOWER, A)` (not under src/) computes
"the true maximum-magnitude strict-lower-triangle entry over the entire
trailing submatrix", with the index pair attaining it. -/
def SymmetricMax (A : Mat) (n : ℕ) : ValueIntPair :=
  smFold A (lowerPairs n) ⟨0, 0, 0⟩

/-- `ldl::pivot::BunchParlett`: 1×1 at the diagonal argmax if it dominates the
off-diagonal maximum by the factor `gamma`, else 2×2 at the off-diagonal
argmax pair.  The routine contains no throw statement. -/
def BunchParlett (A : Mat) (n : ℕ) (gammaDef gamma : ℚ) : LDLPivot :=
  let g := resolveGamma gammaDef gamma
  let diagMax := DiagonalMax A n
  let offDiagMax := SymmetricMax A n
  if diagMax.value ≥ g * offDiagMax.value then ⟨1, diagMax.index, 0⟩
  else ⟨2, offDiagMax.index0, offDiagMax.index1⟩

/-- The source's `LDLPivotType` selector. -/
inductive LDLPivotType where
  | BUNCH_KAUFMAN_A
  | BUNCH_KAUFMAN_C
  | BUNCH_KAUFMAN_D
  | BUNCH_PARLETT
  deriving Repr, DecidableEq

/-- `ldl::ChoosePivot`: dispatches on the pivot type; `BUNCH_KAUFMAN_C`
shares the A selector, unsupported types raise `LogicError`.  (Every type of
the enumeration is handled, so the default branch is unreachable here, but it
is kept to mirror the switch.) -/
def ChoosePivot (A : Mat) (n : ℕ) (pivotType : LDLPivotType)
    (gammaDef gamma : ℚ) : Except LDLError LDLPivot :=
  match pivotType with
  | .BUNCH_KAUFMAN_A => BunchKaufmanA A n gammaDef gamma
  | .BUNCH_KAUFMAN_C => BunchKaufmanA A n gammaDef gamma
  | .BUNCH_KAUFMAN_D => BunchKaufmanD A n gamma
  | .BUNCH_PARLETT => .ok (BunchParlett A n gammaDef gamma)

/-- `ldl::ChoosePanelPivot`: dispatches on the pivot type; only the
Bunch-Kaufman A/C/D strategies support panel-style lazy accumulation, every
other selector raises `LogicError`. -/
def ChoosePanelPivot (A X Y : Mat) (n k : ℕ) (pivotType : LDLPivotType)
    (gammaDef gamma : ℚ) : Except LDLError LDLPivot :=
  match pivotType with
  | .BUNCH_KAUFMAN_A => PanelBunchKaufmanA A X Y n k gammaDef gamma
  | .BUNCH_KAUFMAN_C => PanelBunchKaufmanA A X Y n k gammaDef gamma
  | .BUNCH_KAUFMAN_D => PanelBunchKaufmanD A X Y n k gamma
  | .BUNCH_PARLETT => .error .logic

/-! ### Properties of `VectorMax` -/

theorem vmFold_mono (xs : List ℚ) (i : ℕ) (best : ValueInt) :
    best.value ≤ (vmFold xs i best).value := by
  induction xs generalizing i best with
  | nil => exact le_refl _
  | cons x rest ih =>
      refine le_trans ?_ (ih (i + 1) _)
      by_cases h : |x| > best.value
      · simp only [if_pos h]
        exact le_of_lt h
      · simp only [if_neg h]
        exact le_refl _

theorem vmFold_le (xs : List ℚ) (i : ℕ) (best : ValueInt) :
    ∀ x ∈ xs, |x| ≤ (vmFold xs i best).value := by
  induction xs generalizing i best with
  | nil => intro x hx; exact absurd hx (List.not_mem_nil x)
  | cons y rest ih =>
      intro x hx
      rcases List.mem_cons.mp hx with h | h
      · subst h
        refine le_trans ?_ (vmFold_mono rest (i + 1) _)
        by_cases hy : |x| > best.value
        · simp only [if_pos hy]; exact le_refl _
        · simp only [if_neg hy]; exact le_of_not_lt hy
      · exact ih (i + 1) _ x h

theorem vmFold_attain (xs : List ℚ) (i : ℕ) (best : ValueInt) :
    vmFold xs i best = best ∨
      ∃ t, t < xs.length ∧ (vmFold xs i best).index = i + t ∧
        (vmFold xs i best).value = |xs.getD t 0| := by
  induction xs generalizing i best with
  | nil => exact Or.inl rfl
  | cons x rest ih =>
      rcases ih (i + 1) (if |x| > best.value then ⟨|x|, i⟩ else best) with h | h
      · by_cases hx : |x| > best.value
        · right
          refine ⟨0, Nat.succ_pos _, ?_, ?_⟩
          · rw [show vmFold (x :: rest) i best
                = vmFold rest (i + 1) (if |x| > best.value then ⟨|x|, i⟩ else best)
                from rfl, h, if_pos hx]
            rfl
          · rw [show vmFold (x :: rest) i best
                = vmFold rest (i + 1) (if |x| > best.value then ⟨|x|, i⟩ else best)
                from rfl, h, if_pos hx]
            rfl
        · left
          rw [show vmFold (x :: rest) i best
              = vmFold rest (i + 1) (if |x| > best.value then ⟨|x|, i⟩ else best)
              from rfl, h, if_neg hx]
      · rcases h with ⟨t, ht, hidx, hval⟩
        right
        refine ⟨t + 1, Nat.succ_lt_succ ht, ?_, ?_⟩
        · rw [show vmFold (x :: rest) i best
              = vmFold rest (i + 1) (if |x| > best.value then ⟨|x|, i⟩ else best)
              from rfl, hidx]
          omega
        · rw [show vmFold (x :: rest) i best
              = vmFold rest (i + 1) (if |x| > best.value then ⟨|x|, i⟩ else best)
              from rfl, hval]
          rfl

theorem VectorMax_nonneg (xs : List ℚ) : 0 ≤ (VectorMax xs).value :=
  vmFold_mono xs 0 ⟨0, 0⟩

theorem VectorMax_le (xs : List ℚ) : ∀ x ∈ xs, |x| ≤ (VectorMax xs).value :=
  vmFold_le xs 0 ⟨0, 0⟩

theorem VectorMax_attain (xs : List ℚ) :
    (VectorMax xs).value = 0 ∨
      ((VectorMax xs).index < xs.length ∧
        (VectorMax xs).value = |xs.getD (VectorMax xs).index 0|) := by
  rcases vmFold_attain xs 0 ⟨0, 0⟩ with h | ⟨t, ht, hidx, hval⟩
  · left; rw [VectorMax, h]
  · right
    have : (VectorMax xs).index = t := by rw [VectorMax, hidx]; omega
    rw [this]
    exact ⟨ht, by rw [VectorMax, hval]⟩

/-! ### Named quantities of the Bunch-Kaufman decisions -/

/-- `α`: the magnitude of the leading diagonal entry. -/
def bkAlpha (A : Mat) : ℚ := |A 0 0|

/-- The `VectorMax` record of the strict sub-diagonal of column 0. -/
def bkA21Max (A : Mat) (n : ℕ) : ValueInt := VectorMax (colSeg A 0 1 n)

/-- `ω`: the maximum magnitude of the strict sub-diagonal of column 0. -/
def bkOmega (A : Mat) (n : ℕ) : ℚ := (bkA21Max A n).value

/-- `r`: the row at which `ω` is attained. -/
def bkR (A : Mat) (n : ℕ) : ℕ := (bkA21Max A n).index + 1

/-- `ρ` for the A strategy: the maximum magnitude over row `r` excluding
`(r,r)` (left segment, and strict bottom segment of column `r`). -/
def bkRhoA (A : Mat) (n : ℕ) : ℚ :=
  max (VectorMax (rowSeg A (bkR A n) 0 (bkR A n))).value
    (VectorMax (colSeg A (bkR A n) (bkR A n + 1) n)).value

/-- `ρ` for the D strategy: as `bkRhoA` but the bottom segment starts at row
`r`, hence includes the diagonal entry `(r,r)`. -/
def bkRhoD (A : Mat) (n : ℕ) : ℚ :=
  max (VectorMax (rowSeg A (bkR A n) 0 (bkR A n))).value
    (VectorMax (colSeg A (bkR A n) (bkR A n) n)).value

/-- Panel `α`: magnitude of the corrected leading active diagonal entry. -/
def pbkAlpha (A X Y : Mat) (k : ℕ) : ℚ := |panelZB1 A X Y k 0|

/-- Panel analogue of `bkA21Max`, over the corrected column `k`. -/
def pbkA21Max (A X Y : Mat) (n k : ℕ) : ValueInt :=
  VectorMax (segOf (panelZB1 A X Y k) 1 (n - k))

/-- Panel `ω`. -/
def pbkOmega (A X Y : Mat) (n k : ℕ) : ℚ := (pbkA21Max A X Y n k).value

/-- Panel `r` (a global row index, `≥ k+1`). -/
def pbkR (A X Y : Mat) (n k : ℕ) : ℕ := (pbkA21Max A X Y n k).index + (k + 1)

/-- Panel `ρ` for the A strategy (corrected row/column at `r`, excluding
`(r,r)`). -/
def pbkRhoA (A X Y : Mat) (n k : ℕ) : ℚ :=
  max (VectorMax (segOf (panelZLeft A X Y k (pbkR A X Y n k)) 0
        (pbkR A X Y n k - k))).value
    (VectorMax (segOf (panelZBottom A X Y k (pbkR A X Y n k)) 1
        (n - pbkR A X Y n k))).value

/-- Panel `ρ` for the D strategy (bottom window includes `(r,r)`). -/
def pbkRhoD (A X Y : Mat) (n k : ℕ) : ℚ :=
  max (VectorMax (segOf (panelZLeft A X Y k (pbkR A X Y n k)) 0
        (pbkR A X Y n k - k))).value
    (VectorMax (segOf (panelZBottom A X Y k (pbkR A X Y n k)) 0
        (n - pbkR A X Y n k))).value

theorem BunchKaufmanA_eq (A : Mat) (n : ℕ) (gammaDef gamma : ℚ) :
    BunchKaufmanA A n gammaDef gamma =
      (if bkOmega A n = 0 ∧ bkAlpha A = 0 then .error .singular
       else if bkAlpha A ≥ resolveGamma gammaDef gamma * bkOmega A n then
         .ok ⟨1, 0, 0⟩
       else if bkAlpha A ≥ resolveGamma gammaDef gamma * bkOmega A n *
           (bkOmega A n / bkRhoA A n) then .ok ⟨1, 0, 0⟩
       else if |A (bkR A n) (bkR A n)| ≥
           resolveGamma gammaDef gamma * bkRhoA A n then .ok ⟨1, bkR A n, 0⟩
       else .ok ⟨2, 0, bkR A n⟩) := rfl

theorem BunchKaufmanD_eq (A : Mat) (n : ℕ) (gamma : ℚ) :
    BunchKaufmanD A n gamma =
      (if bkOmega A n = 0 ∧ bkAlpha A = 0 then .error .singular
       else if bkAlpha A ≥ resolveGamma gammaDefD gamma * bkOmega A n then
         .ok ⟨1, 0, 0⟩
       else if bkAlpha A ≥ resolveGamma gammaDefD gamma * bkOmega A n *
           (bkOmega A n / bkRhoD A n) then .ok ⟨1, 0, 0⟩
       else .ok ⟨2, 0, bkR A n⟩) := rfl

theorem PanelBunchKaufmanA_eq (A X Y : Mat) (n k : ℕ) (gammaDef gamma : ℚ) :
    PanelBunchKaufmanA A X Y n k gammaDef gamma =
      (if pbkOmega A X Y n k = 0 ∧ pbkAlpha A X Y k = 0 then .error .singular
       else if pbkAlpha A X Y k ≥
           resolveGamma gammaDef gamma * pbkOmega A X Y n k then .ok ⟨1, k, 0⟩
       else if pbkAlpha A X Y k ≥ resolveGamma gammaDef gamma *
           pbkOmega A X Y n k * (pbkOmega A X Y n k / pbkRhoA A X Y n k) then
         .ok ⟨1, k, 0⟩
       else if |panelZBottom A X Y k (pbkR A X Y n k) 0| ≥
           resolveGamma gammaDef gamma * pbkRhoA A X Y n k then
         .ok ⟨1, pbkR A X Y n k, 0⟩
       else .ok ⟨2, k, pbkR A X Y n k⟩) := rfl

theorem PanelBunchKaufmanD_eq (A X Y : Mat) (n k : ℕ) (gamma : ℚ) :
    PanelBunchKaufmanD A X Y n k gamma =
      (if pbkOmega A X Y n k = 0 ∧ pbkAlpha A X Y k = 0 then .error .singular
       else if pbkAlpha A X Y k ≥
           resolveGamma gammaDefD gamma * pbkOmega A X Y n k then .ok ⟨1, k, 0⟩
       else if pbkAlpha A X Y k ≥ resolveGamma gammaDefD gamma *
           pbkOmega A X Y n k * (pbkOmega A X Y n k / pbkRhoD A X Y n k) then
         .ok ⟨1, k, 0⟩
       else .ok ⟨2, k, pbkR A X Y n k⟩) := rfl

/-! ### The row maximum dominates `ω` -/

theorem colSeg_getD (A : Mat) (j i0 i1 t : ℕ) (ht : t < i1 - i0) :
    (colSeg A j i0 i1).getD t 0 = A (i0 + t) j := by
  simp [colSeg, List.getD_eq_getElem?_getD, List.getElem?_map,
    List.getElem?_range, ht]

theorem segOf_getD (f : ℕ → ℚ) (i0 i1 t : ℕ) (ht : t < i1 - i0) :
    (segOf f i0 i1).getD t 0 = f (i0 + t) := by
  simp [segOf, List.getD_eq_getElem?_getD, List.getElem?_map,
    List.getElem?_range, ht]

theorem colSeg_length (A : Mat) (j i0 i1 : ℕ) :
    (colSeg A j i0 i1).length = i1 - i0 := by simp [colSeg]

theorem segOf_length (f : ℕ → ℚ) (i0 i1 : ℕ) :
    (segOf f i0 i1).length = i1 - i0 := by simp [segOf]

theorem mem_rowSeg (A : Mat) (i j0 j1 t : ℕ) (ht : t < j1 - j0) :
    A i (j0 + t) ∈ rowSeg A i j0 j1 := by
  simp only [rowSeg, List.mem_map]
  exact ⟨t, List.mem_range.mpr ht, rfl⟩

theorem mem_segOf (f : ℕ → ℚ) (i0 i1 t : ℕ) (ht : t < i1 - i0) :
    f (i0 + t) ∈ segOf f i0 i1 := by
  simp only [segOf, List.mem_map]
  exact ⟨t, List.mem_range.mpr ht, rfl⟩

/-- When `ω ≠ 0`, the entry `A(r,0)` of column 0 realizes `ω`. -/
theorem abs_entry_at_bkR (A : Mat) (n : ℕ) (h : bkOmega A n ≠ 0) :
    bkR A n < n ∧ |A (bkR A n) 0| = bkOmega A n := by
  rcases VectorMax_attain (colSeg A 0 1 n) with h0 | ⟨hlt, hval⟩
  · exact absurd h0 h
  · rw [colSeg_length] at hlt
    constructor
    · unfold bkR bkA21Max; omega
    · unfold bkR bkA21Max
      rw [show (VectorMax (colSeg A 0 1 n)).index + 1
          = 1 + (VectorMax (colSeg A 0 1 n)).index by omega]
      rw [← colSeg_getD A 0 1 n _ hlt]
      exact hval.symm

/-- The failure of the first 1×1 test forces `ω > 0`, and both versions of the
row maximum `ρ` are at least `ω` (the left segment of row `r` contains the
column-0 entry of magnitude `ω`). -/
theorem bk_rho_ge_omega (A : Mat) (n : ℕ) (g : ℚ)
    (h : ¬ bkAlpha A ≥ g * bkOmega A n) :
    0 < bkOmega A n ∧ |A (bkR A n) 0| = bkOmega A n ∧
      bkOmega A n ≤ bkRhoA A n ∧ bkOmega A n ≤ bkRhoD A n := by
  have halpha : 0 ≤ bkAlpha A := abs_nonneg _
  have homega : 0 ≤ bkOmega A n := VectorMax_nonneg _
  have hng : bkAlpha A < g * bkOmega A n := lt_of_not_le h
  have hwpos : 0 < bkOmega A n := by
    rcases lt_or_eq_of_le homega with h' | h'
    · exact h'
    · exfalso; rw [← h', mul_zero] at hng; linarith
  obtain ⟨-, habs⟩ := abs_entry_at_bkR A n (ne_of_gt hwpos)
  have hmem : A (bkR A n) 0 ∈ rowSeg A (bkR A n) 0 (bkR A n) := by
    have := mem_rowSeg A (bkR A n) 0 (bkR A n) 0 (by unfold bkR; omega)
    simpa using this
  have hleft : bkOmega A n ≤
      (VectorMax (rowSeg A (bkR A n) 0 (bkR A n))).value := by
    rw [← habs]; exact VectorMax_le _ _ hmem
  exact ⟨hwpos, habs, le_trans hleft (le_max_left _ _),
    le_trans hleft (le_max_left _ _)⟩

/-- The corrected left row segment starts with the corrected column-`k` entry
of row `r`: the lazy corrections agree there. -/
theorem panelZLeft_zero (A X Y : Mat) (k r : ℕ) (hkr : k ≤ r) :
    panelZLeft A X Y k r 0 = panelZB1 A X Y k (r - k) := by
  unfold panelZLeft panelZB1
  rw [show k + (r - k) = r by omega, Nat.add_zero]
  congr 1
  exact Finset.sum_congr rfl fun j _ => mul_comm _ _

/-- When the panel `ω ≠ 0`, the corrected column-`k` entry at row `r`
realizes `ω`. -/
theorem abs_entry_at_pbkR (A X Y : Mat) (n k : ℕ)
    (h : pbkOmega A X Y n k ≠ 0) :
    pbkR A X Y n k < n ∧
      |panelZB1 A X Y k (pbkR A X Y n k - k)| = pbkOmega A X Y n k := by
  rcases VectorMax_attain (segOf (panelZB1 A X Y k) 1 (n - k)) with h0 | ⟨hlt, hval⟩
  · exact absurd h0 h
  · rw [segOf_length] at hlt
    constructor
    · unfold pbkR pbkA21Max; omega
    · unfold pbkR pbkA21Max
      rw [show (VectorMax (segOf (panelZB1 A X Y k) 1 (n - k))).index + (k + 1) - k
          = 1 + (VectorMax (segOf (panelZB1 A X Y k) 1 (n - k))).index by omega]
      rw [← segOf_getD (panelZB1 A X Y k) 1 (n - k) _ hlt]
      exact hval.symm

/-- Panel analogue of `bk_rho_ge_omega`. -/
theorem pbk_rho_ge_omega (A X Y : Mat) (n k : ℕ) (g : ℚ)
    (h : ¬ pbkAlpha A X Y k ≥ g * pbkOmega A X Y n k) :
    0 < pbkOmega A X Y n k ∧
      pbkOmega A X Y n k ≤ pbkRhoA A X Y n k ∧
      pbkOmega A X Y n k ≤ pbkRhoD A X Y n k := by
  have halpha : 0 ≤ pbkAlpha A X Y k := abs_nonneg _
  have homega : 0 ≤ pbkOmega A X Y n k := VectorMax_nonneg _
  have hng : pbkAlpha A X Y k < g * pbkOmega A X Y n k := lt_of_not_le h
  have hwpos : 0 < pbkOmega A X Y n k := by
    rcases lt_or_eq_of_le homega with h' | h'
    · exact h'
    · exfalso; rw [← h', mul_zero] at hng; linarith
  obtain ⟨-, habs⟩ := abs_entry_at_pbkR A X Y n k (ne_of_gt hwpos)
  have hkr : k ≤ pbkR A X Y n k := by unfold pbkR; omega
  have hz : panelZLeft A X Y k (pbkR A X Y n k) 0
      = panelZB1 A X Y k (pbkR A X Y n k - k) := panelZLeft_zero A X Y k _ hkr
  have hmem : panelZLeft A X Y k (pbkR A X Y n k) 0 ∈
      segOf (panelZLeft A X Y k (pbkR A X Y n k)) 0 (pbkR A X Y n k - k) := by
    have := mem_segOf (panelZLeft A X Y k (pbkR A X Y n k)) 0
      (pbkR A X Y n k - k) 0 (by unfold pbkR pbkA21Max; omega)
    simpa using this
  have hleft : pbkOmega A X Y n k ≤
      (VectorMax (segOf (panelZLeft A X Y k (pbkR A X Y n k)) 0
        (pbkR A X Y n k - k))).value := by
    rw [← habs, ← hz]
    exact VectorMax_le _ _ hmem
  exact ⟨hwpos, le_trans hleft (le_max_left _ _),
    le_trans hleft (le_max_left _ _)⟩

/-- **C3**: the Bunch-Kaufman A and D selectors, plain and panel variants,
raise the singular-matrix exception if and only if `α` (the magnitude of the
leading active diagonal entry, lazily corrected in the panel variants) and
`ω` (the maximum magnitude of the strict sub-diagonal of the first active
column) are both exactly zero; in every other case they return a pivot record
without error. -/
theorem singular_iff_zero_pivot_column (A X Y : Mat) (n k : ℕ)
    (gammaDef gamma : ℚ) :
    (BunchKaufmanA A n gammaDef gamma = .error .singular ↔
      bkOmega A n = 0 ∧ bkAlpha A = 0)
  ∧ ((∃ p, BunchKaufmanA A n gammaDef gamma = .ok p) ↔
      ¬(bkOmega A n = 0 ∧ bkAlpha A = 0))
  ∧ (BunchKaufmanD A n gamma = .error .singular ↔
      bkOmega A n = 0 ∧ bkAlpha A = 0)
  ∧ ((∃ p, BunchKaufmanD A n gamma = .ok p) ↔
      ¬(bkOmega A n = 0 ∧ bkAlpha A = 0))
  ∧ (PanelBunchKaufmanA A X Y n k gammaDef gamma = .error .singular ↔
      pbkOmega A X Y n k = 0 ∧ pbkAlpha A X Y k = 0)
  ∧ ((∃ p, PanelBunchKaufmanA A X Y n k gammaDef gamma = .ok p) ↔
      ¬(pbkOmega A X Y n k = 0 ∧ pbkAlpha A X Y k = 0))
  ∧ (PanelBunchKaufmanD A X Y n k gamma = .error .singular ↔
      pbkOmega A X Y n k = 0 ∧ pbkAlpha A X Y k = 0)
  ∧ ((∃ p, PanelBunchKaufmanD A X Y n k gamma = .ok p) ↔
      ¬(pbkOmega A X Y n k = 0 ∧ pbkAlpha A X Y k = 0)) := by
  refine ⟨?_, ?_, ?_, ?_, ?_, ?_, ?_, ?_⟩
  · rw [BunchKaufmanA_eq]
    by_cases h : bkOmega A n = 0 ∧ bkAlpha A = 0
    · simp [h]
    · simp only [if_neg h]
      split_ifs <;> simp [h]
  · rw [BunchKaufmanA_eq]
    by_cases h : bkOmega A n = 0 ∧ bkAlpha A = 0
    · simp [h]
    · simp only [if_neg h]
      split_ifs <;> simp [h]
  · rw [BunchKaufmanD_eq]
    by_cases h : bkOmega A n = 0 ∧ bkAlpha A = 0
    · simp [h]
    · simp only [if_neg h]
      split_ifs <;> simp [h]
  · rw [BunchKaufmanD_eq]
    by_cases h : bkOmega A n = 0 ∧ bkAlpha A = 0
    · simp [h]
    · simp only [if_neg h]
      split_ifs <;> simp [h]
  · rw [PanelBunchKaufmanA_eq]
    by_cases h : pbkOmega A X Y n k = 0 ∧ pbkAlpha A X Y k = 0
    · simp [h]
    · simp only [if_neg h]
      split_ifs <;> simp [h]
  · rw [PanelBunchKaufmanA_eq]
    by_cases h : pbkOmega A X Y n k = 0 ∧ pbkAlpha A X Y k = 0
    · simp [h]
    · simp only [if_neg h]
      split_ifs <;> simp [h]
  · rw [PanelBunchKaufmanD_eq]
    by_cases h : pbkOmega A X Y n k = 0 ∧ pbkAlpha A X Y k = 0
    · simp [h]
    · simp only [if_neg h]
      split_ifs <;> simp [h]
  · rw [PanelBunchKaufmanD_eq]
    by_cases h : pbkOmega A X Y n k = 0 ∧ pbkAlpha A X Y k = 0
    · simp [h]
    · simp only [if_neg h]
      split_ifs <;> simp [h]

/-- **C9**: whenever control reaches the second 1×1 test of a Bunch-Kaufman
selector (plain or panel, A or D window) — i.e. the first test `α ≥ γ·ω` has
failed for the resolved threshold — the row maximum `ρ` is strictly positive,
so the division `ω/ρ` performed there never divides by zero: failing the
first test forces `ω > 0`, and the left segment of row `r` contains the
column-0 (respectively the lazily corrected column-`k`) entry whose magnitude
is exactly `ω`, hence `ρ ≥ ω > 0` for both the A and the D window. -/
theorem second_test_rho_positive (A X Y : Mat) (n k : ℕ)
    (gammaDef gamma : ℚ) :
    (¬ bkAlpha A ≥ resolveGamma gammaDef gamma * bkOmega A n →
      0 < bkOmega A n ∧ |A (bkR A n) 0| = bkOmega A n ∧
      bkOmega A n ≤ bkRhoA A n ∧ bkOmega A n ≤ bkRhoD A n ∧
      0 < bkRhoA A n ∧ 0 < bkRhoD A n)
  ∧ (¬ pbkAlpha A X Y k ≥ resolveGamma gammaDef gamma * pbkOmega A X Y n k →
      0 < pbkOmega A X Y n k ∧
      pbkOmega A X Y n k ≤ pbkRhoA A X Y n k ∧
      pbkOmega A X Y n k ≤ pbkRhoD A X Y n k ∧
      0 < pbkRhoA A X Y n k ∧ 0 < pbkRhoD A X Y n k) := by
  constructor
  · intro h
    obtain ⟨hw, habs, hA, hD⟩ := bk_rho_ge_omega A n _ h
    exact ⟨hw, habs, hA, hD, lt_of_lt_of_le hw hA, lt_of_lt_of_le hw hD⟩
  · intro h
    obtain ⟨hw, hA, hD⟩ := pbk_rho_ge_omega A X Y n k _ h
    exact ⟨hw, hA, hD, lt_of_lt_of_le hw hA, lt_of_lt_of_le hw hD⟩

/-- A concrete matrix on which the first Bunch-Kaufman test fails. -/
def rhoWitnessMat : Mat := fun i j => if i = 1 ∧ j = 0 then 1 else 0

theorem second_test_rho_positive_witness :
    (¬ bkAlpha rhoWitnessMat ≥ resolveGamma 1 1 * bkOmega rhoWitnessMat 2) ∧
      0 < bkRhoA rhoWitnessMat 2 ∧ 0 < pbkRhoA rhoWitnessMat
        (fun _ _ => 0) (fun _ _ => 0) 2 0 := by
  have h := second_test_rho_positive rhoWitnessMat
    (fun _ _ => 0) (fun _ _ => 0) 2 0 1 1
  have h1 : ¬ bkAlpha rhoWitnessMat ≥ resolveGamma 1 1 * bkOmega rhoWitnessMat 2 := by
    norm_num [bkAlpha, bkOmega, bkA21Max, resolveGamma, VectorMax, colSeg,
      vmFold, rhoWitnessMat, List.range_succ]
  have h2 : ¬ pbkAlpha rhoWitnessMat (fun _ _ => 0) (fun _ _ => 0) 0 ≥
      resolveGamma 1 1 * pbkOmega rhoWitnessMat (fun _ _ => 0) (fun _ _ => 0) 2 0 := by
    norm_num [pbkAlpha, pbkOmega, pbkA21Max, resolveGamma, VectorMax, segOf,
      panelZB1, vmFold, rhoWitnessMat, List.range_succ]
  exact ⟨h1, (h.1 h1).2.2.2.2.1, (h.2 h2).2.2.2.1⟩

theorem mem_colSeg (A : Mat) (j i0 i1 t : ℕ) (ht : t < i1 - i0) :
    A (i0 + t) j ∈ colSeg A j i0 i1 := by
  simp only [colSeg, List.mem_map]
  exact ⟨t, List.mem_range.mpr ht, rfl⟩

/-- **C7**: `BunchKaufmanD` resolves a zero `gamma` to exactly `525/1000`,
returns only a 1×1 pivot at index 0 or a 2×2 pivot at `{0,r}` (never a 1×1
pivot at `r`), likewise for the panel variant relative to the active column
`k`, and its row-`r` maximum search window includes the diagonal entry
`(r,r)` itself in the bottom segment: the (corrected) diagonal entry's
magnitude is dominated by the D row maximum whenever `r < n`. -/
theorem bunchKaufmanD_shape (A X Y : Mat) (n k : ℕ) (gamma : ℚ) :
    resolveGamma gammaDefD 0 = 525 / 1000
  ∧ (∀ p, BunchKaufmanD A n gamma = .ok p →
      (p.nb = 1 ∧ p.from0 = 0) ∨
        (p.nb = 2 ∧ p.from0 = 0 ∧ p.from1 = bkR A n))
  ∧ (∀ p, PanelBunchKaufmanD A X Y n k gamma = .ok p →
      (p.nb = 1 ∧ p.from0 = k) ∨
        (p.nb = 2 ∧ p.from0 = k ∧ p.from1 = pbkR A X Y n k))
  ∧ (bkR A n < n → |A (bkR A n) (bkR A n)| ≤ bkRhoD A n)
  ∧ (pbkR A X Y n k < n →
      |panelZBottom A X Y k (pbkR A X Y n k) 0| ≤ pbkRhoD A X Y n k) := by
  refine ⟨by norm_num [resolveGamma, gammaDefD], ?_, ?_, ?_, ?_⟩
  · intro p hp
    rw [BunchKaufmanD_eq] at hp
    split_ifs at hp with h1 h2 h3
    · left
      obtain rfl := Except.ok.inj hp
      exact ⟨rfl, rfl⟩
    · left
      obtain rfl := Except.ok.inj hp
      exact ⟨rfl, rfl⟩
    · right
      obtain rfl := Except.ok.inj hp
      exact ⟨rfl, rfl, rfl⟩
  · intro p hp
    rw [PanelBunchKaufmanD_eq] at hp
    split_ifs at hp with h1 h2 h3
    · left
      obtain rfl := Except.ok.inj hp
      exact ⟨rfl, rfl⟩
    · left
      obtain rfl := Except.ok.inj hp
      exact ⟨rfl, rfl⟩
    · right
      obtain rfl := Except.ok.inj hp
      exact ⟨rfl, rfl, rfl⟩
  · intro hr
    have hmem : A (bkR A n) (bkR A n) ∈ colSeg A (bkR A n) (bkR A n) n := by
      have := mem_colSeg A (bkR A n) (bkR A n) n 0 (by omega)
      simpa using this
    exact le_trans (VectorMax_le _ _ hmem) (le_max_right _ _)
  · intro hr
    have hmem : panelZBottom A X Y k (pbkR A X Y n k) 0 ∈
        segOf (panelZBottom A X Y k (pbkR A X Y n k)) 0
          (n - pbkR A X Y n k) := by
      have := mem_segOf (panelZBottom A X Y k (pbkR A X Y n k)) 0
        (n - pbkR A X Y n k) 0 (by omega)
      simpa using this
    exact le_trans (VectorMax_le _ _ hmem) (le_max_right _ _)

/-- The concrete matrix `[[0,1],[1,0]]` of the spec's 2×2 scenario. -/
def offDiagMat : Mat := fun i j =>
  if (i = 0 ∧ j = 1) ∨ (i = 1 ∧ j = 0) then 1 else 0

theorem bunchKaufmanD_shape_witness :
    ((((2:ℕ) = 1 ∧ (0:ℕ) = 0) ∨
        ((2:ℕ) = 2 ∧ (0:ℕ) = 0 ∧ (1:ℕ) = bkR offDiagMat 2)) ∧
      |offDiagMat 1 1| ≤ bkRhoD offDiagMat 2) := by
  have h := bunchKaufmanD_shape offDiagMat (fun _ _ => 0) (fun _ _ => 0) 2 0 0
  have hp : BunchKaufmanD offDiagMat 2 0 = .ok ⟨2, 0, 1⟩ := by
    norm_num [BunchKaufmanD, resolveGamma, gammaDefD, VectorMax, vmFold,
      colSeg, rowSeg, offDiagMat, List.range_succ]
  have hr : bkR offDiagMat 2 < 2 := by
    norm_num [bkR, bkA21Max, VectorMax, vmFold, colSeg, offDiagMat,
      List.range_succ]
  exact ⟨by simpa using h.2.1 ⟨2, 0, 1⟩ hp, h.2.2.2.1 hr⟩

/-- The Bunch-Kaufman A selector exactly as the specification words it: the
second 1×1 test reads `α·ω ≥ γ·ω²` instead of the source's
`α ≥ γ·ω·(ω/ρ)`.  Every other step follows the source.  This definition
exists only to be compared against `BunchKaufmanA`. -/
def BunchKaufmanASpecClaim (A : Mat) (n : ℕ) (gammaDef gamma : ℚ) :
    Except LDLError LDLPivot :=
  let g := resolveGamma gammaDef gamma
  let alpha11Abs := |A 0 0|
  let a21Max := VectorMax (colSeg A 0 1 n)
  if a21Max.value = 0 ∧ alpha11Abs = 0 then .error .singular
  else if alpha11Abs ≥ g * a21Max.value then .ok ⟨1, 0, 0⟩
  else
    let r := a21Max.index + 1
    let leftMax := VectorMax (rowSeg A r 0 r)
    let bottomMax := VectorMax (colSeg A r (r + 1) n)
    let rowMaxVal := max leftMax.value bottomMax.value
    if alpha11Abs * a21Max.value ≥ g * a21Max.value ^ 2 then .ok ⟨1, 0, 0⟩
    else if |A r r| ≥ g * rowMaxVal then .ok ⟨1, r, 0⟩
    else .ok ⟨2, 0, r⟩

/-- A symmetric 3×3 matrix separating the source's second 1×1 test from the
spec's: `α = 1/2`, `ω = 2` at `r = 1`, `ρ = 8`. -/
def c2CexMat : Mat := fun i j =>
  if i = 0 ∧ j = 0 then 1/2
  else if (i = 1 ∧ j = 0) ∨ (i = 0 ∧ j = 1) then 2
  else if (i = 2 ∧ j = 1) ∨ (i = 1 ∧ j = 2) then 8
  else 0

/-- **C2 counterexample**: with `γ = 1/2` on `c2CexMat`, the source's test
`α ≥ γ·ω·(ω/ρ)` (that is `1/2 ≥ 1/4`) succeeds, so the code returns a 1×1
pivot at 0; the claim's test `α·ω ≥ γ·ω²` (that is `1 ≥ 2`) fails and its
subsequent tests also fail, so the claim predicts a 2×2 pivot at `{0,1}`. -/
theorem bunchKaufmanA_second_test_counterexample :
    BunchKaufmanA c2CexMat 3 1 (1/2) = .ok ⟨1, 0, 0⟩ ∧
      BunchKaufmanASpecClaim c2CexMat 3 1 (1/2) = .ok ⟨2, 0, 1⟩ := by
  constructor <;>
    norm_num [BunchKaufmanA, BunchKaufmanASpecClaim, resolveGamma, VectorMax,
      vmFold, colSeg, rowSeg, c2CexMat, List.range_succ, max_def,
      abs_of_nonneg, abs_of_pos]

/-- **C2 (amended)**: for every input on which it does not throw,
`BunchKaufmanA` returns exactly one of four outcomes, decided in this order:
1×1 at 0 if `α ≥ γ·ω`; else 1×1 at 0 if `α·ρ ≥ γ·ω²` (the source's
`α ≥ γ·ω·(ω/ρ)`, an equivalent restatement since `ρ ≥ ω > 0` when this test
is reached); else 1×1 at `r` if `|A(r,r)| ≥ γ·ρ`; else 2×2 at `{0,r}`.  The
panel variant makes the same decision on the lazily corrected column/row
values. -/
theorem bunchKaufmanA_decision_order (A X Y : Mat) (n k : ℕ)
    (gammaDef gamma : ℚ) :
    (¬(bkOmega A n = 0 ∧ bkAlpha A = 0) →
      BunchKaufmanA A n gammaDef gamma = .ok
        (if bkAlpha A ≥ resolveGamma gammaDef gamma * bkOmega A n then
          ⟨1, 0, 0⟩
        else if bkAlpha A * bkRhoA A n ≥
            resolveGamma gammaDef gamma * bkOmega A n ^ 2 then ⟨1, 0, 0⟩
        else if |A (bkR A n) (bkR A n)| ≥
            resolveGamma gammaDef gamma * bkRhoA A n then ⟨1, bkR A n, 0⟩
        else ⟨2, 0, bkR A n⟩))
  ∧ (¬ bkAlpha A ≥ resolveGamma gammaDef gamma * bkOmega A n →
      (bkAlpha A ≥ resolveGamma gammaDef gamma * bkOmega A n *
          (bkOmega A n / bkRhoA A n) ↔
        bkAlpha A * bkRhoA A n ≥
          resolveGamma gammaDef gamma * bkOmega A n ^ 2))
  ∧ (¬(pbkOmega A X Y n k = 0 ∧ pbkAlpha A X Y k = 0) →
      PanelBunchKaufmanA A X Y n k gammaDef gamma = .ok
        (if pbkAlpha A X Y k ≥
            resolveGamma gammaDef gamma * pbkOmega A X Y n k then ⟨1, k, 0⟩
        else if pbkAlpha A X Y k * pbkRhoA A X Y n k ≥
            resolveGamma gammaDef gamma * pbkOmega A X Y n k ^ 2 then
          ⟨1, k, 0⟩
        else if |panelZBottom A X Y k (pbkR A X Y n k) 0| ≥
            resolveGamma gammaDef gamma * pbkRhoA A X Y n k then
          ⟨1, pbkR A X Y n k, 0⟩
        else ⟨2, k, pbkR A X Y n k⟩)) := by
  have key : ∀ (al om rho g : ℚ), 0 ≤ al → ¬ al ≥ g * om → 0 < om → om ≤ rho →
      (al ≥ g * om * (om / rho) ↔ al * rho ≥ g * om ^ 2) := by
    intro al om rho g _ _ hom hrho
    have hrpos : 0 < rho := lt_of_lt_of_le hom hrho
    rw [ge_iff_le, ge_iff_le, show g * om * (om / rho) = g * om ^ 2 / rho by
      ring, div_le_iff₀ hrpos]
  refine ⟨?_, ?_, ?_⟩
  · intro hnz
    rw [BunchKaufmanA_eq, if_neg hnz]
    by_cases h1 : bkAlpha A ≥ resolveGamma gammaDef gamma * bkOmega A n
    · rw [if_pos h1, if_pos h1]
    · obtain ⟨hom, -, hrho, -⟩ := bk_rho_ge_omega A n _ h1
      rw [if_neg h1, if_neg h1]
      have hiff := key (bkAlpha A) (bkOmega A n) (bkRhoA A n)
        (resolveGamma gammaDef gamma) (abs_nonneg _) h1 hom hrho
      by_cases h2 : bkAlpha A ≥ resolveGamma gammaDef gamma * bkOmega A n *
          (bkOmega A n / bkRhoA A n)
      · rw [if_pos h2, if_pos (hiff.mp h2)]
      · rw [if_neg h2, if_neg (fun hc => h2 (hiff.mpr hc))]
        split_ifs <;> rfl
  · intro h1
    obtain ⟨hom, -, hrho, -⟩ := bk_rho_ge_omega A n _ h1
    exact key (bkAlpha A) (bkOmega A n) (bkRhoA A n)
      (resolveGamma gammaDef gamma) (abs_nonneg _) h1 hom hrho
  · intro hnz
    rw [PanelBunchKaufmanA_eq, if_neg hnz]
    by_cases h1 : pbkAlpha A X Y k ≥
        resolveGamma gammaDef gamma * pbkOmega A X Y n k
    · rw [if_pos h1, if_pos h1]
    · obtain ⟨hom, hrho, -⟩ := pbk_rho_ge_omega A X Y n k _ h1
      rw [if_neg h1, if_neg h1]
      have hiff := key (pbkAlpha A X Y k) (pbkOmega A X Y n k)
        (pbkRhoA A X Y n k) (resolveGamma gammaDef gamma) (abs_nonneg _)
        h1 hom hrho
      by_cases h2 : pbkAlpha A X Y k ≥ resolveGamma gammaDef gamma *
          pbkOmega A X Y n k * (pbkOmega A X Y n k / pbkRhoA A X Y n k)
      · rw [if_pos h2, if_pos (hiff.mp h2)]
      · rw [if_neg h2, if_neg (fun hc => h2 (hiff.mpr hc))]
        split_ifs <;> rfl

theorem bunchKaufmanA_decision_order_witness :
    ¬(bkOmega c2CexMat 3 = 0 ∧ bkAlpha c2CexMat = 0) ∧
      BunchKaufmanA c2CexMat 3 1 (1/2) = .ok
        (if bkAlpha c2CexMat ≥ resolveGamma 1 (1/2) * bkOmega c2CexMat 3 then
          ⟨1, 0, 0⟩
        else if bkAlpha c2CexMat * bkRhoA c2CexMat 3 ≥
            resolveGamma 1 (1/2) * bkOmega c2CexMat 3 ^ 2 then ⟨1, 0, 0⟩
        else if |c2CexMat (bkR c2CexMat 3) (bkR c2CexMat 3)| ≥
            resolveGamma 1 (1/2) * bkRhoA c2CexMat 3 then
          ⟨1, bkR c2CexMat 3, 0⟩
        else ⟨2, 0, bkR c2CexMat 3⟩) := by
  have hnz : ¬(bkOmega c2CexMat 3 = 0 ∧ bkAlpha c2CexMat = 0) := by
    norm_num [bkOmega, bkA21Max, bkAlpha, VectorMax, vmFold, colSeg,
      c2CexMat, List.range_succ]
  exact ⟨hnz, (bunchKaufmanA_decision_order c2CexMat (fun _ _ => 0)
    (fun _ _ => 0) 3 0 1 (1/2)).1 hnz⟩

/-! ### The unblocked pivoted factorization -/

/-- The symmetric matrix represented by lower-triangular storage (the upper
triangle of `A` is storage garbage the algorithms never read). -/
def lowerRep (A : Mat) : Mat := fun i j => if j ≤ i then A i j else A j i

/-- The transposition exchanging `i` and `j`. -/
def transp (i j x : ℕ) : ℕ := if x = i then j else if x = j then i else x

/-- Modelled from the spec: `SymmetricSwap(LOWER, A, i, j)` (not under src/)
performs "a symmetric permutation exchanging row/column" `i` with `j` of the
represented symmetric matrix, updating only the lower-triangular storage;
the strict upper triangle is untouched. -/
def SymmetricSwap (A : Mat) (i j : ℕ) : Mat := fun x y =>
  if y ≤ x then lowerRep A (transp i j x) (transp i j y) else A x y

/-- Modelled from the spec: the 1×1 elimination step of
`ldl::UnblockedPivoted` after the swap — `Syr(LOWER, -δ⁻¹, a21, A22)`
followed by `Scale(δ⁻¹, a21)` with `δ = A(k,k)`, touching only rows/columns
`> k` of the lower triangle, bounded by `n` ("for 1×1: `x = a/δ`, `y = a`"
with the trailing rank-one correction `A22 -= a·aᵀ/δ`). -/
def rank1Update (A : Mat) (k n : ℕ) : Mat :=
  let dinv := 1 / A k k
  fun x y =>
    if k + 1 ≤ x ∧ x < n ∧ y = k then dinv * A x y
    else if k + 1 ≤ y ∧ y ≤ x ∧ x < n then A x y - dinv * A x k * A y k
    else A x y

/-- Modelled from the spec: the 2×2 elimination step of
`ldl::UnblockedPivoted` after the two swaps — `Symmetric2x2Solve(RIGHT,
LOWER, D11, A21)` stores `A21·D11⁻¹` over `A21`, `Trr2(LOWER, -1, A21·D11⁻¹,
A21ᵒˡᵈ, A22)` applies the rank-two correction to the lower triangle of
`A22`, and `D11.Set(1,0,0)` zeroes the subdiagonal entry of the block ("only
the main diagonal of D is left in A").  The symmetric 2×2 block is
`[a b; b c]` read from lower storage. -/
def rank2Update (A : Mat) (k n : ℕ) : Mat :=
  let a := A k k
  let b := A (k + 1) k
  let c := A (k + 1) (k + 1)
  let det := a * c - b * b
  let l0 : ℕ → ℚ := fun x => (A x k * c - A x (k + 1) * b) / det
  let l1 : ℕ → ℚ := fun x => (A x (k + 1) * a - A x k * b) / det
  fun x y =>
    if x = k + 1 ∧ y = k then 0
    else if k + 2 ≤ x ∧ x < n ∧ y = k then l0 x
    else if k + 2 ≤ x ∧ x < n ∧ y = k + 1 then l1 x
    else if k + 2 ≤ y ∧ y ≤ x ∧ x < n then
      A x y - (l0 x * A y k + l1 x * A y (k + 1))
    else A x y

/-- The in/out state of the factorization drivers: the overwritten matrix,
the subdiagonal vector `dSub` of the 2×2 blocks, and the pivot vector `p`. -/
structure LDLState where
  A : Mat
  dSub : ℕ → ℚ
  p : ℕ → ℕ

/-- The trailing view `ViewRange(A, k, k, n, n)`. -/
def shiftMat (A : Mat) (k : ℕ) : Mat := fun i j => A (k + i) (k + j)

/-- One `while`-loop iteration of `ldl::UnblockedPivoted` at column `k`,
returning the new state and the next value of `k`.  `BUNCH_KAUFMAN_C`
raises `LogicError` ("Have not yet generalized pivot storage") before any
pivot is chosen. -/
def unblockedStep (n : ℕ) (pivotType : LDLPivotType) (gammaDef gamma : ℚ)
    (k : ℕ) (st : LDLState) : Except LDLError (LDLState × ℕ) :=
  if pivotType = .BUNCH_KAUFMAN_C then .error .logic
  else
    match ChoosePivot (shiftMat st.A k) (n - k) pivotType gammaDef gamma with
    | .error e => .error e
    | .ok pivot =>
      if pivot.nb = 1 then
        let f0 := k + pivot.from0
        let A1 := SymmetricSwap st.A k f0
        .ok (⟨rank1Update A1 k n, st.dSub, Function.update st.p k f0⟩, k + 1)
      else
        let f0 := k + pivot.from0
        let f1 := k + pivot.from1
        let A1 := SymmetricSwap st.A k f0
        let A2 := SymmetricSwap A1 (k + 1) f1
        .ok (⟨rank2Update A2 k n,
              Function.update st.dSub k (A2 (k + 1) k),
              Function.update (Function.update st.p k f0) (k + 1) f1⟩,
          k + 2)

/-- The `while( k < n )` loop of `ldl::UnblockedPivoted`, by fuel (`n`
iterations always suffice since `k` strictly increases). -/
def unblockedLoop (n : ℕ) (pivotType : LDLPivotType) (gammaDef gamma : ℚ) :
    ℕ → ℕ → LDLState → Except LDLError LDLState
  | 0, _, st => .ok st
  | fuel + 1, k, st =>
      if k < n then
        match unblockedStep n pivotType gammaDef gamma k st with
        | .error e => .error e
        | .ok (st', k') => unblockedLoop n pivotType gammaDef gamma fuel k' st'
      else .ok st

/-- `ldl::UnblockedPivoted` on an `n × n` matrix: `dSub` starts as zeros and
`p` is written at every index before completion (initialised to 0 here). -/
def UnblockedPivoted (A : Mat) (n : ℕ) (pivotType : LDLPivotType)
    (gammaDef gamma : ℚ) : Except LDLError LDLState :=
  unblockedLoop n pivotType gammaDef gamma n 0 ⟨A, fun _ => 0, fun _ => 0⟩

/-! ### Bunch-Parlett on the zero matrix (C10) -/

/-- The all-zero matrix. -/
def zeroMat : Mat := fun _ _ => 0

theorem vmFold_zero (xs : List ℚ) (i : ℕ) (hxs : ∀ x ∈ xs, x = 0) :
    vmFold xs i ⟨0, 0⟩ = ⟨0, 0⟩ := by
  induction xs generalizing i with
  | nil => rfl
  | cons x rest ih =>
      have hx : x = 0 := hxs x (List.mem_cons_self x rest)
      have : vmFold (x :: rest) i ⟨0, 0⟩
          = vmFold rest (i + 1) (if |x| > (0:ℚ) then ⟨|x|, i⟩ else ⟨0, 0⟩) := rfl
      rw [this, hx]
      simp only [abs_zero, gt_iff_lt, lt_self_iff_false, if_false]
      exact ih (i + 1) fun y hy => hxs y (List.mem_cons_of_mem x hy)

theorem smFold_zeroMat (l : List (ℕ × ℕ)) :
    smFold zeroMat l ⟨0, 0, 0⟩ = ⟨0, 0, 0⟩ := by
  induction l with
  | nil => rfl
  | cons ij rest ih =>
      obtain ⟨i, j⟩ := ij
      have : smFold zeroMat ((i, j) :: rest) ⟨0, 0, 0⟩
          = smFold zeroMat rest
              (if |zeroMat i j| > (0:ℚ) then ⟨|zeroMat i j|, i, j⟩
               else ⟨0, 0, 0⟩) := rfl
      rw [this]
      simp only [zeroMat, abs_zero, gt_iff_lt, lt_self_iff_false, if_false]
      exact ih

theorem DiagonalMax_zeroMat (n : ℕ) : DiagonalMax zeroMat n = ⟨0, 0⟩ := by
  unfold DiagonalMax VectorMax
  apply vmFold_zero
  intro x hx
  simp only [List.mem_map] at hx
  obtain ⟨i, -, hi⟩ := hx
  simpa [zeroMat] using hi.symm

theorem SymmetricMax_zeroMat (n : ℕ) : SymmetricMax zeroMat n = ⟨0, 0, 0⟩ :=
  smFold_zeroMat _

theorem BunchParlett_zeroMat (n : ℕ) (gammaDef gamma : ℚ) :
    BunchParlett zeroMat n gammaDef gamma = ⟨1, 0, 0⟩ := by
  unfold BunchParlett
  rw [DiagonalMax_zeroMat, SymmetricMax_zeroMat]
  simp

theorem SymmetricSwap_zeroMat (i j : ℕ) :
    SymmetricSwap zeroMat i j = zeroMat := by
  funext x y
  simp [SymmetricSwap, lowerRep, zeroMat]

theorem rank1Update_zeroMat (k n : ℕ) : rank1Update zeroMat k n = zeroMat := by
  funext x y
  simp only [rank1Update, zeroMat]
  split_ifs <;> norm_num

theorem shiftMat_zeroMat (k : ℕ) : shiftMat zeroMat k = zeroMat := rfl

theorem unblockedStep_zeroMat (n k : ℕ) (gammaDef gamma : ℚ)
    (d : ℕ → ℚ) (p : ℕ → ℕ) :
    unblockedStep n .BUNCH_PARLETT gammaDef gamma k ⟨zeroMat, d, p⟩
      = .ok (⟨zeroMat, d, Function.update p k k⟩, k + 1) := by
  unfold unblockedStep ChoosePivot
  rw [shiftMat_zeroMat, BunchParlett_zeroMat]
  simp [SymmetricSwap_zeroMat, rank1Update_zeroMat]

theorem unblockedLoop_zeroMat (n : ℕ) (gammaDef gamma : ℚ) :
    ∀ (fuel k : ℕ) (d : ℕ → ℚ) (p : ℕ → ℕ),
      ∃ p', unblockedLoop n .BUNCH_PARLETT gammaDef gamma fuel k
        ⟨zeroMat, d, p⟩ = .ok ⟨zeroMat, d, p'⟩ := by
  intro fuel
  induction fuel with
  | zero => exact fun k d p => ⟨p, rfl⟩
  | succ fuel ih =>
      intro k d p
      by_cases hk : k < n
      · obtain ⟨p', hp'⟩ := ih (k + 1) d (Function.update p k k)
        refine ⟨p', ?_⟩
        show (if k < n then _ else _) = _
        rw [if_pos hk, unblockedStep_zeroMat n k gammaDef gamma d p]
        exact hp'
      · refine ⟨p, ?_⟩
        show (if k < n then _ else _) = _
        rw [if_neg hk]

/-- **C10**: `pivot::BunchParlett` never raises the singular-matrix
exception — `ChoosePivot` with `BUNCH_PARLETT` always returns an ok pivot
record, and on an all-zero trailing submatrix `diagMax.value = 0 ≥ γ·0`
holds, so a 1×1 pivot at the diagonal argmax (index 0) is returned; hence
the unblocked factorization driven by Bunch-Parlett on the zero matrix does
not detect the singular condition and runs every rank-one update with
`delta11Inv = 1 / A(k,k) = 1/0` (the exact-field embedding evaluates `1/0`
as `0`, so the completed run leaves the zero matrix in place). -/
theorem bunchParlett_never_singular (A : Mat) (n : ℕ) (gammaDef gamma : ℚ)
    (hn : 1 ≤ n) :
    (ChoosePivot A n .BUNCH_PARLETT gammaDef gamma
      = .ok (BunchParlett A n gammaDef gamma))
  ∧ BunchParlett zeroMat n gammaDef gamma = ⟨1, 0, 0⟩
  ∧ (DiagonalMax zeroMat n).value = 0
  ∧ (∃ p', UnblockedPivoted zeroMat n .BUNCH_PARLETT gammaDef gamma
      = .ok ⟨zeroMat, fun _ => 0, p'⟩)
  ∧ zeroMat 0 0 = 0 := by
  refine ⟨rfl, BunchParlett_zeroMat n gammaDef gamma, ?_, ?_, rfl⟩
  · rw [DiagonalMax_zeroMat]
  · exact unblockedLoop_zeroMat n gammaDef gamma n 0 (fun _ => 0) (fun _ => 0)

theorem bunchParlett_never_singular_witness :
    BunchParlett zeroMat 2 0 0 = ⟨1, 0, 0⟩ ∧
      (∃ p', UnblockedPivoted zeroMat 2 .BUNCH_PARLETT 0 0
        = .ok ⟨zeroMat, fun _ => 0, p'⟩) := by
  have h := bunchParlett_never_singular zeroMat 2 0 0 (by norm_num)
  exact ⟨h.2.1, h.2.2.2.1⟩

/-! ### Panel factorization and the blocked driver -/

/-- `RowSwap(M, i, j)`: exchanges rows `i` and `j`. -/
def RowSwap (M : Mat) (i j : ℕ) : Mat := fun x y => M (transp i j x) y

/-- The state threaded through `ldl::PanelPivoted`: the global matrix, the
subdiagonal and pivot vectors, and the update-factor matrices `X`, `Y`
(panel-local row indexing, `X(i,j) = X.Get(i,j)` for the panel at `off`). -/
structure PanelState where
  A : Mat
  dSub : ℕ → ℚ
  p : ℕ → ℕ
  X : Mat
  Y : Mat

/-- The correction of the active column `k` in the 1×1 panel branch:
`ABR(k:end,k) -= X(k:n-off-1,0:k-1)·Y(k,0:k-1)ᵀ`, in global indices. -/
def corr1 (st : PanelState) (off k n : ℕ) : Mat := fun x y =>
  if y = off + k ∧ off + k ≤ x ∧ x < n then
    st.A x y - ∑ j ∈ Finset.range k, st.X (x - off) j * st.Y k j
  else st.A x y

/-- The 1×1 panel elimination after the swap: materialize the pending
correction into column `k`, then store `x21 := a21/δ`, `y21 := a21` and
scale `a21` by `δ⁻¹ = 1/ABR(k,k)`. -/
def panel1x1 (st : PanelState) (off k n src : ℕ) : PanelState :=
  let Ac := corr1 st off k n
  let dinv := 1 / Ac (off + k) (off + k)
  let Anew : Mat := fun x y =>
    if y = off + k ∧ off + k + 1 ≤ x ∧ x < n then dinv * Ac x y else Ac x y
  let Xnew : Mat := fun i j =>
    if j = k ∧ k + 1 ≤ i ∧ i < n - off then dinv * Ac (off + i) (off + k)
    else st.X i j
  let Ynew : Mat := fun i j =>
    if j = k ∧ k + 1 ≤ i ∧ i < n - off then Ac (off + i) (off + k)
    else st.Y i j
  ⟨Anew, st.dSub, Function.update st.p (off + k) src, Xnew, Ynew⟩

/-- The correction of the active columns `k, k+1` in the 2×2 panel branch:
`ABR(k:end,k:k+1) -= X·Y10ᵀ` with the above-diagonal entry `ψ = ABR(k,k+1)`
saved and restored. -/
def corr2 (st : PanelState) (off k n : ℕ) : Mat := fun x y =>
  if (y = off + k ∨ y = off + k + 1) ∧ off + k ≤ x ∧ x < n ∧
      ¬(x = off + k ∧ y = off + k + 1) then
    st.A x y - ∑ j ∈ Finset.range k, st.X (x - off) j * st.Y (y - off) j
  else st.A x y

/-- The 2×2 panel elimination after the swaps: materialize the correction,
store `Y21 := A21`, overwrite `A21 := A21·D11⁻¹` (`Symmetric2x2Solve`),
store `X21 := A21`, record `dSub(off+k) = D11(1,0)` and zero that
subdiagonal entry. -/
def panel2x2 (st : PanelState) (off k n src : ℕ) : PanelState :=
  let Ac := corr2 st off k n
  let a := Ac (off + k) (off + k)
  let b := Ac (off + k + 1) (off + k)
  let c := Ac (off + k + 1) (off + k + 1)
  let det := a * c - b * b
  let l0 : ℕ → ℚ := fun x => (Ac x (off + k) * c - Ac x (off + k + 1) * b) / det
  let l1 : ℕ → ℚ := fun x => (Ac x (off + k + 1) * a - Ac x (off + k) * b) / det
  let Anew : Mat := fun x y =>
    if x = off + k + 1 ∧ y = off + k then 0
    else if y = off + k ∧ off + k + 2 ≤ x ∧ x < n then l0 x
    else if y = off + k + 1 ∧ off + k + 2 ≤ x ∧ x < n then l1 x
    else Ac x y
  let Xnew : Mat := fun i j =>
    if k + 2 ≤ i ∧ i < n - off ∧ j = k then l0 (off + i)
    else if k + 2 ≤ i ∧ i < n - off ∧ j = k + 1 then l1 (off + i)
    else st.X i j
  let Ynew : Mat := fun i j =>
    if k + 2 ≤ i ∧ i < n - off ∧ j = k then Ac (off + i) (off + k)
    else if k + 2 ≤ i ∧ i < n - off ∧ j = k + 1 then Ac (off + i) (off + k + 1)
    else st.Y i j
  ⟨Anew, Function.update st.dSub (off + k) b,
    Function.update (Function.update st.p (off + k) (off + k))
      (off + k + 1) src,
    Xnew, Ynew⟩

/-- The `while( k < bsize )` loop of `ldl::PanelPivoted`, by fuel.  The
result carries the final state and the completed panel width `X.Width()`:
`bsize` on normal exit, `bsize - 1` on the early `break` taken when
`k + pivot.nb > bsize` (`X`/`Y` are shrunk by `ResizeTo`, which keeps their
leading contents, so only the width changes). -/
def panelLoop (nTot off bsize : ℕ) (pivotType : LDLPivotType)
    (gammaDef gamma : ℚ) :
    ℕ → ℕ → PanelState → Except LDLError (PanelState × ℕ)
  | 0, _, st => .ok (st, bsize)
  | fuel + 1, k, st =>
      if k < bsize then
        if pivotType = .BUNCH_KAUFMAN_C then .error .logic
        else
          match ChoosePanelPivot (shiftMat st.A off) st.X st.Y (nTot - off) k
              pivotType gammaDef gamma with
          | .error e => .error e
          | .ok pivot =>
            if k + pivot.nb > bsize then .ok (st, bsize - 1)
            else
              let src := off + (if pivot.nb = 1 then pivot.from0
                else pivot.from1)
              let dst := off + k + (pivot.nb - 1)
              let st1 : PanelState := ⟨SymmetricSwap st.A dst src, st.dSub,
                st.p, RowSwap st.X (dst - off) (src - off),
                RowSwap st.Y (dst - off) (src - off)⟩
              if pivot.nb = 1 then
                panelLoop nTot off bsize pivotType gammaDef gamma fuel (k + 1)
                  (panel1x1 st1 off k nTot src)
              else
                panelLoop nTot off bsize pivotType gammaDef gamma fuel (k + 2)
                  (panel2x2 st1 off k nTot src)
      else .ok (st, bsize)

/-- `ldl::PanelPivoted`: zeroes `X`, `Y` and runs the panel loop.  (The
`n = 0` early return is never exercised by the blocked driver, whose loop
requires `k < n`.) -/
def PanelPivoted (A : Mat) (dSub : ℕ → ℚ) (p : ℕ → ℕ)
    (nTot bsize off : ℕ) (pivotType : LDLPivotType) (gammaDef gamma : ℚ) :
    Except LDLError (PanelState × ℕ) :=
  panelLoop nTot off bsize pivotType gammaDef gamma bsize 0
    ⟨A, dSub, p, fun _ _ => 0, fun _ _ => 0⟩

/-- The trailing update of the blocked driver:
`Trrk(LOWER, NORMAL, TRANSPOSE, -1, X21B, Y21B, 1, A22BR)`, i.e.
`A22 -= X21·Y21ᵀ` on the lower triangle, with exactly `nb` columns of the
panel's factors. -/
def trrkUpdate (A X Y : Mat) (k nb nTot : ℕ) : Mat := fun x y =>
  if k + nb ≤ y ∧ y ≤ x ∧ x < nTot then
    A x y - ∑ j ∈ Finset.range nb, X (x - k) j * Y (y - k) j
  else A x y

/-- The `while( k < n )` loop of `ldl::BlockedPivoted`, by fuel: each round
proposes `nbProp = min(bsize, n-k)` columns, consumes the actual completed
width `nb = X.Width()` returned by the panel, applies the rank-`nb` trailing
update, and advances the offset by `nb`.  Fuel `n` suffices whenever every
panel completes at least one column. -/
def blockedLoop (nTot bsize : ℕ) (pivotType : LDLPivotType)
    (gammaDef gamma : ℚ) : ℕ → ℕ → LDLState → Except LDLError LDLState
  | 0, _, st => .ok st
  | fuel + 1, k, st =>
      if k < nTot then
        match PanelPivoted st.A st.dSub st.p nTot (min bsize (nTot - k)) k
            pivotType gammaDef gamma with
        | .error e => .error e
        | .ok (pst, nb) =>
            blockedLoop nTot bsize pivotType gammaDef gamma fuel (k + nb)
              ⟨trrkUpdate pst.A pst.X pst.Y k nb nTot, pst.dSub, pst.p⟩
      else .ok st

/-- `ldl::BlockedPivoted` on an `n × n` matrix with global blocksize
`bsize`. -/
def BlockedPivoted (A : Mat) (nTot bsize : ℕ) (pivotType : LDLPivotType)
    (gammaDef gamma : ℚ) : Except LDLError LDLState :=
  blockedLoop nTot bsize pivotType gammaDef gamma nTot 0
    ⟨A, fun _ => 0, fun _ => 0⟩

/-- `ldl::Pivoted`: Bunch-Kaufman A/C/D dispatch to the blocked algorithm,
every other strategy to the unblocked one. -/
def Pivoted (A : Mat) (nTot bsize : ℕ) (pivotType : LDLPivotType)
    (gammaDef gamma : ℚ) : Except LDLError LDLState :=
  match pivotType with
  | .BUNCH_KAUFMAN_A | .BUNCH_KAUFMAN_C | .BUNCH_KAUFMAN_D =>
      BlockedPivoted A nTot bsize pivotType gammaDef gamma
  | _ => UnblockedPivoted A nTot pivotType gammaDef gamma

/-- Every pivot record returned by `ChoosePanelPivot` has block size 1 or
2. -/
theorem choosePanelPivot_nb (A X Y : Mat) (n k : ℕ)
    (pivotType : LDLPivotType) (gammaDef gamma : ℚ) (p : LDLPivot)
    (h : ChoosePanelPivot A X Y n k pivotType gammaDef gamma = .ok p) :
    p.nb = 1 ∨ p.nb = 2 := by
  cases pivotType with
  | BUNCH_KAUFMAN_A =>
      rw [show ChoosePanelPivot A X Y n k .BUNCH_KAUFMAN_A gammaDef gamma
          = PanelBunchKaufmanA A X Y n k gammaDef gamma from rfl,
        PanelBunchKaufmanA_eq] at h
      split_ifs at h <;> obtain rfl := Except.ok.inj h
      · exact Or.inl rfl
      · exact Or.inl rfl
      · exact Or.inl rfl
      · exact Or.inr rfl
  | BUNCH_KAUFMAN_C =>
      rw [show ChoosePanelPivot A X Y n k .BUNCH_KAUFMAN_C gammaDef gamma
          = PanelBunchKaufmanA A X Y n k gammaDef gamma from rfl,
        PanelBunchKaufmanA_eq] at h
      split_ifs at h <;> obtain rfl := Except.ok.inj h
      · exact Or.inl rfl
      · exact Or.inl rfl
      · exact Or.inl rfl
      · exact Or.inr rfl
  | BUNCH_KAUFMAN_D =>
      rw [show ChoosePanelPivot A X Y n k .BUNCH_KAUFMAN_D gammaDef gamma
          = PanelBunchKaufmanD A X Y n k gamma from rfl,
        PanelBunchKaufmanD_eq] at h
      split_ifs at h <;> obtain rfl := Except.ok.inj h
      · exact Or.inl rfl
      · exact Or.inl rfl
      · exact Or.inr rfl
  | BUNCH_PARLETT => exact absurd h (by simp [ChoosePanelPivot])

/-- **C4**: when the pivot chosen at panel column `k` would overflow the
panel (`k + pivot.nb > bsize`), the panel stops early without applying the
pivot or recording anything — it returns the incoming state unchanged with
`X`/`Y` shrunk to `bsize - 1` columns — and since panel pivots have
`nb ∈ {1,2}` and the loop runs while `k < bsize`, overflow forces `nb = 2`
at `k = bsize - 1`, so that width equals exactly `k`.  The blocked driver
reads the actual completed width `nb` from the panel's result, applies the
trailing rank-`nb` update with exactly those `nb` columns, and advances the
offset by `nb`. -/
theorem panel_overflow_stops_early (nTot off bsize k fuel : ℕ)
    (pivotType : LDLPivotType) (gammaDef gamma : ℚ) (st : PanelState)
    (pivot : LDLPivot)
    (hk : k < bsize)
    (hpt : pivotType ≠ .BUNCH_KAUFMAN_C)
    (hpiv : ChoosePanelPivot (shiftMat st.A off) st.X st.Y (nTot - off) k
      pivotType gammaDef gamma = .ok pivot)
    (hover : k + pivot.nb > bsize) :
    (pivot.nb = 2 ∧ k = bsize - 1)
  ∧ panelLoop nTot off bsize pivotType gammaDef gamma (fuel + 1) k st
      = .ok (st, bsize - 1)
  ∧ panelLoop nTot off bsize pivotType gammaDef gamma (fuel + 1) k st
      = .ok (st, k)
  ∧ (∀ (nTot2 bsize2 k2 fuel2 : ℕ) (st2 : LDLState) (pst : PanelState)
        (nb : ℕ), k2 < nTot2 →
      PanelPivoted st2.A st2.dSub st2.p nTot2 (min bsize2 (nTot2 - k2)) k2
          pivotType gammaDef gamma = .ok (pst, nb) →
      blockedLoop nTot2 bsize2 pivotType gammaDef gamma (fuel2 + 1) k2 st2
        = blockedLoop nTot2 bsize2 pivotType gammaDef gamma fuel2 (k2 + nb)
            ⟨trrkUpdate pst.A pst.X pst.Y k2 nb nTot2, pst.dSub, pst.p⟩) := by
  have hshape := choosePanelPivot_nb _ _ _ _ _ _ _ _ _ hpiv
  have hnb2 : pivot.nb = 2 := by
    rcases hshape with h1 | h2
    · omega
    · exact h2
  have hkb : k = bsize - 1 := by omega
  have hloop : panelLoop nTot off bsize pivotType gammaDef gamma (fuel + 1)
      k st = .ok (st, bsize - 1) := by
    show (if k < bsize then _ else _) = _
    rw [if_pos hk, if_neg hpt, hpiv]
    simp only
    rw [if_pos hover]
  refine ⟨⟨hnb2, hkb⟩, hloop, ?_, ?_⟩
  · rw [hloop, hkb]
  · intro nTot2 bsize2 k2 fuel2 st2 pst nb hk2 hpanel
    show (if k2 < nTot2 then _ else _) = _
    rw [if_pos hk2, hpanel]

/-- The concrete early-stop scenario: panel of proposed width 1 over
`[[0,1],[1,0]]`, whose first pivot is necessarily 2×2. -/
def panelWitnessState : PanelState :=
  ⟨offDiagMat, fun _ => 0, fun _ => 0, fun _ _ => 0, fun _ _ => 0⟩

theorem panel_overflow_stops_early_witness :
    ((⟨2, 0, 1⟩ : LDLPivot).nb = 2 ∧ (0 : ℕ) = 1 - 1)
  ∧ panelLoop 2 0 1 .BUNCH_KAUFMAN_A 1 (1/2) 5 0 panelWitnessState
      = .ok (panelWitnessState, 0) := by
  have hpiv : ChoosePanelPivot (shiftMat panelWitnessState.A 0)
      panelWitnessState.X panelWitnessState.Y (2 - 0) 0 .BUNCH_KAUFMAN_A
      1 (1/2) = .ok ⟨2, 0, 1⟩ := by
    show PanelBunchKaufmanA (shiftMat panelWitnessState.A 0)
      panelWitnessState.X panelWitnessState.Y 2 0 1 (1/2) = .ok ⟨2, 0, 1⟩
    norm_num [PanelBunchKaufmanA, panelZB1, panelZLeft, panelZBottom, segOf,
      VectorMax, vmFold, resolveGamma, shiftMat, panelWitnessState,
      offDiagMat, List.range_succ, max_def]
  have h := panel_overflow_stops_early 2 0 1 0 5 .BUNCH_KAUFMAN_A 1 (1/2)
    panelWitnessState ⟨2, 0, 1⟩ (by norm_num) (by simp) hpiv (by norm_num)
  exact ⟨⟨rfl, rfl⟩, h.2.2.1⟩

/-! ### The distribution-proxy layer -/

/-- The `Dist` enumeration of distribution kinds. -/
inductive Dist where
  | MC | MD | MR | VC | VR | STAR | CIRC
  deriving Repr, DecidableEq

/-- Element-wise versus block wrapping (`DistWrap`). -/
inductive DistWrap where
  | ELEMENT | BLOCK
  deriving Repr, DecidableEq

/-- The metadata of an `AbstractDistMatrix` consulted by the proxy
constructors: distribution pair, wrap, the two alignments and the root. -/
structure DistMeta where
  colDist : Dist
  rowDist : Dist
  wrap : DistWrap
  colAlign : ℕ
  rowAlign : ℕ
  root : ℕ
  deriving Repr, DecidableEq

/-- `ElementalProxyCtrl`: optional alignment/root constraints with their
active flags (all inactive by default). -/
structure ElementalProxyCtrl where
  colConstrain : Bool
  rowConstrain : Bool
  rootConstrain : Bool
  colAlign : ℕ
  rowAlign : ℕ
  root : ℕ
  deriving Repr, DecidableEq

/-- The default-constructed `ElementalProxyCtrl`. -/
def defaultCtrl : ElementalProxyCtrl := ⟨false, false, false, 0, 0, 0⟩

/-- The aliasing test shared by the three `DistMatrix` proxy constructors:
`IsSame<S,T>` (`sameType`), `A.ColDist() == U && A.RowDist() == V &&
A.Wrap() == ELEMENT`, and no active constraint is misaligned. -/
def proxyMatches (sameType : Bool) (m : DistMeta) (U V : Dist)
    (ctrl : ElementalProxyCtrl) : Bool :=
  sameType && m.colDist == U && m.rowDist == V && m.wrap == .ELEMENT
  && !(ctrl.colConstrain && m.colAlign != ctrl.colAlign)
  && !(ctrl.rowConstrain && m.rowAlign != ctrl.rowAlign)
  && !(ctrl.rootConstrain && m.root != ctrl.root)

/-- Where the proxy's `prox_` pointer aims: at the original matrix itself
(the zero-copy alias of the matching case) or at a freshly `new`-allocated
matrix with its own contents. -/
inductive ProxyTarget where
  | aliasOrig
  | fresh (data : Mat)

/-- The contents read through the proxy (`Get`/`GetLocked`): the original's
current contents when aliased, the fresh buffer otherwise. -/
def ProxyTarget.read (t : ProxyTarget) (orig : Mat) : Mat :=
  match t with
  | .aliasOrig => orig
  | .fresh d => d

/-- Point mutation of a matrix. -/
def matSet (M : Mat) (i j : ℕ) (v : ℚ) : Mat := fun x y =>
  if x = i ∧ y = j then v else M x y

/-- A mutation through the proxy: returns the new proxy target and the new
contents of the original matrix.  Writing through an alias writes the
original; writing through a fresh buffer leaves the original untouched. -/
def proxySet (t : ProxyTarget) (orig : Mat) (i j : ℕ) (v : ℚ) :
    ProxyTarget × Mat :=
  match t with
  | .aliasOrig => (.aliasOrig, matSet orig i j v)
  | .fresh d => (.fresh (matSet d i j v), orig)

/-- A constructed `DistMatrix` proxy: the target pointer plus the
`needDelete_` and `needWriteCopy_` flags.  (`DistMatrixReadProxy` has no
`needWriteCopy_` member because its destructor never copies back; it is
modelled with the flag constantly `false`.) -/
structure ProxyState where
  target : ProxyTarget
  needDelete : Bool
  needWriteCopy : Bool

/-- `DistMatrixReadProxy` constructor: alias on match, otherwise allocate a
fresh target matrix and populate it via `Copy(A, *prox_)`. -/
def mkReadProxy (sameType : Bool) (m : DistMeta) (U V : Dist)
    (ctrl : ElementalProxyCtrl) (orig : Mat) : ProxyState :=
  if proxyMatches sameType m U V ctrl then ⟨.aliasOrig, false, false⟩
  else ⟨.fresh orig, true, false⟩

/-- `DistMatrixWriteProxy` constructor: alias on match with both flags
`false`; otherwise allocate and merely `Resize` to the source's extents
(no initial copy — the fresh contents are unspecified, modelled as
zeros). -/
def mkWriteProxy (sameType : Bool) (m : DistMeta) (U V : Dist)
    (ctrl : ElementalProxyCtrl) : ProxyState :=
  if proxyMatches sameType m U V ctrl then ⟨.aliasOrig, false, false⟩
  else ⟨.fresh (fun _ _ => 0), true, true⟩

/-- `DistMatrixReadWriteProxy` constructor: alias on match; otherwise
allocate and copy the source in. -/
def mkReadWriteProxy (sameType : Bool) (m : DistMeta) (U V : Dist)
    (ctrl : ElementalProxyCtrl) (orig : Mat) : ProxyState :=
  if proxyMatches sameType m U V ctrl then ⟨.aliasOrig, false, false⟩
  else ⟨.fresh orig, true, true⟩

/-- The destructor of the write and read-write proxies, returning the
contents the original matrix holds afterwards:
`if( needWriteCopy_ && !uncaught_exception() ) Copy( *prox_, orig_ )`,
then `delete prox_` (which frees only the proxy's own buffer). -/
def proxyDestruct (st : ProxyState) (unwinding : Bool) (orig : Mat) : Mat :=
  if st.needWriteCopy && !unwinding then st.target.read orig else orig

/-- **C5**: a write or read-write proxy destructor copies the proxy's
contents back into the original matrix if and only if an actual copy was
required at construction (`needWriteCopy_` is set exactly when the source
failed the type/distribution/alignment match) and no exception is currently
propagating; in particular, during stack unwind the original operand is
left completely unchanged, whatever the proxy holds. -/
theorem proxy_writeback_policy (sameType : Bool) (m : DistMeta) (U V : Dist)
    (ctrl : ElementalProxyCtrl) (orig : Mat) :
    ((mkWriteProxy sameType m U V ctrl).needWriteCopy
        = !(proxyMatches sameType m U V ctrl))
  ∧ ((mkReadWriteProxy sameType m U V ctrl orig).needWriteCopy
        = !(proxyMatches sameType m U V ctrl))
  ∧ (∀ st : ProxyState, proxyDestruct st true orig = orig)
  ∧ (∀ st : ProxyState, st.needWriteCopy = false →
      ∀ u, proxyDestruct st u orig = orig)
  ∧ (∀ st : ProxyState, st.needWriteCopy = true →
      proxyDestruct st false orig = st.target.read orig) := by
  refine ⟨?_, ?_, ?_, ?_, ?_⟩
  · unfold mkWriteProxy
    by_cases h : proxyMatches sameType m U V ctrl <;> simp [h]
  · unfold mkReadWriteProxy
    by_cases h : proxyMatches sameType m U V ctrl <;> simp [h]
  · intro st
    simp [proxyDestruct]
  · intro st hst u
    simp [proxyDestruct, hst]
  · intro st hst
    simp [proxyDestruct, hst]

theorem proxy_writeback_policy_witness :
    proxyDestruct ⟨.fresh (fun _ _ => 1), true, true⟩ true zeroMat = zeroMat ∧
      proxyDestruct ⟨.fresh (fun _ _ => 1), true, true⟩ false zeroMat
        = (fun _ _ => (1:ℚ)) := by
  have h := proxy_writeback_policy true ⟨.MR, .MC, .ELEMENT, 0, 0, 0⟩ .MC .MR
    defaultCtrl zeroMat
  exact ⟨h.2.2.1 ⟨.fresh (fun _ _ => 1), true, true⟩,
    h.2.2.2.2 ⟨.fresh (fun _ _ => 1), true, true⟩ rfl⟩

/-- **C6**: for a source whose element type equals the target's, whose
distribution pair equals the target pair with element-wise wrapping, and
which violates none of the active alignment/root constraints, all three
proxy constructors produce a zero-copy alias: no allocation
(`needDelete_ = false`), reads go to the source object itself, a mutation
through the proxy is immediately visible in the original matrix, and
destruction performs no copy (`needWriteCopy_ = false`) and no deletion. -/
theorem proxy_alias_when_matching (m : DistMeta) (U V : Dist)
    (ctrl : ElementalProxyCtrl) (orig : Mat)
    (hcd : m.colDist = U) (hrd : m.rowDist = V) (hw : m.wrap = .ELEMENT)
    (hca : ctrl.colConstrain = true → m.colAlign = ctrl.colAlign)
    (hra : ctrl.rowConstrain = true → m.rowAlign = ctrl.rowAlign)
    (hro : ctrl.rootConstrain = true → m.root = ctrl.root) :
    proxyMatches true m U V ctrl = true
  ∧ mkReadProxy true m U V ctrl orig = ⟨.aliasOrig, false, false⟩
  ∧ mkWriteProxy true m U V ctrl = ⟨.aliasOrig, false, false⟩
  ∧ mkReadWriteProxy true m U V ctrl orig = ⟨.aliasOrig, false, false⟩
  ∧ (mkReadProxy true m U V ctrl orig).target.read orig = orig
  ∧ (∀ i j v, (proxySet (mkWriteProxy true m U V ctrl).target orig i j v).2 i j
      = v)
  ∧ proxyDestruct (mkWriteProxy true m U V ctrl) false orig = orig
  ∧ proxyDestruct (mkReadWriteProxy true m U V ctrl orig) false orig
      = orig := by
  have hmatch : proxyMatches true m U V ctrl = true := by
    unfold proxyMatches
    subst hcd hrd
    simp only [hw, Bool.and_eq_true, beq_self_eq_true, Bool.true_and,
      Bool.not_eq_true', Bool.and_eq_false_iff]
    refine ⟨⟨?_, ?_⟩, ?_⟩
    · cases hcc : ctrl.colConstrain
      · exact Or.inl rfl
      · exact Or.inr (by simp [hca hcc])
    · cases hrc : ctrl.rowConstrain
      · exact Or.inl rfl
      · exact Or.inr (by simp [hra hrc])
    · cases hrc : ctrl.rootConstrain
      · exact Or.inl rfl
      · exact Or.inr (by simp [hro hrc])
  refine ⟨hmatch, ?_, ?_, ?_, ?_, ?_, ?_, ?_⟩
  · unfold mkReadProxy; rw [if_pos hmatch]
  · unfold mkWriteProxy; rw [if_pos hmatch]
  · unfold mkReadWriteProxy; rw [if_pos hmatch]
  · unfold mkReadProxy; rw [if_pos hmatch]; rfl
  · intro i j v
    unfold mkWriteProxy; rw [if_pos hmatch]
    simp [proxySet, matSet]
  · unfold mkWriteProxy; rw [if_pos hmatch]; rfl
  · unfold mkReadWriteProxy; rw [if_pos hmatch]; rfl

theorem proxy_alias_when_matching_witness :
    proxyMatches true ⟨.MC, .MR, .ELEMENT, 0, 0, 0⟩ .MC .MR defaultCtrl
        = true ∧
      mkReadWriteProxy true ⟨.MC, .MR, .ELEMENT, 0, 0, 0⟩ .MC .MR defaultCtrl
        zeroMat = ⟨.aliasOrig, false, false⟩ := by
  have h := proxy_alias_when_matching ⟨.MC, .MR, .ELEMENT, 0, 0, 0⟩ .MC .MR
    defaultCtrl zeroMat rfl rfl rfl (by intro h; cases h) (by intro h; cases h)
    (by intro h; cases h)
  exact ⟨h.1, h.2.2.2.1⟩

/-! ### The `getDiagonal` distribution table -/

instance : Fintype Dist :=
  ⟨⟨{.MC, .MD, .MR, .VC, .VR, .STAR, .CIRC}, by decide⟩,
    by intro x; cases x <;> decide⟩

/-- The closed table of `ElDistMatrixGetDiagonal_s`: for each supported
source distribution pair, the distribution pair of the matrix returned for
the diagonal; `none` is the `RuntimeError("Invalid distribution pair")`
branch. -/
def getDiagonalDist : Dist → Dist → Option (Dist × Dist)
  | .CIRC, .CIRC => some (.CIRC, .CIRC)
  | .MC, .MR => some (.MD, .STAR)
  | .MC, .STAR => some (.MC, .STAR)
  | .MD, .STAR => some (.MD, .STAR)
  | .STAR, .MC => some (.MC, .STAR)
  | .STAR, .MD => some (.MD, .STAR)
  | .STAR, .MR => some (.MR, .STAR)
  | .STAR, .STAR => some (.STAR, .STAR)
  | .STAR, .VC => some (.VC, .STAR)
  | .STAR, .VR => some (.VR, .STAR)
  | .VC, .STAR => some (.VC, .STAR)
  | .VR, .STAR => some (.VR, .STAR)
  | _, _ => none

/-- The pairs accepted by `ElDistMatrixCreateSpecific_s`; `false` is its
`RuntimeError("Invalid distribution pair")` branch. -/
def createSpecificSupported : Dist → Dist → Bool
  | .CIRC, .CIRC => true
  | .MC, .MR => true
  | .MC, .STAR => true
  | .MD, .STAR => true
  | .MR, .MC => true
  | .MR, .STAR => true
  | .STAR, .MC => true
  | .STAR, .MD => true
  | .STAR, .MR => true
  | .STAR, .STAR => true
  | .STAR, .VC => true
  | .STAR, .VR => true
  | .VC, .STAR => true
  | .VR, .STAR => true
  | _, _ => false

/-- Modelled from the spec: the diagonal of offset `off` read by
`GetDiagonal` (the member implementation is not under src/) — entry `i` is
`A(i, i+off)` for `off ≥ 0` and `A(i-off, i)` for `off < 0`.  On a fully
replicated `[STAR,STAR]` matrix every worker holds the same global
contents, so each worker computes the identical diagonal. -/
def diagOf (A : Mat) (off : ℤ) : ℕ → ℚ := fun i =>
  if 0 ≤ off then A i (i + off.toNat) else A (i + (-off).toNat) i

/-- **C8 counterexample**: the distribution pairs `(MR, MC)` and
`(MR, STAR)` are accepted by the specific-distribution constructor but are
absent from the `getDiagonal` table, whose default branch raises the
invalid-pair error for them. -/
theorem getDiagonal_table_gap :
    createSpecificSupported .MR .MC = true ∧ getDiagonalDist .MR .MC = none ∧
      createSpecificSupported .MR .STAR = true ∧
      getDiagonalDist .MR .STAR = none := by
  refine ⟨rfl, rfl, rfl, rfl⟩

/-- **C8 (amended)**: `getDiagonal` succeeds exactly on the 12 pairs of its
closed table, each mapped to one fixed diagonal distribution — in
particular a fully replicated `[STAR,STAR]` source yields a fully
replicated `[STAR,STAR]` diagonal, identical on every worker — and every
pair outside the table raises the invalid-configuration error.  The
constructor's accepted set is the table's domain plus exactly `(MR, MC)`
and `(MR, STAR)`, which `getDiagonal` rejects. -/
theorem getDiagonal_closed_table :
    getDiagonalDist .STAR .STAR = some (.STAR, .STAR)
  ∧ (∀ U V : Dist, createSpecificSupported U V = true ↔
      ((getDiagonalDist U V).isSome ∨
        (U = .MR ∧ (V = .MC ∨ V = .STAR))))
  ∧ (∀ (content : ℕ → Mat), (∀ w w' : ℕ, content w = content w') →
      ∀ (off : ℤ) (w w' : ℕ), diagOf (content w) off = diagOf (content w') off)
    := by
  refine ⟨rfl, by decide, ?_⟩
  intro content hrep off w w'
  rw [hrep w w']

theorem getDiagonal_closed_table_witness :
    diagOf ((fun _ => zeroMat) 0) 1 = diagOf ((fun _ => zeroMat) 3) 1 :=
  getDiagonal_closed_table.2.2 (fun _ => zeroMat) (fun _ _ => rfl) 1 0 3

/-! ### Correctness of the factorization: reconstruction framework -/

theorem lowerRep_symm (A : Mat) (i j : ℕ) : lowerRep A i j = lowerRep A j i := by
  unfold lowerRep
  rcases Nat.lt_trichotomy i j with h | h | h
  · rw [if_neg (by omega), if_pos (by omega)]
  · subst h; rfl
  · rw [if_pos (by omega), if_neg (by omega)]

theorem transp_invol (v w x : ℕ) : transp v w (transp v w x) = x := by
  unfold transp
  split_ifs <;> omega

theorem transp_fix (v w x : ℕ) (hx : x ≠ v) (hw : x ≠ w) :
    transp v w x = x := by
  unfold transp
  rw [if_neg hx, if_neg hw]

theorem transp_fix_lt (v w x k : ℕ) (hv : k ≤ v) (hw : k ≤ w) (hx : x < k) :
    transp v w x = x := transp_fix v w x (by omega) (by omega)

theorem transp_lt (v w x n : ℕ) (hv : v < n) (hw : w < n) (hx : x < n) :
    transp v w x < n := by
  unfold transp
  split_ifs <;> omega

theorem transp_ge (v w x k : ℕ) (hv : k ≤ v) (hw : k ≤ w) (hx : k ≤ x) :
    k ≤ transp v w x := by
  unfold transp
  split_ifs <;> omega

/-- Entries of the lower triangle read through `SymmetricSwap`. -/
theorem symmetricSwap_lower_entry (A : Mat) (v w x y : ℕ) (h : y ≤ x) :
    SymmetricSwap A v w x y = lowerRep A (transp v w x) (transp v w y) := by
  show (if y ≤ x then lowerRep A (transp v w x) (transp v w y) else A x y) = _
  rw [if_pos h]

/-- `SymmetricSwap` does not modify entries strictly above the diagonal. -/
theorem symmetricSwap_upper (A : Mat) (v w x y : ℕ) (h : x < y) :
    SymmetricSwap A v w x y = A x y := by
  show (if y ≤ x then lowerRep A (transp v w x) (transp v w y) else A x y) = _
  rw [if_neg (by omega)]

theorem symmetricSwap_lowerRep (A : Mat) (v w x y : ℕ) :
    lowerRep (SymmetricSwap A v w) x y
      = lowerRep A (transp v w x) (transp v w y) := by
  rcases le_or_lt y x with h | h
  · show (if y ≤ x then SymmetricSwap A v w x y else SymmetricSwap A v w y x)
      = _
    rw [if_pos h, symmetricSwap_lower_entry A v w x y h]
  · show (if y ≤ x then SymmetricSwap A v w x y else SymmetricSwap A v w y x)
      = _
    rw [if_neg (by omega), symmetricSwap_lower_entry A v w y x (le_of_lt h),
      lowerRep_symm]

/-- The permutation accumulated from the pivot vector: `permOfPivots p m` is
the composite `t_0 ∘ t_1 ∘ ⋯ ∘ t_{m-1}` of the transpositions `t_i = (i, p i)`
applied by the factorization, mapping final row indices to original ones. -/
def permOfPivots (p : ℕ → ℕ) : ℕ → ℕ → ℕ
  | 0 => fun x => x
  | m + 1 => fun x => permOfPivots p m (transp m (p m) x)

theorem permOfPivots_congr (p q : ℕ → ℕ) (m : ℕ)
    (h : ∀ i, i < m → p i = q i) : ∀ x, permOfPivots p m x = permOfPivots q m x := by
  induction m with
  | zero => intro x; rfl
  | succ m ih =>
      intro x
      show permOfPivots p m (transp m (p m) x)
        = permOfPivots q m (transp m (q m) x)
      rw [h m (by omega)]
      exact ih (fun i hi => h i (by omega)) _

theorem permOfPivots_bijective (p : ℕ → ℕ) (m : ℕ) :
    Function.Bijective (permOfPivots p m) := by
  induction m with
  | zero => exact Function.bijective_id
  | succ m ih =>
      have htr : Function.Bijective (fun x => transp m (p m) x) := by
        constructor
        · intro a b hab
          have := congrArg (transp m (p m)) hab
          rwa [transp_invol, transp_invol] at this
        · intro b
          exact ⟨transp m (p m) b, transp_invol _ _ _⟩
      exact Function.Bijective.comp ih htr

theorem permOfPivots_lt (p : ℕ → ℕ) (n : ℕ) (hp : ∀ i, i < n → p i < n) :
    ∀ m, m ≤ n → ∀ x, x < n → permOfPivots p m x < n := by
  intro m
  induction m with
  | zero => intro _ x hx; exact hx
  | succ m ih =>
      intro hm x hx
      show permOfPivots p m (transp m (p m) x) < n
      exact ih (by omega) _ (transp_lt _ _ _ _ (by omega) (hp m (by omega)) hx)

/-- The unit-lower-triangular factor read from the overwritten matrix:
strictly-lower entries plus a unit diagonal. -/
def lpart (M : Mat) (i c : ℕ) : ℚ :=
  if c < i then M i c else if c = i then 1 else 0

/-- The block-diagonal factor: the diagonal of the overwritten matrix
together with the `dSub` sub-diagonal entries (symmetrically). -/
def dmat (M : Mat) (d : ℕ → ℚ) (c e : ℕ) : ℚ :=
  if c = e then M c c else if c = e + 1 then d e
  else if e = c + 1 then d c else 0

/-- The candidate reconstruction after `k` processed columns: the computed
part `L₁₁·D₁₁·L₁₁ᵀ`-style contribution of the first `k` columns plus the
untouched trailing symmetric block. -/
def recon (M : Mat) (d : ℕ → ℚ) (n k i j : ℕ) : ℚ :=
  (∑ c ∈ Finset.range k, ∑ e ∈ Finset.range k,
    lpart M i c * dmat M d c e * lpart M j e)
  + (if k ≤ i ∧ k ≤ j ∧ i < n ∧ j < n then lowerRep M i j else 0)

theorem lpart_swap (M : Mat) (v w k i c : ℕ) (hkv : k ≤ v) (hkw : k ≤ w)
    (hc : c < k) :
    lpart (SymmetricSwap M v w) i c = lpart M (transp v w i) c := by
  by_cases hik : i < k
  · rw [transp_fix_lt v w i k hkv hkw hik]
    unfold lpart
    by_cases hci : c < i
    · rw [if_pos hci, if_pos hci,
        symmetricSwap_lower_entry M v w i c (le_of_lt hci),
        transp_fix_lt v w i k hkv hkw hik, transp_fix_lt v w c k hkv hkw hc]
      show lowerRep M i c = M i c
      unfold lowerRep
      rw [if_pos (le_of_lt hci)]
    · rw [if_neg hci, if_neg hci]
  · have hik' : k ≤ i := le_of_not_lt hik
    have hti : k ≤ transp v w i := transp_ge v w i k hkv hkw hik'
    unfold lpart
    rw [if_pos (by omega), if_pos (by omega),
      symmetricSwap_lower_entry M v w i c (by omega),
      transp_fix_lt v w c k hkv hkw hc]
    show lowerRep M (transp v w i) c = M (transp v w i) c
    unfold lowerRep
    rw [if_pos (by omega)]

theorem dmat_swap (M : Mat) (d : ℕ → ℚ) (v w k c e : ℕ) (hkv : k ≤ v)
    (hkw : k ≤ w) (hc : c < k) (he : e < k) :
    dmat (SymmetricSwap M v w) d c e = dmat M d c e := by
  unfold dmat
  by_cases hce : c = e
  · rw [if_pos hce, if_pos hce,
      symmetricSwap_lower_entry M v w c c (le_refl c),
      transp_fix_lt v w c k hkv hkw hc]
    show lowerRep M c c = M c c
    unfold lowerRep
    rw [if_pos (le_refl c)]
  · rw [if_neg hce, if_neg hce]

/-- Conjugating the stored matrix by a symmetric swap of two rows/columns at
indices `≥ k` permutes the reconstruction's arguments accordingly. -/
theorem recon_swap (M : Mat) (d : ℕ → ℚ) (n k v w i j : ℕ)
    (hkv : k ≤ v) (hkw : k ≤ w) (hvn : v < n) (hwn : w < n)
    (hi : i < n) (hj : j < n) :
    recon (SymmetricSwap M v w) d n k i j
      = recon M d n k (transp v w i) (transp v w j) := by
  unfold recon
  have hsum : (∑ c ∈ Finset.range k, ∑ e ∈ Finset.range k,
      lpart (SymmetricSwap M v w) i c * dmat (SymmetricSwap M v w) d c e *
        lpart (SymmetricSwap M v w) j e)
      = ∑ c ∈ Finset.range k, ∑ e ∈ Finset.range k,
        lpart M (transp v w i) c * dmat M d c e * lpart M (transp v w j) e := by
    refine Finset.sum_congr rfl fun c hc => Finset.sum_congr rfl fun e he => ?_
    rw [lpart_swap M v w k i c hkv hkw (Finset.mem_range.mp hc),
      lpart_swap M v w k j e hkv hkw (Finset.mem_range.mp he),
      dmat_swap M d v w k c e hkv hkw (Finset.mem_range.mp hc)
        (Finset.mem_range.mp he)]
  rw [hsum]
  congr 1
  have hik : k ≤ i ↔ k ≤ transp v w i := by
    constructor
    · exact transp_ge v w i k hkv hkw
    · intro h
      by_contra hik
      rw [transp_fix_lt v w i k hkv hkw (by omega)] at h
      omega
  have hjk : k ≤ j ↔ k ≤ transp v w j := by
    constructor
    · exact transp_ge v w j k hkv hkw
    · intro h
      by_contra hjk
      rw [transp_fix_lt v w j k hkv hkw (by omega)] at h
      omega
  have htin : transp v w i < n := transp_lt v w i n hvn hwn hi
  have htjn : transp v w j < n := transp_lt v w j n hvn hwn hj
  by_cases hcond : k ≤ i ∧ k ≤ j
  · rw [if_pos ⟨hcond.1, hcond.2, hi, hj⟩,
      if_pos ⟨hik.mp hcond.1, hjk.mp hcond.2, htin, htjn⟩]
    exact symmetricSwap_lowerRep M v w i j
  · rw [if_neg (by tauto), if_neg (by rw [← hik, ← hjk]; tauto)]

theorem rank1Update_lower_lt (M : Mat) (k n x y : ℕ) (hy : y < k) :
    rank1Update M k n x y = M x y := by
  unfold rank1Update
  rw [if_neg (by omega), if_neg (by omega)]

theorem rank1Update_diag_k (M : Mat) (k n : ℕ) :
    rank1Update M k n k k = M k k := by
  unfold rank1Update
  rw [if_neg (by omega), if_neg (by omega)]

theorem rank1Update_col_k (M : Mat) (k n x : ℕ) (hx : k + 1 ≤ x)
    (hxn : x < n) :
    rank1Update M k n x k = 1 / M k k * M x k := by
  unfold rank1Update
  rw [if_pos ⟨hx, hxn, rfl⟩]

theorem rank1Update_trail (M : Mat) (k n x y : ℕ) (h1 : k + 1 ≤ y)
    (h2 : y ≤ x) (h3 : x < n) :
    rank1Update M k n x y = M x y - 1 / M k k * M x k * M y k := by
  unfold rank1Update
  rw [if_neg (by omega), if_pos ⟨h1, h2, h3⟩]

theorem rank1Update_lowerRep_trail (M : Mat) (k n i j : ℕ)
    (hi1 : k + 1 ≤ i) (hj1 : k + 1 ≤ j) (hin : i < n) (hjn : j < n) :
    lowerRep (rank1Update M k n) i j
      = lowerRep M i j - 1 / M k k * M i k * M j k := by
  rcases le_or_lt j i with h | h
  · show (if j ≤ i then rank1Update M k n i j else rank1Update M k n j i)
      = (if j ≤ i then M i j else M j i) - _
    rw [if_pos h, if_pos h, rank1Update_trail M k n i j hj1 h hin]
  · show (if j ≤ i then rank1Update M k n i j else rank1Update M k n j i)
      = (if j ≤ i then M i j else M j i) - _
    rw [if_neg (by omega), if_neg (by omega),
      rank1Update_trail M k n j i hi1 (le_of_lt h) hjn]
    ring

/-- The 1×1 elimination step preserves the reconstruction: eliminating
column `k` with the nonzero pivot `δ = M(k,k)` moves the column from the
trailing block into the computed `L`/`D` part without changing the
represented matrix. -/
theorem recon_elim1 (M : Mat) (d : ℕ → ℚ) (n k i j : ℕ)
    (hk : k < n) (hi : i < n) (hj : j < n)
    (hdelta : M k k ≠ 0)
    (hd : ∀ e, k ≤ e + 1 → d e = 0) :
    recon (rank1Update M k n) d n (k + 1) i j = recon M d n k i j := by
  unfold recon
  set M' := rank1Update M k n with hM'
  have hlpc : ∀ x c, c < k → lpart M' x c = lpart M x c := by
    intro x c hc
    unfold lpart
    by_cases h1 : c < x
    · rw [if_pos h1, if_pos h1, hM', rank1Update_lower_lt M k n x c hc]
    · rw [if_neg h1, if_neg h1]
  have hdm : ∀ c e, c < k → e < k → dmat M' d c e = dmat M d c e := by
    intro c e hc he
    unfold dmat
    by_cases h1 : c = e
    · rw [if_pos h1, if_pos h1, hM', rank1Update_lower_lt M k n c c (h1 ▸ he)]
    · rw [if_neg h1, if_neg h1]
  have hdmck : ∀ c, c < k → dmat M' d c k = 0 := by
    intro c hc
    unfold dmat
    rw [if_neg (by omega), if_neg (by omega)]
    by_cases h : k = c + 1
    · rw [if_pos h, hd c (by omega)]
    · rw [if_neg h]
  have hdmkc : ∀ e, e < k → dmat M' d k e = 0 := by
    intro e he
    unfold dmat
    rw [if_neg (by omega)]
    by_cases h : k = e + 1
    · rw [if_pos h, hd e (by omega)]
    · rw [if_neg h, if_neg (by omega)]
  have hdkk : dmat M' d k k = M k k := by
    unfold dmat
    rw [if_pos rfl, hM', rank1Update_diag_k]
  have hsplit : (∑ c ∈ Finset.range (k + 1), ∑ e ∈ Finset.range (k + 1),
      lpart M' i c * dmat M' d c e * lpart M' j e)
      = (∑ c ∈ Finset.range k, ∑ e ∈ Finset.range k,
          lpart M i c * dmat M d c e * lpart M j e)
        + lpart M' i k * (M k k) * lpart M' j k := by
    rw [Finset.sum_range_succ]
    have hinner : ∀ c, c < k →
        (∑ e ∈ Finset.range (k + 1), lpart M' i c * dmat M' d c e *
          lpart M' j e)
        = ∑ e ∈ Finset.range k, lpart M i c * dmat M d c e * lpart M j e := by
      intro c hc
      rw [Finset.sum_range_succ, hdmck c hc]
      rw [mul_zero, zero_mul, add_zero]
      refine Finset.sum_congr rfl fun e he => ?_
      rw [hlpc i c hc, hlpc j e (Finset.mem_range.mp he),
        hdm c e hc (Finset.mem_range.mp he)]
    have houter : (∑ c ∈ Finset.range k, ∑ e ∈ Finset.range (k + 1),
        lpart M' i c * dmat M' d c e * lpart M' j e)
        = ∑ c ∈ Finset.range k, ∑ e ∈ Finset.range k,
            lpart M i c * dmat M d c e * lpart M j e :=
      Finset.sum_congr rfl fun c hc => hinner c (Finset.mem_range.mp hc)
    rw [houter]
    congr 1
    rw [Finset.sum_range_succ, hdkk]
    have hzero : (∑ e ∈ Finset.range k,
        lpart M' i k * dmat M' d k e * lpart M' j e) = 0 := by
      refine Finset.sum_eq_zero fun e he => ?_
      rw [hdmkc e (Finset.mem_range.mp he), mul_zero, zero_mul]
    rw [hzero, zero_add]
  have hlpk : ∀ x, x < n → lpart M' x k
      = (if k < x then 1 / M k k * M x k else if x = k then 1 else 0) := by
    intro x hxn
    unfold lpart
    by_cases h1 : k < x
    · rw [if_pos h1, if_pos h1, hM', rank1Update_col_k M k n x h1 hxn]
    · rw [if_neg h1, if_neg h1]
      by_cases h2 : k = x
      · rw [if_pos h2, if_pos (by omega)]
      · rw [if_neg h2, if_neg (by omega)]
  have hterm : lpart M' i k * M k k * lpart M' j k
      + (if k + 1 ≤ i ∧ k + 1 ≤ j ∧ i < n ∧ j < n then lowerRep M' i j else 0)
      = (if k ≤ i ∧ k ≤ j ∧ i < n ∧ j < n then lowerRep M i j else 0) := by
    rw [hlpk i hi, hlpk j hj]
    rcases Nat.lt_trichotomy i k with hik | hik | hik
    · rw [if_neg (show ¬ k < i by omega), if_neg (show ¬ i = k by omega),
        if_neg (show ¬(k + 1 ≤ i ∧ k + 1 ≤ j ∧ i < n ∧ j < n) by omega),
        if_neg (show ¬(k ≤ i ∧ k ≤ j ∧ i < n ∧ j < n) by omega)]
      ring
    · rw [if_neg (show ¬ k < i by omega), if_pos hik,
        if_neg (show ¬(k + 1 ≤ i ∧ k + 1 ≤ j ∧ i < n ∧ j < n) by omega)]
      rcases Nat.lt_trichotomy j k with hji | hji | hji
      · rw [if_neg (show ¬ k < j by omega), if_neg (show ¬ j = k by omega),
          if_neg (show ¬(k ≤ i ∧ k ≤ j ∧ i < n ∧ j < n) by omega)]
        ring
      · rw [if_neg (show ¬ k < j by omega), if_pos hji,
          if_pos (show k ≤ i ∧ k ≤ j ∧ i < n ∧ j < n by omega),
          show lowerRep M i j = M k k by
            unfold lowerRep
            rw [if_pos (by omega), hik, hji]]
        ring
      · rw [if_pos hji, if_pos (show k ≤ i ∧ k ≤ j ∧ i < n ∧ j < n by omega),
          show lowerRep M i j = M j k by
            unfold lowerRep
            rw [if_neg (by omega), hik]]
        field_simp
    · rcases Nat.lt_trichotomy j k with hjk | hjk | hjk
      · rw [if_pos hik, if_neg (show ¬ k < j by omega),
          if_neg (show ¬ j = k by omega),
          if_neg (show ¬(k + 1 ≤ i ∧ k + 1 ≤ j ∧ i < n ∧ j < n) by omega),
          if_neg (show ¬(k ≤ i ∧ k ≤ j ∧ i < n ∧ j < n) by omega)]
        ring
      · rw [if_pos hik, if_neg (show ¬ k < j by omega), if_pos hjk,
          if_neg (show ¬(k + 1 ≤ i ∧ k + 1 ≤ j ∧ i < n ∧ j < n) by omega),
          if_pos (show k ≤ i ∧ k ≤ j ∧ i < n ∧ j < n by omega),
          show lowerRep M i j = M i k by
            unfold lowerRep
            rw [if_pos (by omega), hjk]]
        field_simp
      · rw [if_pos hik, if_pos hjk,
          if_pos (show k + 1 ≤ i ∧ k + 1 ≤ j ∧ i < n ∧ j < n by omega),
          if_pos (show k ≤ i ∧ k ≤ j ∧ i < n ∧ j < n by omega), hM',
          rank1Update_lowerRep_trail M k n i j (by omega) (by omega) hi hj]
        field_simp
  linear_combination hsplit + hterm

theorem rank2Update_lower_lt (M : Mat) (k n x y : ℕ) (hy : y < k) :
    rank2Update M k n x y = M x y := by
  unfold rank2Update
  rw [if_neg (by omega), if_neg (by omega), if_neg (by omega),
    if_neg (by omega)]

theorem rank2Update_diag_k (M : Mat) (k n : ℕ) :
    rank2Update M k n k k = M k k := by
  unfold rank2Update
  rw [if_neg (by omega), if_neg (by omega), if_neg (by omega),
    if_neg (by omega)]

theorem rank2Update_diag_k1 (M : Mat) (k n : ℕ) :
    rank2Update M k n (k + 1) (k + 1) = M (k + 1) (k + 1) := by
  unfold rank2Update
  rw [if_neg (by omega), if_neg (by omega), if_neg (by omega),
    if_neg (by omega)]

theorem rank2Update_subdiag (M : Mat) (k n : ℕ) :
    rank2Update M k n (k + 1) k = 0 := by
  unfold rank2Update
  rw [if_pos ⟨rfl, rfl⟩]

theorem rank2Update_offdiag_upper (M : Mat) (k n : ℕ) :
    rank2Update M k n k (k + 1) = M k (k + 1) := by
  unfold rank2Update
  rw [if_neg (by omega), if_neg (by omega), if_neg (by omega),
    if_neg (by omega)]

theorem rank2Update_col0 (M : Mat) (k n x : ℕ) (hx : k + 2 ≤ x)
    (hxn : x < n) :
    rank2Update M k n x k
      = (M x k * M (k + 1) (k + 1) - M x (k + 1) * M (k + 1) k)
          / (M k k * M (k + 1) (k + 1) - M (k + 1) k * M (k + 1) k) := by
  unfold rank2Update
  rw [if_neg (by omega), if_pos ⟨hx, hxn, rfl⟩]

theorem rank2Update_col1 (M : Mat) (k n x : ℕ) (hx : k + 2 ≤ x)
    (hxn : x < n) :
    rank2Update M k n x (k + 1)
      = (M x (k + 1) * M k k - M x k * M (k + 1) k)
          / (M k k * M (k + 1) (k + 1) - M (k + 1) k * M (k + 1) k) := by
  unfold rank2Update
  rw [if_neg (by omega), if_neg (by omega), if_pos ⟨hx, hxn, rfl⟩]

theorem rank2Update_trail (M : Mat) (k n x y : ℕ) (h1 : k + 2 ≤ y)
    (h2 : y ≤ x) (h3 : x < n) :
    rank2Update M k n x y
      = M x y -
        ((M x k * M (k + 1) (k + 1) - M x (k + 1) * M (k + 1) k)
            / (M k k * M (k + 1) (k + 1) - M (k + 1) k * M (k + 1) k) * M y k
          + (M x (k + 1) * M k k - M x k * M (k + 1) k)
              / (M k k * M (k + 1) (k + 1) - M (k + 1) k * M (k + 1) k)
              * M y (k + 1)) := by
  unfold rank2Update
  rw [if_neg (by omega), if_neg (by omega), if_neg (by omega),
    if_pos ⟨h1, h2, h3⟩]

/-- The 2×2 elimination step preserves the reconstruction: eliminating
columns `k, k+1` with the nonsingular symmetric block `[a b; b c]`
(`det = a·c − b² ≠ 0`) moves both columns into the computed `L`/`D` part —
with the block's off-diagonal entry recorded in `dSub k` and zeroed in the
matrix — without changing the represented matrix. -/
theorem recon_elim2 (M : Mat) (d : ℕ → ℚ) (n k i j : ℕ)
    (hk : k + 1 < n) (hi : i < n) (hj : j < n)
    (hdet : M k k * M (k + 1) (k + 1) - M (k + 1) k * M (k + 1) k ≠ 0)
    (hd : ∀ e, k ≤ e + 1 → d e = 0) :
    recon (rank2Update M k n) (Function.update d k (M (k + 1) k)) n (k + 2)
        i j
      = recon M d n k i j := by
  unfold recon
  set M' := rank2Update M k n with hM'
  set d' := Function.update d k (M (k + 1) k) with hd'
  have hdval : ∀ e, e ≠ k → d' e = d e := by
    intro e he
    rw [hd']
    exact Function.update_noteq he _ d
  have hdk : d' k = M (k + 1) k := by
    rw [hd']
    exact Function.update_same k _ d
  have hlpc : ∀ x cc, cc < k → lpart M' x cc = lpart M x cc := by
    intro x cc hc
    unfold lpart
    by_cases h1 : cc < x
    · rw [if_pos h1, if_pos h1, hM', rank2Update_lower_lt M k n x cc hc]
    · rw [if_neg h1, if_neg h1]
  have hdm : ∀ cc ee, cc < k → ee < k → dmat M' d' cc ee = dmat M d cc ee := by
    intro cc ee hc he
    unfold dmat
    by_cases h1 : cc = ee
    · rw [if_pos h1, if_pos h1, hM', rank2Update_lower_lt M k n cc cc
        (h1 ▸ he)]
    · rw [if_neg h1, if_neg h1]
      by_cases h2 : cc = ee + 1
      · rw [if_pos h2, if_pos h2, hdval ee (by omega)]
      · rw [if_neg h2, if_neg h2]
        by_cases h3 : ee = cc + 1
        · rw [if_pos h3, if_pos h3, hdval cc (by omega)]
        · rw [if_neg h3, if_neg h3]
  have hcross1 : ∀ cc, cc < k → dmat M' d' cc k = 0 := by
    intro cc hc
    unfold dmat
    rw [if_neg (by omega), if_neg (by omega)]
    by_cases h : k = cc + 1
    · rw [if_pos h, hdval cc (by omega), hd cc (by omega)]
    · rw [if_neg h]
  have hcross2 : ∀ cc, cc < k → dmat M' d' cc (k + 1) = 0 := by
    intro cc hc
    unfold dmat
    rw [if_neg (by omega), if_neg (by omega), if_neg (by omega)]
  have hcross3 : ∀ ee, ee < k → dmat M' d' k ee = 0 := by
    intro ee he
    unfold dmat
    rw [if_neg (by omega)]
    by_cases h : k = ee + 1
    · rw [if_pos h, hdval ee (by omega), hd ee (by omega)]
    · rw [if_neg h, if_neg (by omega)]
  have hcross4 : ∀ ee, ee < k → dmat M' d' (k + 1) ee = 0 := by
    intro ee he
    unfold dmat
    rw [if_neg (by omega), if_neg (by omega), if_neg (by omega)]
  have hbkk : dmat M' d' k k = M k k := by
    unfold dmat
    rw [if_pos rfl, hM', rank2Update_diag_k]
  have hbk1k1 : dmat M' d' (k + 1) (k + 1) = M (k + 1) (k + 1) := by
    unfold dmat
    rw [if_pos rfl, hM', rank2Update_diag_k1]
  have hbk1k : dmat M' d' (k + 1) k = M (k + 1) k := by
    unfold dmat
    rw [if_neg (by omega), if_pos rfl, hdk]
  have hbkk1 : dmat M' d' k (k + 1) = M (k + 1) k := by
    unfold dmat
    rw [if_neg (by omega), if_neg (by omega), if_pos rfl, hdk]
  have hsplit : (∑ c ∈ Finset.range (k + 2), ∑ e ∈ Finset.range (k + 2),
      lpart M' i c * dmat M' d' c e * lpart M' j e)
      = (∑ c ∈ Finset.range k, ∑ e ∈ Finset.range k,
          lpart M i c * dmat M d c e * lpart M j e)
        + (lpart M' i k * (M k k) * lpart M' j k
          + lpart M' i k * (M (k + 1) k) * lpart M' j (k + 1)
          + lpart M' i (k + 1) * (M (k + 1) k) * lpart M' j k
          + lpart M' i (k + 1) * (M (k + 1) (k + 1)) * lpart M' j (k + 1)) := by
    rw [show k + 2 = (k + 1) + 1 from rfl, Finset.sum_range_succ,
      Finset.sum_range_succ]
    have hinner : ∀ cc, cc < k →
        (∑ e ∈ Finset.range (k + 1 + 1),
          lpart M' i cc * dmat M' d' cc e * lpart M' j e)
        = ∑ e ∈ Finset.range k, lpart M i cc * dmat M d cc e * lpart M j e := by
      intro cc hc
      rw [Finset.sum_range_succ, Finset.sum_range_succ,
        hcross1 cc hc, hcross2 cc hc]
      simp only [mul_zero, zero_mul, add_zero]
      refine Finset.sum_congr rfl fun e he => ?_
      rw [hlpc i cc hc, hlpc j e (Finset.mem_range.mp he),
        hdm cc e hc (Finset.mem_range.mp he)]
    have houter : (∑ c ∈ Finset.range k, ∑ e ∈ Finset.range (k + 1 + 1),
        lpart M' i c * dmat M' d' c e * lpart M' j e)
        = ∑ c ∈ Finset.range k, ∑ e ∈ Finset.range k,
            lpart M i c * dmat M d c e * lpart M j e :=
      Finset.sum_congr rfl fun c hc => hinner c (Finset.mem_range.mp hc)
    rw [houter]
    have hrowk : (∑ e ∈ Finset.range (k + 1 + 1),
        lpart M' i k * dmat M' d' k e * lpart M' j e)
        = lpart M' i k * (M k k) * lpart M' j k
          + lpart M' i k * (M (k + 1) k) * lpart M' j (k + 1) := by
      rw [Finset.sum_range_succ, Finset.sum_range_succ, hbkk, hbkk1]
      have hz : (∑ e ∈ Finset.range k,
          lpart M' i k * dmat M' d' k e * lpart M' j e) = 0 := by
        refine Finset.sum_eq_zero fun e he => ?_
        rw [hcross3 e (Finset.mem_range.mp he), mul_zero, zero_mul]
      rw [hz, zero_add]
    have hrowk1 : (∑ e ∈ Finset.range (k + 1 + 1),
        lpart M' i (k + 1) * dmat M' d' (k + 1) e * lpart M' j e)
        = lpart M' i (k + 1) * (M (k + 1) k) * lpart M' j k
          + lpart M' i (k + 1) * (M (k + 1) (k + 1)) * lpart M' j (k + 1) := by
      rw [Finset.sum_range_succ, Finset.sum_range_succ, hbk1k, hbk1k1]
      have hz : (∑ e ∈ Finset.range k,
          lpart M' i (k + 1) * dmat M' d' (k + 1) e * lpart M' j e) = 0 := by
        refine Finset.sum_eq_zero fun e he => ?_
        rw [hcross4 e (Finset.mem_range.mp he), mul_zero, zero_mul]
      rw [hz, zero_add]
    rw [hrowk, hrowk1]
    ring
  rw [hsplit]
  have hlp0 : ∀ x, x < n → lpart M' x k
      = (if k + 2 ≤ x then
          (M x k * M (k + 1) (k + 1) - M x (k + 1) * M (k + 1) k)
            / (M k k * M (k + 1) (k + 1) - M (k + 1) k * M (k + 1) k)
        else if x = k then 1 else 0) := by
    intro x hxn
    unfold lpart
    rcases (show x < k ∨ x = k ∨ x = k + 1 ∨ k + 2 ≤ x by omega) with
      h4 | h4 | h4 | h4
    · rw [if_neg (show ¬ k < x by omega), if_neg (show ¬ k = x by omega),
        if_neg (show ¬ k + 2 ≤ x by omega), if_neg (show ¬ x = k by omega)]
    · rw [if_neg (show ¬ k < x by omega), if_pos (show k = x by omega),
        if_neg (show ¬ k + 2 ≤ x by omega), if_pos (show x = k by omega)]
    · rw [if_pos (show k < x by omega), if_neg (show ¬ k + 2 ≤ x by omega),
        if_neg (show ¬ x = k by omega), h4, hM', rank2Update_subdiag]
    · rw [if_pos (show k < x by omega), if_pos h4, hM',
        rank2Update_col0 M k n x h4 hxn]
  have hlp1 : ∀ x, x < n → lpart M' x (k + 1)
      = (if k + 2 ≤ x then
          (M x (k + 1) * M k k - M x k * M (k + 1) k)
            / (M k k * M (k + 1) (k + 1) - M (k + 1) k * M (k + 1) k)
        else if x = k + 1 then 1 else 0) := by
    intro x hxn
    unfold lpart
    rcases (show x < k + 1 ∨ x = k + 1 ∨ k + 2 ≤ x by omega) with h4 | h4 | h4
    · rw [if_neg (show ¬ k + 1 < x by omega),
        if_neg (show ¬ k + 1 = x by omega),
        if_neg (show ¬ k + 2 ≤ x by omega),
        if_neg (show ¬ x = k + 1 by omega)]
    · rw [if_neg (show ¬ k + 1 < x by omega),
        if_pos (show k + 1 = x by omega),
        if_neg (show ¬ k + 2 ≤ x by omega),
        if_pos (show x = k + 1 by omega)]
    · rw [if_pos (show k + 1 < x by omega), if_pos h4, hM',
        rank2Update_col1 M k n x h4 hxn]
  have hterm : (lpart M' i k * (M k k) * lpart M' j k
      + lpart M' i k * (M (k + 1) k) * lpart M' j (k + 1)
      + lpart M' i (k + 1) * (M (k + 1) k) * lpart M' j k
      + lpart M' i (k + 1) * (M (k + 1) (k + 1)) * lpart M' j (k + 1))
      + (if k + 2 ≤ i ∧ k + 2 ≤ j ∧ i < n ∧ j < n then lowerRep M' i j else 0)
      = (if k ≤ i ∧ k ≤ j ∧ i < n ∧ j < n then lowerRep M i j else 0) := by
    rw [hlp0 i hi, hlp0 j hj, hlp1 i hi, hlp1 j hj]
    rcases (show i < k ∨ i = k ∨ i = k + 1 ∨ k + 2 ≤ i by omega) with
      hi4 | hi4 | hi4 | hi4
    · rw [if_neg (show ¬ k + 2 ≤ i by omega), if_neg (show ¬ k + 2 ≤ i by omega), if_neg (show ¬ i = k by omega),
        if_neg (show ¬ i = k + 1 by omega),
        if_neg (show ¬(k + 2 ≤ i ∧ k + 2 ≤ j ∧ i < n ∧ j < n) by omega),
        if_neg (show ¬(k ≤ i ∧ k ≤ j ∧ i < n ∧ j < n) by omega)]
      ring
    · rcases (show j < k ∨ j = k ∨ j = k + 1 ∨ k + 2 ≤ j by omega) with
        hj4 | hj4 | hj4 | hj4
      · rw [if_neg (show ¬ k + 2 ≤ j by omega), if_neg (show ¬ k + 2 ≤ j by omega),
          if_neg (show ¬ j = k by omega),
          if_neg (show ¬ j = k + 1 by omega),
          if_neg (show ¬(k + 2 ≤ i ∧ k + 2 ≤ j ∧ i < n ∧ j < n) by omega),
          if_neg (show ¬(k ≤ i ∧ k ≤ j ∧ i < n ∧ j < n) by omega)]
        ring
      · rw [if_neg (show ¬ k + 2 ≤ i by omega), if_neg (show ¬ k + 2 ≤ i by omega), if_pos (show i = k by omega),
          if_neg (show ¬ i = k + 1 by omega),
          if_neg (show ¬ k + 2 ≤ j by omega), if_neg (show ¬ k + 2 ≤ j by omega), if_pos (show j = k by omega),
          if_neg (show ¬ j = k + 1 by omega),
          if_neg (show ¬(k + 2 ≤ i ∧ k + 2 ≤ j ∧ i < n ∧ j < n) by omega),
          if_pos (show k ≤ i ∧ k ≤ j ∧ i < n ∧ j < n by omega),
          show lowerRep M i j = M k k by
            unfold lowerRep
            rw [if_pos (show j ≤ i by omega), hi4, hj4]]
        ring
      · rw [if_neg (show ¬ k + 2 ≤ i by omega), if_neg (show ¬ k + 2 ≤ i by omega), if_pos (show i = k by omega),
          if_neg (show ¬ i = k + 1 by omega),
          if_neg (show ¬ k + 2 ≤ j by omega), if_neg (show ¬ k + 2 ≤ j by omega),
          if_neg (show ¬ j = k by omega), if_pos (show j = k + 1 by omega),
          if_neg (show ¬(k + 2 ≤ i ∧ k + 2 ≤ j ∧ i < n ∧ j < n) by omega),
          if_pos (show k ≤ i ∧ k ≤ j ∧ i < n ∧ j < n by omega),
          show lowerRep M i j = M (k + 1) k by
            unfold lowerRep
            rw [if_neg (show ¬ j ≤ i by omega), hi4, hj4]]
        ring
      · rw [if_neg (show ¬ k + 2 ≤ i by omega), if_neg (show ¬ k + 2 ≤ i by omega), if_pos (show i = k by omega),
          if_neg (show ¬ i = k + 1 by omega), if_pos hj4, if_pos hj4,
          if_neg (show ¬(k + 2 ≤ i ∧ k + 2 ≤ j ∧ i < n ∧ j < n) by omega),
          if_pos (show k ≤ i ∧ k ≤ j ∧ i < n ∧ j < n by omega),
          show lowerRep M i j = M j k by
            unfold lowerRep
            rw [if_neg (show ¬ j ≤ i by omega), hi4]]
        field_simp
        ring
    · rcases (show j < k ∨ j = k ∨ j = k + 1 ∨ k + 2 ≤ j by omega) with
        hj4 | hj4 | hj4 | hj4
      · rw [if_neg (show ¬ k + 2 ≤ j by omega), if_neg (show ¬ k + 2 ≤ j by omega),
          if_neg (show ¬ j = k by omega),
          if_neg (show ¬ j = k + 1 by omega),
          if_neg (show ¬(k + 2 ≤ i ∧ k + 2 ≤ j ∧ i < n ∧ j < n) by omega),
          if_neg (show ¬(k ≤ i ∧ k ≤ j ∧ i < n ∧ j < n) by omega)]
        ring
      · rw [if_neg (show ¬ k + 2 ≤ i by omega), if_neg (show ¬ k + 2 ≤ i by omega),
          if_neg (show ¬ i = k by omega), if_pos (show i = k + 1 by omega),
          if_neg (show ¬ k + 2 ≤ j by omega), if_neg (show ¬ k + 2 ≤ j by omega), if_pos (show j = k by omega),
          if_neg (show ¬ j = k + 1 by omega),
          if_neg (show ¬(k + 2 ≤ i ∧ k + 2 ≤ j ∧ i < n ∧ j < n) by omega),
          if_pos (show k ≤ i ∧ k ≤ j ∧ i < n ∧ j < n by omega),
          show lowerRep M i j = M (k + 1) k by
            unfold lowerRep
            rw [if_pos (show j ≤ i by omega), hi4, hj4]]
        ring
      · rw [if_neg (show ¬ k + 2 ≤ i by omega), if_neg (show ¬ k + 2 ≤ i by omega),
          if_neg (show ¬ i = k by omega), if_pos (show i = k + 1 by omega),
          if_neg (show ¬ k + 2 ≤ j by omega), if_neg (show ¬ k + 2 ≤ j by omega),
          if_neg (show ¬ j = k by omega), if_pos (show j = k + 1 by omega),
          if_neg (show ¬(k + 2 ≤ i ∧ k + 2 ≤ j ∧ i < n ∧ j < n) by omega),
          if_pos (show k ≤ i ∧ k ≤ j ∧ i < n ∧ j < n by omega),
          show lowerRep M i j = M (k + 1) (k + 1) by
            unfold lowerRep
            rw [if_pos (show j ≤ i by omega), hi4, hj4]]
        ring
      · rw [if_neg (show ¬ k + 2 ≤ i by omega), if_neg (show ¬ k + 2 ≤ i by omega),
          if_neg (show ¬ i = k by omega), if_pos (show i = k + 1 by omega),
          if_pos hj4, if_pos hj4,
          if_neg (show ¬(k + 2 ≤ i ∧ k + 2 ≤ j ∧ i < n ∧ j < n) by omega),
          if_pos (show k ≤ i ∧ k ≤ j ∧ i < n ∧ j < n by omega),
          show lowerRep M i j = M j (k + 1) by
            unfold lowerRep
            rw [if_neg (show ¬ j ≤ i by omega), hi4]]
        field_simp
        ring
    · rcases (show j < k ∨ j = k ∨ j = k + 1 ∨ k + 2 ≤ j by omega) with
        hj4 | hj4 | hj4 | hj4
      · rw [if_neg (show ¬ k + 2 ≤ j by omega), if_neg (show ¬ k + 2 ≤ j by omega),
          if_neg (show ¬ j = k by omega),
          if_neg (show ¬ j = k + 1 by omega),
          if_neg (show ¬(k + 2 ≤ i ∧ k + 2 ≤ j ∧ i < n ∧ j < n) by omega),
          if_neg (show ¬(k ≤ i ∧ k ≤ j ∧ i < n ∧ j < n) by omega)]
        ring
      · rw [if_pos hi4, if_pos hi4,
          if_neg (show ¬ k + 2 ≤ j by omega), if_neg (show ¬ k + 2 ≤ j by omega), if_pos (show j = k by omega),
          if_neg (show ¬ j = k + 1 by omega),
          if_neg (show ¬(k + 2 ≤ i ∧ k + 2 ≤ j ∧ i < n ∧ j < n) by omega),
          if_pos (show k ≤ i ∧ k ≤ j ∧ i < n ∧ j < n by omega),
          show lowerRep M i j = M i k by
            unfold lowerRep
            rw [if_pos (show j ≤ i by omega), hj4]]
        field_simp
        ring
      · rw [if_pos hi4, if_pos hi4,
          if_neg (show ¬ k + 2 ≤ j by omega), if_neg (show ¬ k + 2 ≤ j by omega),
          if_neg (show ¬ j = k by omega), if_pos (show j = k + 1 by omega),
          if_neg (show ¬(k + 2 ≤ i ∧ k + 2 ≤ j ∧ i < n ∧ j < n) by omega),
          if_pos (show k ≤ i ∧ k ≤ j ∧ i < n ∧ j < n by omega),
          show lowerRep M i j = M i (k + 1) by
            unfold lowerRep
            rw [if_pos (show j ≤ i by omega), hj4]]
        field_simp
        ring
      · rw [if_pos hi4, if_pos hi4, if_pos hj4, if_pos hj4,
          if_pos (show k + 2 ≤ i ∧ k + 2 ≤ j ∧ i < n ∧ j < n by omega),
          if_pos (show k ≤ i ∧ k ≤ j ∧ i < n ∧ j < n by omega)]
        rcases le_or_lt j i with hji | hji
        · rw [show lowerRep M' i j = M' i j by
              unfold lowerRep; rw [if_pos hji],
            show lowerRep M i j = M i j by
              unfold lowerRep; rw [if_pos hji], hM',
            rank2Update_trail M k n i j hj4 hji hi]
          field_simp
          ring
        · rw [show lowerRep M' i j = M' j i by
              unfold lowerRep; rw [if_neg (by omega)],
            show lowerRep M i j = M j i by
              unfold lowerRep; rw [if_neg (by omega)], hM',
            rank2Update_trail M k n j i hi4 (le_of_lt hji) hj]
          field_simp
          ring
  linear_combination hterm

/-- "Non-singular under the chosen pivot strategy", for the unblocked run:
the predicate mirrors `unblockedLoop` step for step (same pivots, same state
updates) and asserts that every 1×1 pivot has a nonzero post-swap diagonal,
every 2×2 pivot has a nonzero post-swap block determinant and fits inside
the matrix, and every pivot source index is in range — exactly the
conditions under which the C++ run divides by nonzero quantities and stays
in bounds. -/
def unblockedNonsing (n : ℕ) (pivotType : LDLPivotType) (gammaDef gamma : ℚ) :
    ℕ → ℕ → LDLState → Prop
  | 0, _, _ => True
  | fuel + 1, k, st =>
      if k < n then
        match ChoosePivot (shiftMat st.A k) (n - k) pivotType gammaDef gamma
          with
        | .error _ => True
        | .ok pivot =>
          if pivot.nb = 1 then
            k + pivot.from0 < n ∧
            SymmetricSwap st.A k (k + pivot.from0) k k ≠ 0 ∧
            unblockedNonsing n pivotType gammaDef gamma fuel (k + 1)
              ⟨rank1Update (SymmetricSwap st.A k (k + pivot.from0)) k n,
                st.dSub, Function.update st.p k (k + pivot.from0)⟩
          else
            k + 1 < n ∧ k + pivot.from0 < n ∧ k + pivot.from1 < n ∧
            (SymmetricSwap (SymmetricSwap st.A k (k + pivot.from0)) (k + 1)
                  (k + pivot.from1) k k *
                SymmetricSwap (SymmetricSwap st.A k (k + pivot.from0)) (k + 1)
                  (k + pivot.from1) (k + 1) (k + 1) -
              SymmetricSwap (SymmetricSwap st.A k (k + pivot.from0)) (k + 1)
                  (k + pivot.from1) (k + 1) k *
                SymmetricSwap (SymmetricSwap st.A k (k + pivot.from0)) (k + 1)
                  (k + pivot.from1) (k + 1) k ≠ 0) ∧
            unblockedNonsing n pivotType gammaDef gamma fuel (k + 2)
              ⟨rank2Update (SymmetricSwap (SymmetricSwap st.A
                  k (k + pivot.from0)) (k + 1) (k + pivot.from1)) k n,
                Function.update st.dSub k
                  (SymmetricSwap (SymmetricSwap st.A k (k + pivot.from0))
                    (k + 1) (k + pivot.from1) (k + 1) k),
                Function.update (Function.update st.p k (k + pivot.from0))
                  (k + 1) (k + pivot.from1)⟩
      else True

/-- The loop invariant of the unblocked factorization: the reconstruction of
the current state equals the original represented matrix conjugated by the
accumulated permutation; the not-yet-written `dSub` entries are zero; the
already-written pivot entries are in range. -/
def LDLInv (A0 : Mat) (n k : ℕ) (st : LDLState) : Prop :=
  k ≤ n
  ∧ (∀ i j, i < n → j < n → recon st.A st.dSub n k i j
      = lowerRep A0 (permOfPivots st.p k i) (permOfPivots st.p k j))
  ∧ (∀ e, k ≤ e + 1 → st.dSub e = 0)
  ∧ (∀ c, c < k → st.p c < n)

theorem LDLInv_step1 (A0 : Mat) (n k f0 : ℕ) (st : LDLState)
    (hk : k < n) (hf0 : k ≤ f0) (hf0n : f0 < n)
    (hdelta : SymmetricSwap st.A k f0 k k ≠ 0)
    (hinv : LDLInv A0 n k st) :
    LDLInv A0 n (k + 1)
      ⟨rank1Update (SymmetricSwap st.A k f0) k n, st.dSub,
        Function.update st.p k f0⟩ := by
  obtain ⟨hkn, hrec, hds, hpr⟩ := hinv
  refine ⟨by omega, ?_, ?_, ?_⟩
  · intro i j hi hj
    show recon (rank1Update (SymmetricSwap st.A k f0) k n) st.dSub n (k + 1)
        i j = _
    rw [recon_elim1 (SymmetricSwap st.A k f0) st.dSub n k i j hk hi hj
        hdelta hds,
      recon_swap st.A st.dSub n k k f0 i j (le_refl k) hf0 hk hf0n hi hj,
      hrec (transp k f0 i) (transp k f0 j)
        (transp_lt k f0 i n hk hf0n hi) (transp_lt k f0 j n hk hf0n hj)]
    have hperm : ∀ x, permOfPivots (Function.update st.p k f0) (k + 1) x
        = permOfPivots st.p k (transp k f0 x) := by
      intro x
      show permOfPivots (Function.update st.p k f0) k
          (transp k (Function.update st.p k f0 k) x) = _
      rw [Function.update_same]
      exact permOfPivots_congr _ _ k
        (fun i hi => (Function.update_noteq (by omega) _ _)) _
    rw [hperm i, hperm j]
  · intro e he
    exact hds e (by omega)
  · intro c hc
    show Function.update st.p k f0 c < n
    by_cases hck : c = k
    · rw [hck, Function.update_same]
      exact hf0n
    · rw [Function.update_noteq hck]
      exact hpr c (by omega)

theorem LDLInv_step2 (A0 : Mat) (n k f0 f1 : ℕ) (st : LDLState)
    (hk1 : k + 1 < n) (hf0 : k ≤ f0) (hf0n : f0 < n)
    (hf1 : k ≤ f1) (hf1n : f1 < n)
    (hdet : SymmetricSwap (SymmetricSwap st.A k f0) (k + 1) f1 k k *
        SymmetricSwap (SymmetricSwap st.A k f0) (k + 1) f1 (k + 1) (k + 1) -
      SymmetricSwap (SymmetricSwap st.A k f0) (k + 1) f1 (k + 1) k *
        SymmetricSwap (SymmetricSwap st.A k f0) (k + 1) f1 (k + 1) k ≠ 0)
    (hinv : LDLInv A0 n k st) :
    LDLInv A0 n (k + 2)
      ⟨rank2Update (SymmetricSwap (SymmetricSwap st.A k f0) (k + 1) f1) k n,
        Function.update st.dSub k
          (SymmetricSwap (SymmetricSwap st.A k f0) (k + 1) f1 (k + 1) k),
        Function.update (Function.update st.p k f0) (k + 1) f1⟩ := by
  obtain ⟨hkn, hrec, hds, hpr⟩ := hinv
  refine ⟨by omega, ?_, ?_, ?_⟩
  · intro i j hi hj
    show recon (rank2Update (SymmetricSwap (SymmetricSwap st.A k f0) (k + 1)
        f1) k n) (Function.update st.dSub k _) n (k + 2) i j = _
    rw [recon_elim2 (SymmetricSwap (SymmetricSwap st.A k f0) (k + 1) f1)
        st.dSub n k i j hk1 hi hj hdet hds,
      recon_swap (SymmetricSwap st.A k f0) st.dSub n k (k + 1) f1 i j
        (by omega) hf1 hk1 hf1n hi hj,
      recon_swap st.A st.dSub n k k f0 (transp (k + 1) f1 i)
        (transp (k + 1) f1 j) (le_refl k) hf0 (by omega) hf0n
        (transp_lt _ _ _ n hk1 hf1n hi) (transp_lt _ _ _ n hk1 hf1n hj),
      hrec _ _
        (transp_lt k f0 _ n (by omega) hf0n (transp_lt _ _ _ n hk1 hf1n hi))
        (transp_lt k f0 _ n (by omega) hf0n (transp_lt _ _ _ n hk1 hf1n hj))]
    have hperm : ∀ x,
        permOfPivots (Function.update (Function.update st.p k f0) (k + 1) f1)
          (k + 2) x
        = permOfPivots st.p k (transp k f0 (transp (k + 1) f1 x)) := by
      intro x
      show permOfPivots (Function.update (Function.update st.p k f0) (k + 1)
          f1) (k + 1)
          (transp (k + 1)
            (Function.update (Function.update st.p k f0) (k + 1) f1 (k + 1))
            x) = _
      rw [Function.update_same]
      show permOfPivots (Function.update (Function.update st.p k f0) (k + 1)
          f1) k
          (transp k
            (Function.update (Function.update st.p k f0) (k + 1) f1 k)
            (transp (k + 1) f1 x)) = _
      rw [Function.update_noteq (by omega), Function.update_same]
      exact permOfPivots_congr _ _ k
        (fun i hi => by
          rw [Function.update_noteq (show i ≠ k + 1 by omega),
            Function.update_noteq (show i ≠ k by omega)]) _
    rw [hperm i, hperm j]
  · intro e he
    show Function.update st.dSub k
      (SymmetricSwap (SymmetricSwap st.A k f0) (k + 1) f1 (k + 1) k) e = 0
    rw [Function.update_noteq (show e ≠ k by omega)]
    exact hds e (by omega)
  · intro c hc
    show Function.update (Function.update st.p k f0) (k + 1) f1 c < n
    by_cases hck1 : c = k + 1
    · rw [hck1, Function.update_same]
      exact hf1n
    · rw [Function.update_noteq hck1]
      by_cases hck : c = k
      · rw [hck, Function.update_same]
        exact hf0n
      · rw [Function.update_noteq hck]
        exact hpr c (by omega)

theorem unblockedStep_eq1 (n : ℕ) (pt : LDLPivotType) (gd g : ℚ) (k : ℕ)
    (st : LDLState) (pivot : LDLPivot)
    (hpt : pt ≠ .BUNCH_KAUFMAN_C)
    (hcp : ChoosePivot (shiftMat st.A k) (n - k) pt gd g = .ok pivot)
    (hnb : pivot.nb = 1) :
    unblockedStep n pt gd g k st
      = .ok (⟨rank1Update (SymmetricSwap st.A k (k + pivot.from0)) k n,
          st.dSub, Function.update st.p k (k + pivot.from0)⟩, k + 1) := by
  unfold unblockedStep
  rw [if_neg hpt, hcp]
  simp only [hnb, if_true]

theorem unblockedStep_eq2 (n : ℕ) (pt : LDLPivotType) (gd g : ℚ) (k : ℕ)
    (st : LDLState) (pivot : LDLPivot)
    (hpt : pt ≠ .BUNCH_KAUFMAN_C)
    (hcp : ChoosePivot (shiftMat st.A k) (n - k) pt gd g = .ok pivot)
    (hnb : pivot.nb ≠ 1) :
    unblockedStep n pt gd g k st
      = .ok (⟨rank2Update (SymmetricSwap (SymmetricSwap st.A
            k (k + pivot.from0)) (k + 1) (k + pivot.from1)) k n,
          Function.update st.dSub k
            (SymmetricSwap (SymmetricSwap st.A k (k + pivot.from0))
              (k + 1) (k + pivot.from1) (k + 1) k),
          Function.update (Function.update st.p k (k + pivot.from0))
            (k + 1) (k + pivot.from1)⟩, k + 2) := by
  unfold unblockedStep
  rw [if_neg hpt, hcp]
  simp only [hnb, if_false]

theorem unblockedNonsing_eq1 (n : ℕ) (pt : LDLPivotType) (gd g : ℚ)
    (fuel k : ℕ) (st : LDLState) (pivot : LDLPivot)
    (hk : k < n)
    (hcp : ChoosePivot (shiftMat st.A k) (n - k) pt gd g = .ok pivot)
    (hnb : pivot.nb = 1) :
    unblockedNonsing n pt gd g (fuel + 1) k st
      = (k + pivot.from0 < n ∧
        SymmetricSwap st.A k (k + pivot.from0) k k ≠ 0 ∧
        unblockedNonsing n pt gd g fuel (k + 1)
          ⟨rank1Update (SymmetricSwap st.A k (k + pivot.from0)) k n,
            st.dSub, Function.update st.p k (k + pivot.from0)⟩) := by
  simp only [unblockedNonsing]
  rw [if_pos hk, hcp]
  simp only [hnb, if_true]

theorem unblockedNonsing_eq2 (n : ℕ) (pt : LDLPivotType) (gd g : ℚ)
    (fuel k : ℕ) (st : LDLState) (pivot : LDLPivot)
    (hk : k < n)
    (hcp : ChoosePivot (shiftMat st.A k) (n - k) pt gd g = .ok pivot)
    (hnb : pivot.nb ≠ 1) :
    unblockedNonsing n pt gd g (fuel + 1) k st
      = (k + 1 < n ∧ k + pivot.from0 < n ∧ k + pivot.from1 < n ∧
        (SymmetricSwap (SymmetricSwap st.A k (k + pivot.from0)) (k + 1)
              (k + pivot.from1) k k *
            SymmetricSwap (SymmetricSwap st.A k (k + pivot.from0)) (k + 1)
              (k + pivot.from1) (k + 1) (k + 1) -
          SymmetricSwap (SymmetricSwap st.A k (k + pivot.from0)) (k + 1)
              (k + pivot.from1) (k + 1) k *
            SymmetricSwap (SymmetricSwap st.A k (k + pivot.from0)) (k + 1)
              (k + pivot.from1) (k + 1) k ≠ 0) ∧
        unblockedNonsing n pt gd g fuel (k + 2)
          ⟨rank2Update (SymmetricSwap (SymmetricSwap st.A
              k (k + pivot.from0)) (k + 1) (k + pivot.from1)) k n,
            Function.update st.dSub k
              (SymmetricSwap (SymmetricSwap st.A k (k + pivot.from0))
                (k + 1) (k + pivot.from1) (k + 1) k),
            Function.update (Function.update st.p k (k + pivot.from0))
              (k + 1) (k + pivot.from1)⟩) := by
  simp only [unblockedNonsing]
  rw [if_pos hk, hcp]
  simp only [hnb, if_false]

/-- Induction along the unblocked loop: a completing, non-singular run
carries the invariant from column `k` to the end. -/
theorem unblockedLoop_invariant (A0 : Mat) (n : ℕ) (pt : LDLPivotType)
    (gd g : ℚ) :
    ∀ (fuel k : ℕ) (st stf : LDLState),
      n ≤ k + fuel →
      unblockedLoop n pt gd g fuel k st = .ok stf →
      unblockedNonsing n pt gd g fuel k st →
      LDLInv A0 n k st →
      LDLInv A0 n n stf := by
  intro fuel
  induction fuel with
  | zero =>
      intro k st stf hfuel hok hns hinv
      obtain rfl := Except.ok.inj hok
      have hkn : k = n := le_antisymm hinv.1 (by omega)
      exact hkn ▸ hinv
  | succ fuel ih =>
      intro k st stf hfuel hok hns hinv
      by_cases hk : k < n
      · have hok2 : (match unblockedStep n pt gd g k st with
            | .error e => (.error e : Except LDLError LDLState)
            | .ok (st', k') => unblockedLoop n pt gd g fuel k' st')
            = .ok stf := by
          rw [← hok]
          exact (if_pos hk).symm
        by_cases hpt : pt = .BUNCH_KAUFMAN_C
        · exfalso
          have hstep : unblockedStep n pt gd g k st = .error .logic := by
            unfold unblockedStep
            rw [if_pos hpt]
          rw [hstep] at hok2
          exact absurd hok2 (by simp)
        · cases hcp : ChoosePivot (shiftMat st.A k) (n - k) pt gd g with
          | error e =>
              exfalso
              have hstep : unblockedStep n pt gd g k st = .error e := by
                unfold unblockedStep
                rw [if_neg hpt, hcp]
              rw [hstep] at hok2
              exact absurd hok2 (by simp)
          | ok pivot =>
              by_cases hnb : pivot.nb = 1
              · rw [unblockedStep_eq1 n pt gd g k st pivot hpt hcp hnb]
                  at hok2
                rw [unblockedNonsing_eq1 n pt gd g fuel k st pivot hk hcp hnb]
                  at hns
                obtain ⟨hf0n, hdelta, hnsrec⟩ := hns
                exact ih (k + 1) _ stf (by omega) hok2 hnsrec
                  (LDLInv_step1 A0 n k (k + pivot.from0) st hk (by omega)
                    hf0n hdelta hinv)
              · rw [unblockedStep_eq2 n pt gd g k st pivot hpt hcp hnb]
                  at hok2
                rw [unblockedNonsing_eq2 n pt gd g fuel k st pivot hk hcp hnb]
                  at hns
                obtain ⟨hk1, hf0n, hf1n, hdet, hnsrec⟩ := hns
                exact ih (k + 2) _ stf (by omega) hok2 hnsrec
                  (LDLInv_step2 A0 n k (k + pivot.from0) (k + pivot.from1) st
                    hk1 (by omega) hf0n (by omega) hf1n hdet hinv)
      · have hok2 : st = stf := by
          have : unblockedLoop n pt gd g (fuel + 1) k st = .ok st := by
            show (if k < n then _ else _) = _
            rw [if_neg hk]
          rw [this] at hok
          exact Except.ok.inj hok
        obtain rfl := hok2
        have hkn : k = n := le_antisymm hinv.1 (by omega)
        exact hkn ▸ hinv

theorem LDLInv_init (A0 : Mat) (n : ℕ) :
    LDLInv A0 n 0 ⟨A0, fun _ => 0, fun _ => 0⟩ := by
  refine ⟨Nat.zero_le n, ?_, fun e _ => rfl, fun c hc => absurd hc (by omega)⟩
  intro i j hi hj
  show recon A0 (fun _ => 0) n 0 i j = lowerRep A0 i j
  unfold recon
  rw [if_pos ⟨Nat.zero_le i, Nat.zero_le j, hi, hj⟩]
  simp

/-- The factorized output of a completing, non-singular unblocked run
reconstructs the permuted input: `L·D·Lᵀ = P·A·Pᵀ` entrywise on the `n × n`
block, with `L` the strictly-lower part of the overwritten matrix plus a
unit diagonal, `D` the block diagonal read from the overwritten diagonal and
`dSub`, and `P` the permutation accumulated from the pivot vector. -/
theorem unblockedPivoted_correct (A0 : Mat) (n : ℕ) (pt : LDLPivotType)
    (gd g : ℚ) (stf : LDLState)
    (hok : UnblockedPivoted A0 n pt gd g = .ok stf)
    (hns : unblockedNonsing n pt gd g n 0 ⟨A0, fun _ => 0, fun _ => 0⟩) :
    (∀ i j, i < n → j < n →
      (∑ c ∈ Finset.range n, ∑ e ∈ Finset.range n,
        lpart stf.A i c * dmat stf.A stf.dSub c e * lpart stf.A j e)
        = lowerRep A0 (permOfPivots stf.p n i) (permOfPivots stf.p n j))
  ∧ Function.Bijective (permOfPivots stf.p n)
  ∧ (∀ i, i < n → permOfPivots stf.p n i < n) := by
  have hfin := unblockedLoop_invariant A0 n pt gd g n 0
    ⟨A0, fun _ => 0, fun _ => 0⟩ stf (by omega) hok hns (LDLInv_init A0 n)
  obtain ⟨-, hrec, -, hpr⟩ := hfin
  refine ⟨?_, permOfPivots_bijective _ _,
    fun i hi => permOfPivots_lt stf.p n hpr n (le_refl n) i hi⟩
  intro i j hi hj
  have h := hrec i j hi hj
  unfold recon at h
  rw [if_neg (by omega), add_zero] at h
  exact h

/-! ### The panel's lazy state simulates the eager matrix

`trrkUpdate A X Y off k n` is exactly the "effective" eager matrix of a
panel state: the stored matrix with the pending rank-`k` correction
`X·Yᵀ` applied to the trailing lower block.  The panel pivot selectors
compute their corrected working vectors from this effective matrix. -/

theorem trrkUpdate_in (A X Y : Mat) (off k n x y : ℕ)
    (h1 : off + k ≤ y) (h2 : y ≤ x) (h3 : x < n) :
    trrkUpdate A X Y off k n x y
      = A x y - ∑ j ∈ Finset.range k, X (x - off) j * Y (y - off) j := by
  unfold trrkUpdate
  rw [if_pos ⟨h1, h2, h3⟩]

theorem trrkUpdate_out (A X Y : Mat) (off k n x y : ℕ)
    (h : ¬(off + k ≤ y ∧ y ≤ x ∧ x < n)) :
    trrkUpdate A X Y off k n x y = A x y := by
  unfold trrkUpdate
  rw [if_neg h]

theorem panelZB1_eff (A X Y : Mat) (off k n t : ℕ) (h : off + k + t < n) :
    panelZB1 (shiftMat A off) X Y k t
      = trrkUpdate A X Y off k n (off + k + t) (off + k) := by
  unfold panelZB1 shiftMat
  rw [trrkUpdate_in A X Y off k n (off + k + t) (off + k)
    (by omega) (by omega) h]
  have e1 : off + (k + t) = off + k + t := by omega
  have e2 : off + k + t - off = k + t := by omega
  have e3 : off + k - off = k := by omega
  rw [e1, e2, e3]

theorem pbkAlpha_eff (A X Y : Mat) (off k n : ℕ) (h : off + k < n) :
    pbkAlpha (shiftMat A off) X Y k
      = bkAlpha (shiftMat (trrkUpdate A X Y off k n) (off + k)) := by
  unfold pbkAlpha bkAlpha
  rw [panelZB1_eff A X Y off k n 0 (by omega)]
  rfl

theorem pbkA21Max_eff (A X Y : Mat) (off k n : ℕ) :
    pbkA21Max (shiftMat A off) X Y (n - off) k
      = bkA21Max (shiftMat (trrkUpdate A X Y off k n) (off + k))
          (n - (off + k)) := by
  unfold pbkA21Max bkA21Max
  refine congrArg VectorMax ?_
  unfold segOf colSeg
  rw [show n - off - k - 1 = n - (off + k) - 1 by omega]
  refine List.map_congr_left fun t ht => ?_
  have htn : 1 + t < n - (off + k) := by
    have := List.mem_range.mp ht
    omega
  rw [panelZB1_eff A X Y off k n (1 + t) (by omega)]
  rfl

theorem transp_fix_ge (v w x n : ℕ) (hv : v < n) (hw : w < n) (hx : n ≤ x) :
    transp v w x = x := transp_fix v w x (by omega) (by omega)

/-- The panel-local row transposition matches the global one on rows at or
beyond the panel offset. -/
theorem transp_sub_off (v w x off : ℕ) (hv : off ≤ v) (hw : off ≤ w)
    (hx : off ≤ x) :
    transp (v - off) (w - off) (x - off) = transp v w x - off := by
  unfold transp
  split_ifs <;> omega

/-- Swapping a row/column with itself leaves the stored matrix unchanged. -/
theorem symmetricSwap_self (A : Mat) (i : ℕ) : SymmetricSwap A i i = A := by
  funext x y
  show (if y ≤ x then lowerRep A (transp i i x) (transp i i y) else A x y)
    = A x y
  have ht : ∀ z, transp i i z = z := by
    intro z; unfold transp; split_ifs <;> omega
  rw [ht, ht]
  by_cases h : y ≤ x
  · rw [if_pos h]
    show (if y ≤ x then A x y else A y x) = A x y
    rw [if_pos h]
  · rw [if_neg h]

/-- The pending panel correction `X·Yᵀ` is symmetric on the active rows: each
1×1 column stores `x = y/δ` and each 2×2 pair stores
`(x_j x_{j+1}) = (y_j y_{j+1})·D⁻¹`, so the accumulated outer product is an
`L·D·Lᵀ`-style symmetric contribution. -/
def corrSym (X Y : Mat) (off k n : ℕ) : Prop :=
  ∀ u v, k ≤ u → k ≤ v → u < n - off → v < n - off →
    ∑ j ∈ Finset.range k, X u j * Y v j
      = ∑ j ∈ Finset.range k, X v j * Y u j

theorem corrSym_zero (X Y : Mat) (off n : ℕ) : corrSym X Y off 0 n := by
  intro u v _ _ _ _
  simp

theorem corrSym_rowSwap (X Y : Mat) (off k n a b : ℕ)
    (ha : k ≤ a) (ha2 : a < n - off) (hb : k ≤ b) (hb2 : b < n - off)
    (h : corrSym X Y off k n) :
    corrSym (RowSwap X a b) (RowSwap Y a b) off k n := by
  intro u v hu hv hun hvn
  show ∑ j ∈ Finset.range k, X (transp a b u) j * Y (transp a b v) j
    = ∑ j ∈ Finset.range k, X (transp a b v) j * Y (transp a b u) j
  exact h (transp a b u) (transp a b v)
    (transp_ge a b u k ha hb hu) (transp_ge a b v k ha hb hv)
    (transp_lt a b u (n - off) ha2 hb2 hun)
    (transp_lt a b v (n - off) ha2 hb2 hvn)

/-- A panel with no processed columns has no pending correction. -/
theorem trrk_zero_width (A X Y : Mat) (off n : ℕ) :
    trrkUpdate A X Y off 0 n = A := by
  funext x y
  unfold trrkUpdate
  split_ifs <;> simp

/-- `ApplySymmetricPivots`: symmetrically swapping the stored matrix together
with the row swaps of `X` and `Y` realizes the symmetric swap of the
effective (eagerly corrected) matrix. -/
theorem trrk_swap_eff (A X Y : Mat) (off k n dst src : ℕ)
    (hdst : off + k ≤ dst) (hsrc : off + k ≤ src) (hdn : dst < n)
    (hsn : src < n) (hsym : corrSym X Y off k n) :
    trrkUpdate (SymmetricSwap A dst src) (RowSwap X (dst - off) (src - off))
        (RowSwap Y (dst - off) (src - off)) off k n
      = SymmetricSwap (trrkUpdate A X Y off k n) dst src := by
  funext x y
  by_cases hxy : y ≤ x
  case neg =>
    rw [symmetricSwap_upper _ dst src x y (by omega),
      trrkUpdate_out _ _ _ off k n x y (by omega),
      trrkUpdate_out A X Y off k n x y (by omega),
      symmetricSwap_upper A dst src x y (by omega)]
  case pos =>
    rw [symmetricSwap_lower_entry (trrkUpdate A X Y off k n) dst src x y hxy]
    by_cases hreg : off + k ≤ y ∧ x < n
    case pos =>
      obtain ⟨hy, hx⟩ := hreg
      rw [trrkUpdate_in _ _ _ off k n x y hy hxy hx,
        symmetricSwap_lower_entry A dst src x y hxy]
      have hktx : off + k ≤ transp dst src x :=
        transp_ge dst src x (off + k) hdst hsrc (by omega)
      have hkty : off + k ≤ transp dst src y :=
        transp_ge dst src y (off + k) hdst hsrc hy
      have htxn : transp dst src x < n := transp_lt dst src x n hdn hsn hx
      have htyn : transp dst src y < n :=
        transp_lt dst src y n hdn hsn (by omega)
      have hsx : ∀ j, RowSwap X (dst - off) (src - off) (x - off) j
          = X (transp dst src x - off) j := by
        intro j
        show X (transp (dst - off) (src - off) (x - off)) j = _
        rw [transp_sub_off dst src x off (by omega) (by omega) (by omega)]
      have hsy : ∀ j, RowSwap Y (dst - off) (src - off) (y - off) j
          = Y (transp dst src y - off) j := by
        intro j
        show Y (transp (dst - off) (src - off) (y - off)) j = _
        rw [transp_sub_off dst src y off (by omega) (by omega) (by omega)]
      have hsum : ∑ j ∈ Finset.range k,
          RowSwap X (dst - off) (src - off) (x - off) j *
            RowSwap Y (dst - off) (src - off) (y - off) j
          = ∑ j ∈ Finset.range k,
              X (transp dst src x - off) j * Y (transp dst src y - off) j :=
        Finset.sum_congr rfl fun j _ => by rw [hsx j, hsy j]
      rw [hsum]
      unfold lowerRep
      rcases le_or_lt (transp dst src y) (transp dst src x) with h | h
      · rw [if_pos h, if_pos h,
          trrkUpdate_in A X Y off k n _ _ hkty h htxn]
      · rw [if_neg (by omega), if_neg (by omega),
          trrkUpdate_in A X Y off k n _ _ hktx (le_of_lt h) htyn,
          hsym (transp dst src x - off) (transp dst src y - off)
            (by omega) (by omega) (by omega) (by omega)]
    case neg =>
      rw [trrkUpdate_out _ _ _ off k n x y (by omega),
        symmetricSwap_lower_entry A dst src x y hxy]
      rcases (by omega : y < off + k ∨ n ≤ x) with hyk | hxn
      · have hty : transp dst src y = y :=
          transp_fix_lt dst src y (off + k) hdst hsrc hyk
        unfold lowerRep
        rcases le_or_lt (transp dst src y) (transp dst src x) with h | h
        · rw [if_pos h, if_pos h,
            trrkUpdate_out A X Y off k n _ _ (by omega)]
        · rw [if_neg (by omega), if_neg (by omega),
            trrkUpdate_out A X Y off k n _ _ (by omega)]
      · have htx : transp dst src x = x :=
          transp_fix_ge dst src x n hdn hsn hxn
        unfold lowerRep
        rcases le_or_lt (transp dst src y) (transp dst src x) with h | h
        · rw [if_pos h, if_pos h,
            trrkUpdate_out A X Y off k n _ _ (by omega)]
        · rw [if_neg (by omega), if_neg (by omega),
            trrkUpdate_out A X Y off k n _ _ (by omega)]

/-- The materialized 1×1 working column equals the effective matrix's
column. -/
theorem corr1_eff (st : PanelState) (off k n x : ℕ) :
    corr1 st off k n x (off + k)
      = trrkUpdate st.A st.X st.Y off k n x (off + k) := by
  unfold corr1 trrkUpdate
  rw [show off + k - off = k by omega]
  by_cases h : off + k ≤ x ∧ x < n
  · rw [if_pos ⟨rfl, h.1, h.2⟩, if_pos ⟨le_refl _, h.1, h.2⟩]
  · rw [if_neg (fun hc => h ⟨hc.2.1, hc.2.2⟩),
      if_neg (fun hc => h ⟨hc.2.1, hc.2.2⟩)]

/-- The materialized 2×2 working columns equal the effective matrix on the
lower entries of the two active columns. -/
theorem corr2_eff (st : PanelState) (off k n x y : ℕ)
    (hy : y = off + k ∨ y = off + k + 1) :
    corr2 st off k n x y = trrkUpdate st.A st.X st.Y off k n x y := by
  rcases hy with rfl | rfl
  · unfold corr2 trrkUpdate
    by_cases h : off + k ≤ x ∧ x < n
    · rw [if_pos ⟨Or.inl rfl, h.1, h.2, by omega⟩,
        if_pos ⟨le_refl _, h.1, h.2⟩]
    · rw [if_neg (fun hc => h ⟨hc.2.1, hc.2.2.1⟩),
        if_neg (fun hc => h ⟨hc.2.1, hc.2.2⟩)]
  · unfold corr2 trrkUpdate
    by_cases h : off + k + 1 ≤ x ∧ x < n
    · rw [if_pos ⟨Or.inr rfl, by omega, h.2, by omega⟩,
        if_pos ⟨by omega, h.1, h.2⟩]
    · have h1 : ¬((off + k + 1 = off + k ∨ off + k + 1 = off + k + 1) ∧
          off + k ≤ x ∧ x < n ∧ ¬(x = off + k ∧ off + k + 1 = off + k + 1)) := by
        intro hc
        refine h ⟨?_, hc.2.2.1⟩
        rcases Nat.lt_or_ge x (off + k + 1) with hlt | hge
        · exact absurd ⟨by omega, rfl⟩ hc.2.2.2
        · exact hge
      rw [if_neg h1, if_neg (fun hc => h ⟨hc.2.1, hc.2.2⟩)]

theorem rank1Update_out (M : Mat) (k n x y : ℕ)
    (h1 : ¬(k + 1 ≤ x ∧ x < n ∧ y = k))
    (h2 : ¬(k + 1 ≤ y ∧ y ≤ x ∧ x < n)) :
    rank1Update M k n x y = M x y := by
  unfold rank1Update
  rw [if_neg h1, if_neg h2]

theorem rank2Update_out (M : Mat) (k n x y : ℕ)
    (h0 : ¬(x = k + 1 ∧ y = k))
    (h1 : ¬(k + 2 ≤ x ∧ x < n ∧ y = k))
    (h2 : ¬(k + 2 ≤ x ∧ x < n ∧ y = k + 1))
    (h3 : ¬(k + 2 ≤ y ∧ y ≤ x ∧ x < n)) :
    rank2Update M k n x y = M x y := by
  unfold rank2Update
  rw [if_neg h0, if_neg h1, if_neg h2, if_neg h3]

theorem panel1x1_A_entry (st : PanelState) (off k n src x y : ℕ) :
    (panel1x1 st off k n src).A x y
      = if y = off + k ∧ off + k + 1 ≤ x ∧ x < n
        then 1 / corr1 st off k n (off + k) (off + k) * corr1 st off k n x y
        else corr1 st off k n x y := rfl

theorem panel1x1_X_entry (st : PanelState) (off k n src i j : ℕ) :
    (panel1x1 st off k n src).X i j
      = if j = k ∧ k + 1 ≤ i ∧ i < n - off
        then 1 / corr1 st off k n (off + k) (off + k) *
          corr1 st off k n (off + i) (off + k)
        else st.X i j := rfl

theorem panel1x1_Y_entry (st : PanelState) (off k n src i j : ℕ) :
    (panel1x1 st off k n src).Y i j
      = if j = k ∧ k + 1 ≤ i ∧ i < n - off
        then corr1 st off k n (off + i) (off + k)
        else st.Y i j := rfl

theorem panel1x1_dSub (st : PanelState) (off k n src : ℕ) :
    (panel1x1 st off k n src).dSub = st.dSub := rfl

theorem panel1x1_p (st : PanelState) (off k n src : ℕ) :
    (panel1x1 st off k n src).p = Function.update st.p (off + k) src := rfl

/-- The 1×1 panel elimination advances the effective matrix exactly as the
unblocked 1×1 elimination does. -/
theorem panel1x1_eff (st : PanelState) (off k n src : ℕ) :
    trrkUpdate (panel1x1 st off k n src).A (panel1x1 st off k n src).X
        (panel1x1 st off k n src).Y off (k + 1) n
      = rank1Update (trrkUpdate st.A st.X st.Y off k n) (off + k) n := by
  funext x y
  by_cases hb : off + k + 1 ≤ y ∧ y ≤ x ∧ x < n
  · obtain ⟨hy, hyx, hxn⟩ := hb
    rw [trrkUpdate_in _ _ _ off (k + 1) n x y (by omega) hyx hxn,
      rank1Update_trail _ (off + k) n x y (by omega) hyx hxn,
      trrkUpdate_in st.A st.X st.Y off k n x y (by omega) hyx hxn,
      Finset.sum_range_succ]
    have hA : (panel1x1 st off k n src).A x y = st.A x y := by
      rw [panel1x1_A_entry, if_neg (by omega)]
      unfold corr1
      rw [if_neg (by omega)]
    have hs : ∑ j ∈ Finset.range k,
        (panel1x1 st off k n src).X (x - off) j *
          (panel1x1 st off k n src).Y (y - off) j
        = ∑ j ∈ Finset.range k, st.X (x - off) j * st.Y (y - off) j := by
      refine Finset.sum_congr rfl fun j hj => ?_
      have hjk := Finset.mem_range.mp hj
      rw [panel1x1_X_entry, panel1x1_Y_entry, if_neg (by omega),
        if_neg (by omega)]
    have hXk : (panel1x1 st off k n src).X (x - off) k
        = 1 / corr1 st off k n (off + k) (off + k) *
            corr1 st off k n x (off + k) := by
      rw [panel1x1_X_entry, if_pos ⟨rfl, by omega, by omega⟩,
        show off + (x - off) = x by omega]
    have hYk : (panel1x1 st off k n src).Y (y - off) k
        = corr1 st off k n y (off + k) := by
      rw [panel1x1_Y_entry, if_pos ⟨rfl, by omega, by omega⟩,
        show off + (y - off) = y by omega]
    rw [hA, hs, hXk, hYk, corr1_eff st off k n x, corr1_eff st off k n y,
      corr1_eff st off k n (off + k)]
    ring
  · by_cases hyK : y = off + k
    · subst hyK
      rw [trrkUpdate_out _ _ _ off (k + 1) n x (off + k) (by omega)]
      by_cases hx : off + k + 1 ≤ x ∧ x < n
      · rw [panel1x1_A_entry, if_pos ⟨rfl, hx.1, hx.2⟩,
          rank1Update_col_k _ (off + k) n x hx.1 hx.2,
          corr1_eff st off k n x, corr1_eff st off k n (off + k)]
      · rw [panel1x1_A_entry, if_neg (by omega), corr1_eff st off k n x,
          rank1Update_out _ (off + k) n x (off + k) (by omega) (by omega)]
    · rw [trrkUpdate_out _ _ _ off (k + 1) n x y (by omega),
        panel1x1_A_entry, if_neg (by omega)]
      unfold corr1
      rw [if_neg (by omega),
        rank1Update_out _ (off + k) n x y (by omega) (by omega),
        trrkUpdate_out st.A st.X st.Y off k n x y (by omega)]

/-- The first column of `A21·D11⁻¹` as computed by `Symmetric2x2Solve` in the
2×2 panel branch. -/
def p2l0 (st : PanelState) (off k n x : ℕ) : ℚ :=
  (corr2 st off k n x (off + k) *
      corr2 st off k n (off + k + 1) (off + k + 1)
    - corr2 st off k n x (off + k + 1) *
        corr2 st off k n (off + k + 1) (off + k))
  / (corr2 st off k n (off + k) (off + k) *
      corr2 st off k n (off + k + 1) (off + k + 1)
    - corr2 st off k n (off + k + 1) (off + k) *
        corr2 st off k n (off + k + 1) (off + k))

/-- The second column of `A21·D11⁻¹` in the 2×2 panel branch. -/
def p2l1 (st : PanelState) (off k n x : ℕ) : ℚ :=
  (corr2 st off k n x (off + k + 1) *
      corr2 st off k n (off + k) (off + k)
    - corr2 st off k n x (off + k) *
        corr2 st off k n (off + k + 1) (off + k))
  / (corr2 st off k n (off + k) (off + k) *
      corr2 st off k n (off + k + 1) (off + k + 1)
    - corr2 st off k n (off + k + 1) (off + k) *
        corr2 st off k n (off + k + 1) (off + k))

theorem panel2x2_A_entry (st : PanelState) (off k n src x y : ℕ) :
    (panel2x2 st off k n src).A x y
      = if x = off + k + 1 ∧ y = off + k then 0
        else if y = off + k ∧ off + k + 2 ≤ x ∧ x < n then p2l0 st off k n x
        else if y = off + k + 1 ∧ off + k + 2 ≤ x ∧ x < n then
          p2l1 st off k n x
        else corr2 st off k n x y := rfl

theorem panel2x2_X_entry (st : PanelState) (off k n src i j : ℕ) :
    (panel2x2 st off k n src).X i j
      = if k + 2 ≤ i ∧ i < n - off ∧ j = k then p2l0 st off k n (off + i)
        else if k + 2 ≤ i ∧ i < n - off ∧ j = k + 1 then
          p2l1 st off k n (off + i)
        else st.X i j := rfl

theorem panel2x2_Y_entry (st : PanelState) (off k n src i j : ℕ) :
    (panel2x2 st off k n src).Y i j
      = if k + 2 ≤ i ∧ i < n - off ∧ j = k then
          corr2 st off k n (off + i) (off + k)
        else if k + 2 ≤ i ∧ i < n - off ∧ j = k + 1 then
          corr2 st off k n (off + i) (off + k + 1)
        else st.Y i j := rfl

theorem panel2x2_dSub (st : PanelState) (off k n src : ℕ) :
    (panel2x2 st off k n src).dSub
      = Function.update st.dSub (off + k)
          (corr2 st off k n (off + k + 1) (off + k)) := rfl

theorem panel2x2_p (st : PanelState) (off k n src : ℕ) :
    (panel2x2 st off k n src).p
      = Function.update (Function.update st.p (off + k) (off + k))
          (off + k + 1) src := rfl

/-- The 2×2 panel elimination advances the effective matrix exactly as the
unblocked 2×2 elimination does. -/
theorem panel2x2_eff (st : PanelState) (off k n src : ℕ) :
    trrkUpdate (panel2x2 st off k n src).A (panel2x2 st off k n src).X
        (panel2x2 st off k n src).Y off (k + 2) n
      = rank2Update (trrkUpdate st.A st.X st.Y off k n) (off + k) n := by
  funext x y
  by_cases hb : off + k + 2 ≤ y ∧ y ≤ x ∧ x < n
  · obtain ⟨hy, hyx, hxn⟩ := hb
    rw [trrkUpdate_in _ _ _ off (k + 2) n x y (by omega) hyx hxn,
      rank2Update_trail _ (off + k) n x y (by omega) hyx hxn,
      trrkUpdate_in st.A st.X st.Y off k n x y (by omega) hyx hxn,
      Finset.sum_range_succ, Finset.sum_range_succ]
    have hA : (panel2x2 st off k n src).A x y = st.A x y := by
      rw [panel2x2_A_entry, if_neg (by omega), if_neg (by omega),
        if_neg (by omega)]
      unfold corr2
      rw [if_neg (by omega)]
    have hs : ∑ j ∈ Finset.range k,
        (panel2x2 st off k n src).X (x - off) j *
          (panel2x2 st off k n src).Y (y - off) j
        = ∑ j ∈ Finset.range k, st.X (x - off) j * st.Y (y - off) j := by
      refine Finset.sum_congr rfl fun j hj => ?_
      have hjk := Finset.mem_range.mp hj
      rw [panel2x2_X_entry, panel2x2_Y_entry, if_neg (by omega),
        if_neg (by omega), if_neg (by omega), if_neg (by omega)]
    have hXk : (panel2x2 st off k n src).X (x - off) k
        = p2l0 st off k n x := by
      rw [panel2x2_X_entry, if_pos ⟨by omega, by omega, rfl⟩,
        show off + (x - off) = x by omega]
    have hXk1 : (panel2x2 st off k n src).X (x - off) (k + 1)
        = p2l1 st off k n x := by
      rw [panel2x2_X_entry, if_neg (by omega),
        if_pos ⟨by omega, by omega, rfl⟩, show off + (x - off) = x by omega]
    have hYk : (panel2x2 st off k n src).Y (y - off) k
        = corr2 st off k n y (off + k) := by
      rw [panel2x2_Y_entry, if_pos ⟨by omega, by omega, rfl⟩,
        show off + (y - off) = y by omega]
    have hYk1 : (panel2x2 st off k n src).Y (y - off) (k + 1)
        = corr2 st off k n y (off + k + 1) := by
      rw [panel2x2_Y_entry, if_neg (by omega),
        if_pos ⟨by omega, by omega, rfl⟩, show off + (y - off) = y by omega]
    rw [hA, hs, hXk, hXk1, hYk, hYk1]
    unfold p2l0 p2l1
    rw [corr2_eff st off k n x (off + k) (Or.inl rfl),
      corr2_eff st off k n x (off + k + 1) (Or.inr rfl),
      corr2_eff st off k n (off + k + 1) (off + k + 1) (Or.inr rfl),
      corr2_eff st off k n (off + k + 1) (off + k) (Or.inl rfl),
      corr2_eff st off k n (off + k) (off + k) (Or.inl rfl),
      corr2_eff st off k n y (off + k) (Or.inl rfl),
      corr2_eff st off k n y (off + k + 1) (Or.inr rfl)]
    ring
  · rw [trrkUpdate_out _ _ _ off (k + 2) n x y (by omega)]
    by_cases h0 : x = off + k + 1 ∧ y = off + k
    · obtain ⟨hx0, hy0⟩ := h0
      subst hx0
      subst hy0
      rw [panel2x2_A_entry, if_pos ⟨rfl, rfl⟩, rank2Update_subdiag]
    · by_cases h1 : y = off + k ∧ off + k + 2 ≤ x ∧ x < n
      · obtain ⟨hy1, hx1, hx2⟩ := h1
        subst hy1
        rw [panel2x2_A_entry, if_neg (by omega), if_pos ⟨rfl, hx1, hx2⟩,
          rank2Update_col0 _ (off + k) n x hx1 hx2]
        unfold p2l0
        rw [corr2_eff st off k n x (off + k) (Or.inl rfl),
          corr2_eff st off k n x (off + k + 1) (Or.inr rfl),
          corr2_eff st off k n (off + k + 1) (off + k + 1) (Or.inr rfl),
          corr2_eff st off k n (off + k + 1) (off + k) (Or.inl rfl),
          corr2_eff st off k n (off + k) (off + k) (Or.inl rfl)]
      · by_cases h2 : y = off + k + 1 ∧ off + k + 2 ≤ x ∧ x < n
        · obtain ⟨hy2, hx1, hx2⟩ := h2
          subst hy2
          rw [panel2x2_A_entry, if_neg (by omega), if_neg (by omega),
            if_pos ⟨rfl, hx1, hx2⟩,
            rank2Update_col1 _ (off + k) n x hx1 hx2]
          unfold p2l1
          rw [corr2_eff st off k n x (off + k + 1) (Or.inr rfl),
            corr2_eff st off k n x (off + k) (Or.inl rfl),
            corr2_eff st off k n (off + k + 1) (off + k) (Or.inl rfl),
            corr2_eff st off k n (off + k) (off + k) (Or.inl rfl),
            corr2_eff st off k n (off + k + 1) (off + k + 1) (Or.inr rfl)]
        · rw [panel2x2_A_entry, if_neg (by omega), if_neg (by omega),
            if_neg (by omega),
            rank2Update_out _ (off + k) n x y (by omega) (by omega)
              (by omega) (by omega)]
          by_cases hyKs : y = off + k ∨ y = off + k + 1
          · rw [corr2_eff st off k n x y hyKs]
          · unfold corr2
            rw [if_neg (by omega),
              trrkUpdate_out st.A st.X st.Y off k n x y (by omega)]

theorem corrSym_panel1x1 (st : PanelState) (off k n src : ℕ)
    (h : corrSym st.X st.Y off k n) :
    corrSym (panel1x1 st off k n src).X (panel1x1 st off k n src).Y off
      (k + 1) n := by
  intro u v hu hv hun hvn
  rw [Finset.sum_range_succ, Finset.sum_range_succ]
  have hold : ∀ a b, k ≤ a → k ≤ b → a < n - off → b < n - off →
      ∑ j ∈ Finset.range k, (panel1x1 st off k n src).X a j *
          (panel1x1 st off k n src).Y b j
        = ∑ j ∈ Finset.range k, st.X a j * st.Y b j := by
    intro a b _ _ _ _
    refine Finset.sum_congr rfl fun j hj => ?_
    have hjk := Finset.mem_range.mp hj
    rw [panel1x1_X_entry, panel1x1_Y_entry, if_neg (by omega),
      if_neg (by omega)]
  have hXu : (panel1x1 st off k n src).X u k
      = 1 / corr1 st off k n (off + k) (off + k) *
          corr1 st off k n (off + u) (off + k) := by
    rw [panel1x1_X_entry, if_pos ⟨rfl, hu, hun⟩]
  have hXv : (panel1x1 st off k n src).X v k
      = 1 / corr1 st off k n (off + k) (off + k) *
          corr1 st off k n (off + v) (off + k) := by
    rw [panel1x1_X_entry, if_pos ⟨rfl, hv, hvn⟩]
  have hYu : (panel1x1 st off k n src).Y u k
      = corr1 st off k n (off + u) (off + k) := by
    rw [panel1x1_Y_entry, if_pos ⟨rfl, hu, hun⟩]
  have hYv : (panel1x1 st off k n src).Y v k
      = corr1 st off k n (off + v) (off + k) := by
    rw [panel1x1_Y_entry, if_pos ⟨rfl, hv, hvn⟩]
  rw [hold u v (by omega) (by omega) hun hvn,
    hold v u (by omega) (by omega) hvn hun,
    h u v (by omega) (by omega) hun hvn, hXu, hXv, hYu, hYv]
  ring

theorem corrSym_panel2x2 (st : PanelState) (off k n src : ℕ)
    (h : corrSym st.X st.Y off k n) :
    corrSym (panel2x2 st off k n src).X (panel2x2 st off k n src).Y off
      (k + 2) n := by
  intro u v hu hv hun hvn
  rw [Finset.sum_range_succ, Finset.sum_range_succ, Finset.sum_range_succ,
    Finset.sum_range_succ]
  have hold : ∀ a b, a < n - off → b < n - off →
      ∑ j ∈ Finset.range k, (panel2x2 st off k n src).X a j *
          (panel2x2 st off k n src).Y b j
        = ∑ j ∈ Finset.range k, st.X a j * st.Y b j := by
    intro a b _ _
    refine Finset.sum_congr rfl fun j hj => ?_
    have hjk := Finset.mem_range.mp hj
    rw [panel2x2_X_entry, panel2x2_Y_entry, if_neg (by omega),
      if_neg (by omega), if_neg (by omega), if_neg (by omega)]
  have hX0 : ∀ a, k + 2 ≤ a → a < n - off →
      (panel2x2 st off k n src).X a k = p2l0 st off k n (off + a) :=
    fun a ha han => by
      rw [panel2x2_X_entry, if_pos ⟨ha, han, rfl⟩]
  have hX1 : ∀ a, k + 2 ≤ a → a < n - off →
      (panel2x2 st off k n src).X a (k + 1) = p2l1 st off k n (off + a) :=
    fun a ha han => by
      rw [panel2x2_X_entry, if_neg (by omega), if_pos ⟨ha, han, rfl⟩]
  have hY0 : ∀ a, k + 2 ≤ a → a < n - off →
      (panel2x2 st off k n src).Y a k
        = corr2 st off k n (off + a) (off + k) :=
    fun a ha han => by
      rw [panel2x2_Y_entry, if_pos ⟨ha, han, rfl⟩]
  have hY1 : ∀ a, k + 2 ≤ a → a < n - off →
      (panel2x2 st off k n src).Y a (k + 1)
        = corr2 st off k n (off + a) (off + k + 1) :=
    fun a ha han => by
      rw [panel2x2_Y_entry, if_neg (by omega), if_pos ⟨ha, han, rfl⟩]
  rw [hold u v hun hvn, hold v u hvn hun, h u v (by omega) (by omega) hun hvn,
    hX0 u hu hun, hX0 v hv hvn, hX1 u hu hun, hX1 v hv hvn,
    hY0 u hu hun, hY0 v hv hvn, hY1 u hu hun, hY1 v hv hvn]
  have key : ∀ (p q r s a b c : ℚ),
      (p * c - q * b) / (a * c - b * b) * r
          + (q * a - p * b) / (a * c - b * b) * s
        = (r * c - s * b) / (a * c - b * b) * p
          + (s * a - r * b) / (a * c - b * b) * q := by
    intro p q r s a b c
    rw [div_mul_eq_mul_div, div_mul_eq_mul_div, div_mul_eq_mul_div,
      div_mul_eq_mul_div, div_add_div_same, div_add_div_same,
      show (p * c - q * b) * r + (q * a - p * b) * s
        = (r * c - s * b) * p + (s * a - r * b) * q from by ring]
  unfold p2l0 p2l1
  linarith [key (corr2 st off k n (off + u) (off + k))
    (corr2 st off k n (off + u) (off + k + 1))
    (corr2 st off k n (off + v) (off + k))
    (corr2 st off k n (off + v) (off + k + 1))
    (corr2 st off k n (off + k) (off + k))
    (corr2 st off k n (off + k + 1) (off + k))
    (corr2 st off k n (off + k + 1) (off + k + 1))]

/-- Shape of every pivot record the panel selectors can return: block size 1
with source row `k` or a row in `(k, n)`, or block size 2 with source rows
`k` and a row in `(k, n)`. -/
theorem choosePanelPivot_shape (A X Y : Mat) (n k : ℕ) (pt : LDLPivotType)
    (gd g : ℚ) (p : LDLPivot) (hpt : pt ≠ .BUNCH_PARLETT)
    (h : ChoosePanelPivot A X Y n k pt gd g = .ok p) :
    (p.nb = 1 ∧ (p.from0 = k ∨ (k + 1 ≤ p.from0 ∧ p.from0 < n)))
    ∨ (p.nb = 2 ∧ p.from0 = k ∧ k + 1 ≤ p.from1 ∧ p.from1 < n) := by
  have hrk : k + 1 ≤ pbkR A X Y n k := by
    unfold pbkR
    omega
  have hA : ∀ (gd' : ℚ), PanelBunchKaufmanA A X Y n k gd' g = .ok p →
      (p.nb = 1 ∧ (p.from0 = k ∨ (k + 1 ≤ p.from0 ∧ p.from0 < n)))
      ∨ (p.nb = 2 ∧ p.from0 = k ∧ k + 1 ≤ p.from1 ∧ p.from1 < n) := by
    intro gd' hok
    rw [PanelBunchKaufmanA_eq] at hok
    split_ifs at hok with h1 h2 h3 h4
    · obtain rfl := Except.ok.inj hok
      exact Or.inl ⟨rfl, Or.inl rfl⟩
    · obtain rfl := Except.ok.inj hok
      exact Or.inl ⟨rfl, Or.inl rfl⟩
    · obtain rfl := Except.ok.inj hok
      have hw := (pbk_rho_ge_omega A X Y n k (resolveGamma gd' g) h2).1
      have hr := (abs_entry_at_pbkR A X Y n k (ne_of_gt hw)).1
      exact Or.inl ⟨rfl, Or.inr ⟨hrk, hr⟩⟩
    · obtain rfl := Except.ok.inj hok
      have hw := (pbk_rho_ge_omega A X Y n k (resolveGamma gd' g) h2).1
      have hr := (abs_entry_at_pbkR A X Y n k (ne_of_gt hw)).1
      exact Or.inr ⟨rfl, rfl, hrk, hr⟩
  have hD : PanelBunchKaufmanD A X Y n k g = .ok p →
      (p.nb = 1 ∧ (p.from0 = k ∨ (k + 1 ≤ p.from0 ∧ p.from0 < n)))
      ∨ (p.nb = 2 ∧ p.from0 = k ∧ k + 1 ≤ p.from1 ∧ p.from1 < n) := by
    intro hok
    rw [PanelBunchKaufmanD_eq] at hok
    split_ifs at hok with h1 h2 h3
    · obtain rfl := Except.ok.inj hok
      exact Or.inl ⟨rfl, Or.inl rfl⟩
    · obtain rfl := Except.ok.inj hok
      exact Or.inl ⟨rfl, Or.inl rfl⟩
    · obtain rfl := Except.ok.inj hok
      have hw := (pbk_rho_ge_omega A X Y n k (resolveGamma gammaDefD g) h2).1
      have hr := (abs_entry_at_pbkR A X Y n k (ne_of_gt hw)).1
      exact Or.inr ⟨rfl, rfl, hrk, hr⟩
  cases pt with
  | BUNCH_KAUFMAN_A => exact hA gd h
  | BUNCH_KAUFMAN_C => exact hA gd h
  | BUNCH_KAUFMAN_D => exact hD h
  | BUNCH_PARLETT => exact absurd rfl hpt

/-- The panel state after `ApplySymmetricPivots`: the stored matrix is
symmetrically swapped and the corresponding rows of `X` and `Y` (panel-local
indices) are exchanged. -/
def swappedPanel (st : PanelState) (off dst src : ℕ) : PanelState :=
  ⟨SymmetricSwap st.A dst src, st.dSub, st.p,
    RowSwap st.X (dst - off) (src - off),
    RowSwap st.Y (dst - off) (src - off)⟩

theorem corr1_eff_swapped (st : PanelState) (off dst src k n x : ℕ) :
    corr1 (swappedPanel st off dst src) off k n x (off + k)
      = trrkUpdate (SymmetricSwap st.A dst src)
          (RowSwap st.X (dst - off) (src - off))
          (RowSwap st.Y (dst - off) (src - off)) off k n x (off + k) :=
  corr1_eff _ off k n x

theorem corr2_eff_swapped (st : PanelState) (off dst src k n x y : ℕ)
    (hy : y = off + k ∨ y = off + k + 1) :
    corr2 (swappedPanel st off dst src) off k n x y
      = trrkUpdate (SymmetricSwap st.A dst src)
          (RowSwap st.X (dst - off) (src - off))
          (RowSwap st.Y (dst - off) (src - off)) off k n x y :=
  corr2_eff _ off k n x y hy

theorem panel1x1_eff_swapped (st : PanelState) (off dst src k n s2 : ℕ) :
    trrkUpdate (panel1x1 (swappedPanel st off dst src) off k n s2).A
        (panel1x1 (swappedPanel st off dst src) off k n s2).X
        (panel1x1 (swappedPanel st off dst src) off k n s2).Y off (k + 1) n
      = rank1Update (trrkUpdate (SymmetricSwap st.A dst src)
          (RowSwap st.X (dst - off) (src - off))
          (RowSwap st.Y (dst - off) (src - off)) off k n) (off + k) n :=
  panel1x1_eff _ off k n s2

theorem panel2x2_eff_swapped (st : PanelState) (off dst src k n s2 : ℕ) :
    trrkUpdate (panel2x2 (swappedPanel st off dst src) off k n s2).A
        (panel2x2 (swappedPanel st off dst src) off k n s2).X
        (panel2x2 (swappedPanel st off dst src) off k n s2).Y off (k + 2) n
      = rank2Update (trrkUpdate (SymmetricSwap st.A dst src)
          (RowSwap st.X (dst - off) (src - off))
          (RowSwap st.Y (dst - off) (src - off)) off k n) (off + k) n :=
  panel2x2_eff _ off k n s2

/-- The non-singularity side conditions of a panel run, mirroring
`panelLoop`: every materialized 1×1 pivot entry is nonzero and every
materialized 2×2 pivot block has nonzero determinant. -/
def panelNonsing (nTot off bsize : ℕ) (pt : LDLPivotType) (gd g : ℚ) :
    ℕ → ℕ → PanelState → Prop
  | 0, _, _ => True
  | fuel + 1, k, st =>
      if k < bsize then
        match ChoosePanelPivot (shiftMat st.A off) st.X st.Y (nTot - off) k
            pt gd g with
        | .error _ => True
        | .ok pivot =>
          if k + pivot.nb > bsize then True
          else if pivot.nb = 1 then
            corr1 (swappedPanel st off (off + k) (off + pivot.from0))
                off k nTot (off + k) (off + k) ≠ 0 ∧
            panelNonsing nTot off bsize pt gd g fuel (k + 1)
              (panel1x1 (swappedPanel st off (off + k) (off + pivot.from0))
                off k nTot (off + pivot.from0))
          else
            (corr2 (swappedPanel st off (off + k + 1) (off + pivot.from1))
                  off k nTot (off + k) (off + k) *
                corr2 (swappedPanel st off (off + k + 1) (off + pivot.from1))
                  off k nTot (off + k + 1) (off + k + 1) -
              corr2 (swappedPanel st off (off + k + 1) (off + pivot.from1))
                  off k nTot (off + k + 1) (off + k) *
                corr2 (swappedPanel st off (off + k + 1) (off + pivot.from1))
                  off k nTot (off + k + 1) (off + k) ≠ 0) ∧
            panelNonsing nTot off bsize pt gd g fuel (k + 2)
              (panel2x2 (swappedPanel st off (off + k + 1) (off + pivot.from1))
                off k nTot (off + pivot.from1))
      else True

theorem panelLoop_err (nTot off bsize : ℕ) (pt : LDLPivotType) (gd g : ℚ)
    (fuel k : ℕ) (st : PanelState) (e : LDLError)
    (hk : k < bsize) (hpt : pt ≠ .BUNCH_KAUFMAN_C)
    (hcp : ChoosePanelPivot (shiftMat st.A off) st.X st.Y (nTot - off) k
      pt gd g = .error e) :
    panelLoop nTot off bsize pt gd g (fuel + 1) k st = .error e := by
  simp only [panelLoop]
  rw [if_pos hk, if_neg hpt, hcp]

theorem panelLoop_break (nTot off bsize : ℕ) (pt : LDLPivotType) (gd g : ℚ)
    (fuel k : ℕ) (st : PanelState) (pivot : LDLPivot)
    (hk : k < bsize) (hpt : pt ≠ .BUNCH_KAUFMAN_C)
    (hcp : ChoosePanelPivot (shiftMat st.A off) st.X st.Y (nTot - off) k
      pt gd g = .ok pivot)
    (hov : bsize < k + pivot.nb) :
    panelLoop nTot off bsize pt gd g (fuel + 1) k st
      = .ok (st, bsize - 1) := by
  simp only [panelLoop]
  rw [if_pos hk, if_neg hpt, hcp]
  show (if k + pivot.nb > bsize then _ else _) = _
  rw [if_pos hov]

theorem panelLoop_eq1 (nTot off bsize : ℕ) (pt : LDLPivotType) (gd g : ℚ)
    (fuel k : ℕ) (st : PanelState) (pivot : LDLPivot)
    (hk : k < bsize) (hpt : pt ≠ .BUNCH_KAUFMAN_C)
    (hcp : ChoosePanelPivot (shiftMat st.A off) st.X st.Y (nTot - off) k
      pt gd g = .ok pivot)
    (hnb : pivot.nb = 1) (hov : ¬ bsize < k + 1) :
    panelLoop nTot off bsize pt gd g (fuel + 1) k st
      = panelLoop nTot off bsize pt gd g fuel (k + 1)
          (panel1x1 (swappedPanel st off (off + k) (off + pivot.from0))
            off k nTot (off + pivot.from0)) := by
  simp only [panelLoop]
  rw [if_pos hk, if_neg hpt, hcp]
  simp only [hnb]
  rw [if_neg hov]
  rfl

theorem panelLoop_eq2 (nTot off bsize : ℕ) (pt : LDLPivotType) (gd g : ℚ)
    (fuel k : ℕ) (st : PanelState) (pivot : LDLPivot)
    (hk : k < bsize) (hpt : pt ≠ .BUNCH_KAUFMAN_C)
    (hcp : ChoosePanelPivot (shiftMat st.A off) st.X st.Y (nTot - off) k
      pt gd g = .ok pivot)
    (hnb : pivot.nb = 2) (hov : ¬ bsize < k + 2) :
    panelLoop nTot off bsize pt gd g (fuel + 1) k st
      = panelLoop nTot off bsize pt gd g fuel (k + 2)
          (panel2x2 (swappedPanel st off (off + k + 1) (off + pivot.from1))
            off k nTot (off + pivot.from1)) := by
  simp only [panelLoop]
  rw [if_pos hk, if_neg hpt, hcp]
  simp only [hnb]
  rw [if_neg hov]
  rfl

theorem panelNonsing_break (nTot off bsize : ℕ) (pt : LDLPivotType)
    (gd g : ℚ) (fuel k : ℕ) (st : PanelState) (pivot : LDLPivot)
    (hk : k < bsize)
    (hcp : ChoosePanelPivot (shiftMat st.A off) st.X st.Y (nTot - off) k
      pt gd g = .ok pivot)
    (hov : bsize < k + pivot.nb) :
    panelNonsing nTot off bsize pt gd g (fuel + 1) k st = True := by
  simp only [panelNonsing]
  rw [if_pos hk, hcp]
  show (if k + pivot.nb > bsize then _ else _) = _
  rw [if_pos hov]

theorem panelNonsing_eq1 (nTot off bsize : ℕ) (pt : LDLPivotType)
    (gd g : ℚ) (fuel k : ℕ) (st : PanelState) (pivot : LDLPivot)
    (hk : k < bsize)
    (hcp : ChoosePanelPivot (shiftMat st.A off) st.X st.Y (nTot - off) k
      pt gd g = .ok pivot)
    (hnb : pivot.nb = 1) (hov : ¬ bsize < k + 1) :
    panelNonsing nTot off bsize pt gd g (fuel + 1) k st
      = (corr1 (swappedPanel st off (off + k) (off + pivot.from0))
            off k nTot (off + k) (off + k) ≠ 0 ∧
          panelNonsing nTot off bsize pt gd g fuel (k + 1)
            (panel1x1 (swappedPanel st off (off + k) (off + pivot.from0))
              off k nTot (off + pivot.from0))) := by
  simp only [panelNonsing]
  rw [if_pos hk, hcp]
  simp only [hnb]
  rw [if_neg hov]
  rfl

theorem panelNonsing_eq2 (nTot off bsize : ℕ) (pt : LDLPivotType)
    (gd g : ℚ) (fuel k : ℕ) (st : PanelState) (pivot : LDLPivot)
    (hk : k < bsize)
    (hcp : ChoosePanelPivot (shiftMat st.A off) st.X st.Y (nTot - off) k
      pt gd g = .ok pivot)
    (hnb : pivot.nb = 2) (hov : ¬ bsize < k + 2) :
    panelNonsing nTot off bsize pt gd g (fuel + 1) k st
      = ((corr2 (swappedPanel st off (off + k + 1) (off + pivot.from1))
              off k nTot (off + k) (off + k) *
            corr2 (swappedPanel st off (off + k + 1) (off + pivot.from1))
              off k nTot (off + k + 1) (off + k + 1) -
          corr2 (swappedPanel st off (off + k + 1) (off + pivot.from1))
              off k nTot (off + k + 1) (off + k) *
            corr2 (swappedPanel st off (off + k + 1) (off + pivot.from1))
              off k nTot (off + k + 1) (off + k) ≠ 0) ∧
          panelNonsing nTot off bsize pt gd g fuel (k + 2)
            (panel2x2 (swappedPanel st off (off + k + 1) (off + pivot.from1))
              off k nTot (off + pivot.from1))) := by
  simp only [panelNonsing]
  rw [if_pos hk, hcp]
  simp only [hnb]
  rw [if_neg hov]
  rfl

/-- The panel loop preserves the reconstruction invariant of the effective
matrix: a completing panel of width `w` advances a valid state at column
`off + k` to a valid state at column `off + w`, and the completed width is
positive whenever the blocked driver can have produced the panel size. -/
theorem panelLoop_invariant (A0 : Mat) (nTot off bsize : ℕ)
    (pt : LDLPivotType) (gd g : ℚ)
    (hpt1 : pt ≠ .BUNCH_KAUFMAN_C) (hpt2 : pt ≠ .BUNCH_PARLETT)
    (hbs : off + bsize ≤ nTot) :
    ∀ (fuel k : ℕ) (st pst : PanelState) (w : ℕ),
      panelLoop nTot off bsize pt gd g fuel k st = .ok (pst, w) →
      panelNonsing nTot off bsize pt gd g fuel k st →
      bsize ≤ fuel + k → k ≤ bsize →
      corrSym st.X st.Y off k nTot →
      LDLInv A0 nTot (off + k)
        ⟨trrkUpdate st.A st.X st.Y off k nTot, st.dSub, st.p⟩ →
      LDLInv A0 nTot (off + w)
          ⟨trrkUpdate pst.A pst.X pst.Y off w nTot, pst.dSub, pst.p⟩
        ∧ k ≤ w ∧ w ≤ bsize ∧ (2 ≤ bsize → 1 ≤ w)
        ∧ (bsize = nTot - off → 1 ≤ bsize → 1 ≤ w) := by
  intro fuel
  induction fuel with
  | zero =>
      intro k st pst w hok hns hfuel hkb hsym hinv
      simp only [panelLoop] at hok
      injection hok with hok'
      injection hok' with h1 h2
      subst h1
      subst h2
      have hkb' : bsize = k := by omega
      subst hkb'
      exact ⟨hinv, le_refl _, le_refl _, fun _ => by omega, fun _ h1 => h1⟩
  | succ fuel ih =>
      intro k st pst w hok hns hfuel hkb hsym hinv
      by_cases hk : k < bsize
      case neg =>
        have hend : panelLoop nTot off bsize pt gd g (fuel + 1) k st
            = .ok (st, bsize) := by
          show (if k < bsize then _ else _) = _
          rw [if_neg hk]
        rw [hend] at hok
        injection hok with hok'
        injection hok' with h1 h2
        subst h1
        subst h2
        have hkb' : bsize = k := by omega
        subst hkb'
        exact ⟨hinv, le_refl _, le_refl _, fun _ => by omega, fun _ h1 => h1⟩
      case pos =>
        have hkn : off + k < nTot := by omega
        cases hcp : ChoosePanelPivot (shiftMat st.A off) st.X st.Y
            (nTot - off) k pt gd g with
        | error e =>
            rw [panelLoop_err nTot off bsize pt gd g fuel k st e hk hpt1 hcp]
              at hok
            exact absurd hok (by simp)
        | ok pivot =>
            have hsh := choosePanelPivot_shape (shiftMat st.A off) st.X st.Y
              (nTot - off) k pt gd g pivot hpt2 hcp
            by_cases hov : bsize < k + pivot.nb
            · -- early break: the state is returned unchanged at width k
              rw [panelLoop_break nTot off bsize pt gd g fuel k st pivot hk
                hpt1 hcp hov] at hok
              injection hok with hok'
              injection hok' with h1 h2
              subst h1
              subst h2
              have hnb2 : pivot.nb = 2 := by
                rcases hsh with ⟨h1, -⟩ | ⟨h2, -⟩
                · omega
                · exact h2
              have hwk : bsize - 1 = k := by omega
              rw [hwk]
              refine ⟨hinv, le_refl _, by omega, fun _ => by omega,
                fun hbse _ => ?_⟩
              rcases hsh with ⟨h1, -⟩ | ⟨-, -, hf11, hf12⟩
              · omega
              · omega
            · by_cases hnb : pivot.nb = 1
              · -- 1×1 panel step
                have hf : pivot.from0 = k ∨
                    (k + 1 ≤ pivot.from0 ∧ pivot.from0 < nTot - off) := by
                  rcases hsh with ⟨-, hf⟩ | ⟨h2, -⟩
                  · exact hf
                  · omega
                have hsrc0 : k ≤ pivot.from0 := by rcases hf with h | h <;> omega
                have hsrcn : off + pivot.from0 < nTot := by
                  rcases hf with h | h <;> omega
                have heff := trrk_swap_eff st.A st.X st.Y off k nTot
                  (off + k) (off + pivot.from0) (le_refl _) (by omega) hkn
                  hsrcn hsym
                rw [panelLoop_eq1 nTot off bsize pt gd g fuel k st pivot hk
                  hpt1 hcp hnb (by omega)] at hok
                rw [panelNonsing_eq1 nTot off bsize pt gd g fuel k st pivot hk
                  hcp hnb (by omega)] at hns
                obtain ⟨hnz, hnsrec⟩ := hns
                rw [corr1_eff_swapped st off (off + k) (off + pivot.from0) k
                    nTot (off + k),
                  congrFun (congrFun heff (off + k)) (off + k)] at hnz
                have hstep := LDLInv_step1 A0 nTot (off + k)
                  (off + pivot.from0)
                  ⟨trrkUpdate st.A st.X st.Y off k nTot, st.dSub, st.p⟩
                  hkn (by omega) hsrcn hnz hinv
                have htarget : LDLInv A0 nTot (off + (k + 1))
                    ⟨trrkUpdate
                        (panel1x1 (swappedPanel st off (off + k)
                          (off + pivot.from0)) off k nTot
                          (off + pivot.from0)).A
                        (panel1x1 (swappedPanel st off (off + k)
                          (off + pivot.from0)) off k nTot
                          (off + pivot.from0)).X
                        (panel1x1 (swappedPanel st off (off + k)
                          (off + pivot.from0)) off k nTot
                          (off + pivot.from0)).Y off (k + 1) nTot,
                      (panel1x1 (swappedPanel st off (off + k)
                        (off + pivot.from0)) off k nTot
                        (off + pivot.from0)).dSub,
                      (panel1x1 (swappedPanel st off (off + k)
                        (off + pivot.from0)) off k nTot
                        (off + pivot.from0)).p⟩ := by
                  rw [panel1x1_eff_swapped st off (off + k)
                    (off + pivot.from0) k nTot (off + pivot.from0), heff]
                  exact hstep
                have hsym' : corrSym
                    (panel1x1 (swappedPanel st off (off + k)
                      (off + pivot.from0)) off k nTot (off + pivot.from0)).X
                    (panel1x1 (swappedPanel st off (off + k)
                      (off + pivot.from0)) off k nTot (off + pivot.from0)).Y
                    off (k + 1) nTot :=
                  corrSym_panel1x1 _ off k nTot (off + pivot.from0)
                    (corrSym_rowSwap st.X st.Y off k nTot
                      (off + k - off) (off + pivot.from0 - off)
                      (by omega) (by omega) (by omega) (by omega) hsym)
                obtain ⟨hinvf, hw1, hw2, hw3, hw4⟩ := ih (k + 1) _ pst w hok
                  hnsrec (by omega) (by omega) hsym' htarget
                exact ⟨hinvf, by omega, hw2, hw3, hw4⟩
              · -- 2×2 panel step
                have hnb2 : pivot.nb = 2 := by
                  rcases hsh with ⟨h1, -⟩ | ⟨h2, -⟩
                  · omega
                  · exact h2
                have hf11 : k + 1 ≤ pivot.from1 := by
                  rcases hsh with ⟨h1, -⟩ | ⟨-, -, h, -⟩
                  · omega
                  · exact h
                have hf12 : pivot.from1 < nTot - off := by
                  rcases hsh with ⟨h1, -⟩ | ⟨-, -, -, h⟩
                  · omega
                  · exact h
                have hk1n : off + k + 1 < nTot := by omega
                have hsrcn : off + pivot.from1 < nTot := by omega
                have heff := trrk_swap_eff st.A st.X st.Y off k nTot
                  (off + k + 1) (off + pivot.from1) (by omega) (by omega)
                  hk1n hsrcn hsym
                rw [panelLoop_eq2 nTot off bsize pt gd g fuel k st pivot hk
                  hpt1 hcp hnb2 (by omega)] at hok
                rw [panelNonsing_eq2 nTot off bsize pt gd g fuel k st pivot hk
                  hcp hnb2 (by omega)] at hns
                obtain ⟨hdet, hnsrec⟩ := hns
                rw [corr2_eff_swapped st off (off + k + 1) (off + pivot.from1)
                    k nTot (off + k) (off + k) (Or.inl rfl),
                  corr2_eff_swapped st off (off + k + 1) (off + pivot.from1)
                    k nTot (off + k + 1) (off + k + 1) (Or.inr rfl),
                  corr2_eff_swapped st off (off + k + 1) (off + pivot.from1)
                    k nTot (off + k + 1) (off + k) (Or.inl rfl),
                  congrFun (congrFun heff (off + k)) (off + k),
                  congrFun (congrFun heff (off + k + 1)) (off + k + 1),
                  congrFun (congrFun heff (off + k + 1)) (off + k)] at hdet
                rw [show trrkUpdate st.A st.X st.Y off k nTot
                    = SymmetricSwap (trrkUpdate st.A st.X st.Y off k nTot)
                        (off + k) (off + k) from
                  (symmetricSwap_self _ _).symm] at hdet
                have hstep := LDLInv_step2 A0 nTot (off + k) (off + k)
                  (off + pivot.from1)
                  ⟨trrkUpdate st.A st.X st.Y off k nTot, st.dSub, st.p⟩
                  hk1n (le_refl _) hkn (by omega) hsrcn hdet hinv
                rw [symmetricSwap_self] at hstep
                have htarget : LDLInv A0 nTot (off + (k + 2))
                    ⟨trrkUpdate
                        (panel2x2 (swappedPanel st off (off + k + 1)
                          (off + pivot.from1)) off k nTot
                          (off + pivot.from1)).A
                        (panel2x2 (swappedPanel st off (off + k + 1)
                          (off + pivot.from1)) off k nTot
                          (off + pivot.from1)).X
                        (panel2x2 (swappedPanel st off (off + k + 1)
                          (off + pivot.from1)) off k nTot
                          (off + pivot.from1)).Y off (k + 2) nTot,
                      (panel2x2 (swappedPanel st off (off + k + 1)
                        (off + pivot.from1)) off k nTot
                        (off + pivot.from1)).dSub,
                      (panel2x2 (swappedPanel st off (off + k + 1)
                        (off + pivot.from1)) off k nTot
                        (off + pivot.from1)).p⟩ := by
                  rw [panel2x2_eff_swapped st off (off + k + 1)
                      (off + pivot.from1) k nTot (off + pivot.from1), heff,
                    panel2x2_dSub,
                    corr2_eff_swapped st off (off + k + 1)
                      (off + pivot.from1) k nTot (off + k + 1) (off + k)
                      (Or.inl rfl),
                    congrFun (congrFun heff (off + k + 1)) (off + k)]
                  exact hstep
                have hsym' : corrSym
                    (panel2x2 (swappedPanel st off (off + k + 1)
                      (off + pivot.from1)) off k nTot (off + pivot.from1)).X
                    (panel2x2 (swappedPanel st off (off + k + 1)
                      (off + pivot.from1)) off k nTot (off + pivot.from1)).Y
                    off (k + 2) nTot :=
                  corrSym_panel2x2 _ off k nTot (off + pivot.from1)
                    (corrSym_rowSwap st.X st.Y off k nTot
                      (off + k + 1 - off) (off + pivot.from1 - off)
                      (by omega) (by omega) (by omega) (by omega) hsym)
                obtain ⟨hinvf, hw1, hw2, hw3, hw4⟩ := ih (k + 2) _ pst w hok
                  hnsrec (by omega) (by omega) hsym' htarget
                exact ⟨hinvf, by omega, hw2, hw3, hw4⟩

/-- The non-singularity side conditions of a blocked run, mirroring
`blockedLoop`: every panel's side conditions hold. -/
def blockedNonsing (nTot bsize : ℕ) (pt : LDLPivotType) (gd g : ℚ) :
    ℕ → ℕ → LDLState → Prop
  | 0, _, _ => True
  | fuel + 1, k, st =>
      if k < nTot then
        match PanelPivoted st.A st.dSub st.p nTot (min bsize (nTot - k)) k
            pt gd g with
        | .error _ => True
        | .ok (pst, nb) =>
            panelNonsing nTot k (min bsize (nTot - k)) pt gd g
              (min bsize (nTot - k)) 0
              ⟨st.A, st.dSub, st.p, fun _ _ => 0, fun _ _ => 0⟩ ∧
            blockedNonsing nTot bsize pt gd g fuel (k + nb)
              ⟨trrkUpdate pst.A pst.X pst.Y k nb nTot, pst.dSub, pst.p⟩
      else True

/-- Extraction of the factorization statement from the completed
invariant. -/
theorem LDLInv_final (A0 : Mat) (n : ℕ) (stf : LDLState)
    (hinv : LDLInv A0 n n stf) :
    (∀ i j, i < n → j < n →
      (∑ c ∈ Finset.range n, ∑ e ∈ Finset.range n,
        lpart stf.A i c * dmat stf.A stf.dSub c e * lpart stf.A j e)
        = lowerRep A0 (permOfPivots stf.p n i) (permOfPivots stf.p n j))
    ∧ Function.Bijective (permOfPivots stf.p n)
    ∧ (∀ i, i < n → permOfPivots stf.p n i < n) := by
  obtain ⟨-, hrec, -, hpr⟩ := hinv
  refine ⟨?_, permOfPivots_bijective _ _,
    fun i hi => permOfPivots_lt stf.p n hpr n (le_refl n) i hi⟩
  intro i j hi hj
  have h := hrec i j hi hj
  unfold recon at h
  rw [if_neg (by omega), add_zero] at h
  exact h

/-- The blocked driver preserves the invariant panel by panel: the pending
correction of a finished panel is exactly what `Trrk` materializes, and the
next panel starts with a fresh, fully materialized state. -/
theorem blockedLoop_invariant (A0 : Mat) (nTot bsize : ℕ)
    (pt : LDLPivotType) (gd g : ℚ)
    (hpt1 : pt ≠ .BUNCH_KAUFMAN_C) (hpt2 : pt ≠ .BUNCH_PARLETT)
    (hbs : 2 ≤ bsize) :
    ∀ (fuel k : ℕ) (st stf : LDLState),
      blockedLoop nTot bsize pt gd g fuel k st = .ok stf →
      blockedNonsing nTot bsize pt gd g fuel k st →
      nTot ≤ fuel + k →
      LDLInv A0 nTot k st →
      LDLInv A0 nTot nTot stf := by
  intro fuel
  induction fuel with
  | zero =>
      intro k st stf hok hns hfuel hinv
      simp only [blockedLoop] at hok
      obtain rfl := Except.ok.inj hok
      have hkn : k = nTot := le_antisymm hinv.1 (by omega)
      exact hkn ▸ hinv
  | succ fuel ih =>
      intro k st stf hok hns hfuel hinv
      by_cases hk : k < nTot
      case neg =>
        have hend : blockedLoop nTot bsize pt gd g (fuel + 1) k st
            = .ok st := by
          show (if k < nTot then _ else _) = _
          rw [if_neg hk]
        rw [hend] at hok
        obtain rfl := Except.ok.inj hok
        have hkn : k = nTot := le_antisymm hinv.1 (by omega)
        exact hkn ▸ hinv
      case pos =>
        cases hpp : PanelPivoted st.A st.dSub st.p nTot
            (min bsize (nTot - k)) k pt gd g with
        | error e =>
            exfalso
            have herr : blockedLoop nTot bsize pt gd g (fuel + 1) k st
                = .error e := by
              simp only [blockedLoop]
              rw [if_pos hk, hpp]
            rw [herr] at hok
            exact absurd hok (by simp)
        | ok pr =>
            obtain ⟨pst, nb⟩ := pr
            have hstep : blockedLoop nTot bsize pt gd g (fuel + 1) k st
                = blockedLoop nTot bsize pt gd g fuel (k + nb)
                    ⟨trrkUpdate pst.A pst.X pst.Y k nb nTot, pst.dSub,
                      pst.p⟩ := by
              simp only [blockedLoop]
              rw [if_pos hk, hpp]
            rw [hstep] at hok
            have hnseq : blockedNonsing nTot bsize pt gd g (fuel + 1) k st
                = (panelNonsing nTot k (min bsize (nTot - k)) pt gd g
                    (min bsize (nTot - k)) 0
                    ⟨st.A, st.dSub, st.p, fun _ _ => 0, fun _ _ => 0⟩ ∧
                  blockedNonsing nTot bsize pt gd g fuel (k + nb)
                    ⟨trrkUpdate pst.A pst.X pst.Y k nb nTot, pst.dSub,
                      pst.p⟩) := by
              simp only [blockedNonsing]
              rw [if_pos hk, hpp]
            rw [hnseq] at hns
            obtain ⟨hpns, hnsrec⟩ := hns
            have hinv0 : LDLInv A0 nTot (k + 0)
                ⟨trrkUpdate st.A (fun _ _ => 0) (fun _ _ => 0) k 0 nTot,
                  st.dSub, st.p⟩ := by
              rw [trrk_zero_width]
              exact hinv
            have hpanel := panelLoop_invariant A0 nTot k
              (min bsize (nTot - k)) pt gd g hpt1 hpt2 (by omega)
              (min bsize (nTot - k)) 0
              ⟨st.A, st.dSub, st.p, fun _ _ => 0, fun _ _ => 0⟩ pst nb
              hpp hpns (by omega) (by omega)
              (corrSym_zero _ _ _ _) hinv0
            obtain ⟨hinvp, -, hw2, hw3, hw4⟩ := hpanel
            have hnb1 : 1 ≤ nb := by
              rcases Nat.lt_or_ge (nTot - k) bsize with hlt | hge
              · exact hw4 (by omega) (by omega)
              · exact hw3 (by omega)
            exact ih (k + nb) _ stf hok hnsrec (by omega) hinvp

/-- The non-singularity side conditions of `ldl::Pivoted`, following its
dispatch: the Bunch-Kaufman strategies run the blocked algorithm, every
other strategy the unblocked one. -/
def pivotedNonsing (A : Mat) (nTot bsize : ℕ) (pt : LDLPivotType)
    (gd g : ℚ) : Prop :=
  match pt with
  | .BUNCH_KAUFMAN_A | .BUNCH_KAUFMAN_C | .BUNCH_KAUFMAN_D =>
      blockedNonsing nTot bsize pt gd g nTot 0
        ⟨A, fun _ => 0, fun _ => 0⟩
  | _ => unblockedNonsing nTot pt gd g nTot 0 ⟨A, fun _ => 0, fun _ => 0⟩

/-- **C1**: for every square input on which `ldl::Pivoted` completes (with a
blocksize of at least 2) whose pivots are non-singular, the output encodes a
permutation `P` (as the accumulated pivot vector), a unit-lower-triangular
`L` (the strictly-lower part of the overwritten matrix plus a unit diagonal)
and a block-diagonal `D` of 1×1 and 2×2 blocks (the overwritten diagonal
together with the `dSub` sub-diagonal) with `P·A·Pᵀ = L·D·Lᵀ` exactly, as an
entrywise identity of rationals on the `n × n` block. -/
theorem pivoted_correct (A0 : Mat) (n bsize : ℕ) (pt : LDLPivotType)
    (gd g : ℚ) (stf : LDLState)
    (hok : Pivoted A0 n bsize pt gd g = .ok stf)
    (hbs : 2 ≤ bsize)
    (hns : pivotedNonsing A0 n bsize pt gd g) :
    (∀ i j, i < n → j < n →
      (∑ c ∈ Finset.range n, ∑ e ∈ Finset.range n,
        lpart stf.A i c * dmat stf.A stf.dSub c e * lpart stf.A j e)
        = lowerRep A0 (permOfPivots stf.p n i) (permOfPivots stf.p n j))
    ∧ Function.Bijective (permOfPivots stf.p n)
    ∧ (∀ i, i < n → permOfPivots stf.p n i < n) := by
  cases pt with
  | BUNCH_KAUFMAN_A =>
      exact LDLInv_final A0 n stf
        (blockedLoop_invariant A0 n bsize .BUNCH_KAUFMAN_A gd g
          (by simp) (by simp) hbs n 0 ⟨A0, fun _ => 0, fun _ => 0⟩ stf hok
          hns (by omega) (LDLInv_init A0 n))
  | BUNCH_KAUFMAN_D =>
      exact LDLInv_final A0 n stf
        (blockedLoop_invariant A0 n bsize .BUNCH_KAUFMAN_D gd g
          (by simp) (by simp) hbs n 0 ⟨A0, fun _ => 0, fun _ => 0⟩ stf hok
          hns (by omega) (LDLInv_init A0 n))
  | BUNCH_PARLETT =>
      exact unblockedPivoted_correct A0 n .BUNCH_PARLETT gd g stf hok hns
  | BUNCH_KAUFMAN_C =>
      cases n with
      | zero =>
          refine ⟨fun i j hi _ => absurd hi (by omega), ?_,
            fun i hi => absurd hi (by omega)⟩
          exact Function.bijective_id
      | succ n' =>
          exfalso
          have hpl : ∀ (b' : ℕ) (stq : PanelState),
              panelLoop (n' + 1) 0 (b' + 1) .BUNCH_KAUFMAN_C gd g (b' + 1) 0
                stq = .error .logic := by
            intro b' stq
            simp only [panelLoop]
            rw [if_pos (by omega)]
            rfl
          have hppC : PanelPivoted A0 (fun _ => 0) (fun _ => 0) (n' + 1)
              (min bsize (n' + 1 - 0)) 0 .BUNCH_KAUFMAN_C gd g
              = .error .logic := by
            obtain ⟨b', hb'⟩ : ∃ b', min bsize (n' + 1 - 0) = b' + 1 :=
              ⟨min bsize (n' + 1 - 0) - 1, by omega⟩
            show panelLoop (n' + 1) 0 (min bsize (n' + 1 - 0))
              .BUNCH_KAUFMAN_C gd g (min bsize (n' + 1 - 0)) 0 _ = _
            rw [hb']
            exact hpl b' _
          have herr : Pivoted A0 (n' + 1) bsize .BUNCH_KAUFMAN_C gd g
              = .error .logic := by
            show blockedLoop (n' + 1) bsize .BUNCH_KAUFMAN_C gd g (n' + 1) 0
              ⟨A0, fun _ => 0, fun _ => 0⟩ = _
            simp only [blockedLoop]
            rw [if_pos (by omega), hppC]
          rw [herr] at hok
          exact absurd hok (by simp)

/-- A concrete 1×1 input for exercising the blocked driver. -/
def c1WitMat : Mat := fun _ _ => 5

theorem c1Wit_hcp :
    ChoosePanelPivot (shiftMat c1WitMat 0) (fun _ _ => (0 : ℚ))
        (fun _ _ => (0 : ℚ)) (1 - 0) 0 .BUNCH_KAUFMAN_A (1/2) 0
      = .ok ⟨1, 0, 0⟩ := by
  rw [show ChoosePanelPivot (shiftMat c1WitMat 0) (fun _ _ => (0 : ℚ))
      (fun _ _ => (0 : ℚ)) (1 - 0) 0 .BUNCH_KAUFMAN_A (1/2) 0
      = PanelBunchKaufmanA (shiftMat c1WitMat 0) (fun _ _ => (0 : ℚ))
        (fun _ _ => (0 : ℚ)) (1 - 0) 0 (1/2) 0 from rfl,
    PanelBunchKaufmanA_eq]
  norm_num [pbkOmega, pbkAlpha, pbkA21Max, panelZB1, segOf, VectorMax,
    vmFold, shiftMat, c1WitMat, resolveGamma, Finset.sum_range_zero,
    List.range_zero, List.map_nil]

theorem c1Wit_panel :
    ∃ P1, PanelPivoted c1WitMat (fun _ => 0) (fun _ => 0) 1
        (min 2 (1 - 0)) 0 .BUNCH_KAUFMAN_A (1/2) 0 = .ok (P1, 1) :=
  ⟨_, by
    show panelLoop 1 0 (min 2 (1 - 0)) .BUNCH_KAUFMAN_A (1/2) 0
      (min 2 (1 - 0)) 0
      ⟨c1WitMat, fun _ => 0, fun _ => 0, fun _ _ => 0, fun _ _ => 0⟩
      = .ok (panel1x1 (swappedPanel
          ⟨c1WitMat, fun _ => 0, fun _ => 0, fun _ _ => 0, fun _ _ => 0⟩
          0 (0 + 0) (0 + (⟨1, 0, 0⟩ : LDLPivot).from0)) 0 0 1
          (0 + (⟨1, 0, 0⟩ : LDLPivot).from0), 1)
    rw [show (min 2 (1 - 0) : ℕ) = 0 + 1 by norm_num,
      panelLoop_eq1 1 0 (0 + 1) .BUNCH_KAUFMAN_A (1/2) 0 0 0
        ⟨c1WitMat, fun _ => 0, fun _ => 0, fun _ _ => 0, fun _ _ => 0⟩
        ⟨1, 0, 0⟩ (by omega) (by simp) c1Wit_hcp rfl (by omega)]
    rfl⟩

theorem c1Wit_nonsing :
    pivotedNonsing c1WitMat 1 2 .BUNCH_KAUFMAN_A (1/2) 0 := by
  obtain ⟨P1, hPP⟩ := c1Wit_panel
  show blockedNonsing 1 2 .BUNCH_KAUFMAN_A (1/2) 0 (0 + 1) 0
    ⟨c1WitMat, fun _ => 0, fun _ => 0⟩
  simp only [blockedNonsing]
  rw [if_pos (by omega), hPP]
  show panelNonsing 1 0 (min 2 (1 - 0)) .BUNCH_KAUFMAN_A (1/2) 0
      (min 2 (1 - 0)) 0
      ⟨c1WitMat, fun _ => 0, fun _ => 0, fun _ _ => 0, fun _ _ => 0⟩
    ∧ blockedNonsing 1 2 .BUNCH_KAUFMAN_A (1/2) 0 0 (0 + 1)
        ⟨trrkUpdate P1.A P1.X P1.Y 0 1 1, P1.dSub, P1.p⟩
  refine ⟨?_, trivial⟩
  rw [show (min 2 (1 - 0) : ℕ) = 0 + 1 by norm_num,
    panelNonsing_eq1 1 0 (0 + 1) .BUNCH_KAUFMAN_A (1/2) 0 0 0
      ⟨c1WitMat, fun _ => 0, fun _ => 0, fun _ _ => 0, fun _ _ => 0⟩
      ⟨1, 0, 0⟩ (by omega) c1Wit_hcp rfl (by omega)]
  refine ⟨?_, trivial⟩
  norm_num [corr1, swappedPanel, SymmetricSwap, lowerRep, transp, RowSwap,
    c1WitMat, Finset.sum_range_zero]

/-- `pivoted_correct` at the concrete 1×1 matrix `[[5]]` with the
Bunch-Kaufman A strategy and blocksize 2: the run completes and the
factorization identity holds. -/
theorem pivoted_correct_witness :
    ∃ stf, (Pivoted c1WitMat 1 2 .BUNCH_KAUFMAN_A (1/2) 0 = .ok stf
        ∧ 2 ≤ 2 ∧ pivotedNonsing c1WitMat 1 2 .BUNCH_KAUFMAN_A (1/2) 0)
      ∧ ((∀ i j, i < 1 → j < 1 →
          (∑ c ∈ Finset.range 1, ∑ e ∈ Finset.range 1,
            lpart stf.A i c * dmat stf.A stf.dSub c e * lpart stf.A j e)
            = lowerRep c1WitMat (permOfPivots stf.p 1 i)
                (permOfPivots stf.p 1 j))
        ∧ Function.Bijective (permOfPivots stf.p 1)
        ∧ (∀ i, i < 1 → permOfPivots stf.p 1 i < 1)) := by
  obtain ⟨P1, hPP⟩ := c1Wit_panel
  obtain ⟨stf, hok⟩ : ∃ stf,
      Pivoted c1WitMat 1 2 .BUNCH_KAUFMAN_A (1/2) 0 = .ok stf :=
    ⟨⟨trrkUpdate P1.A P1.X P1.Y 0 1 1, P1.dSub, P1.p⟩, by
      show blockedLoop 1 2 .BUNCH_KAUFMAN_A (1/2) 0 (0 + 1) 0
        ⟨c1WitMat, fun _ => 0, fun _ => 0⟩
        = .ok ⟨trrkUpdate P1.A P1.X P1.Y 0 1 1, P1.dSub, P1.p⟩
      have h1 : blockedLoop 1 2 .BUNCH_KAUFMAN_A (1/2) 0 (0 + 1) 0
          ⟨c1WitMat, fun _ => 0, fun _ => 0⟩
          = blockedLoop 1 2 .BUNCH_KAUFMAN_A (1/2) 0 0 (0 + 1)
              ⟨trrkUpdate P1.A P1.X P1.Y 0 1 1, P1.dSub, P1.p⟩ := by
        simp only [blockedLoop]
        rw [if_pos (by omega), hPP]
      rw [h1]
      rfl⟩
  exact ⟨stf, ⟨hok, by norm_num, c1Wit_nonsing⟩,
    pivoted_correct c1WitMat 1 2 .BUNCH_KAUFMAN_A (1/2) 0 stf hok
      (by norm_num) c1Wit_nonsing⟩

end Elemental
